import Mathlib

/-!
# LOPT-Solver: truth table, KV-map, Quine-McCluskey stack and prime chart

A shallow embedding of `truthtable.cpp`, `kvm.cpp`, `qmcp.cpp` and of the
per-output pipeline of `process_table` in `climain.cpp`.

Conventions of the embedding:

* `std::vector<T>` is `List T`; `unsigned int` is `Nat`.  The definitions of
  the pipeline compute in exact arithmetic; they agree with the code on the
  tables with at most 31 input variables whose column count and data size are
  below `2 ^ 32`.  Outside this range the `unsigned int` arithmetic of the code
  wraps: `TruthTable.widthMachine`, `TruthTable.stateCountChecked`,
  `TruthTable.inputChecked`, `TruthTable.outputChecked`, `KVMap.ncellMachine`,
  `KVMap.widthMachine` and `KVMap.heightMachine` are the same computations
  modulo `2 ^ 32`, and the statements about the table access and about the
  grid dimensions are made on them.
* `std::pow (2, n)` is `2 ^ n` and `std::sqrt` followed by the conversion to
  `unsigned int` is the integer square root `isqrt`.
* An operation that throws (`vector::at` out of range) or that has no defined
  behaviour (an access past the end of a vector, dereferencing an empty
  optional or a null pointer) returns `none`; loops whose termination is not
  evident take a fuel argument and return `none` when it runs out.
-/

set_option autoImplicit false

namespace LOPT

/-! ## truthtable.hpp / truthtable.cpp -/

/-- The ternary value `enum TriStateBool`. -/
inductive TriStateBool where
  | FALSE
  | TRUE
  | DONT_CARE
  deriving DecidableEq, Repr, Inhabited

open TriStateBool

/-- The class `TruthTable`: the number of input and output columns and the
row-major cell data. -/
structure TruthTable where
  inputs : Nat
  outputs : Nat
  data : List TriStateBool
  deriving DecidableEq, Repr

namespace TruthTable

/-- `TruthTable::inputCount`. -/
def inputCount (t : TruthTable) : Nat := t.inputs

/-- `TruthTable::outputCount`. -/
def outputCount (t : TruthTable) : Nat := t.outputs

/-- `TruthTable::width`: the sum `inputs + outputs` in exact arithmetic.  The
code computes it in `unsigned int`; `widthMachine` is the wrapped sum, equal
to this one when the sum is below `2 ^ 32`. -/
def width (t : TruthTable) : Nat := t.inputs + t.outputs

/-- `TruthTable::stateCount`: the number of complete rows,
`data.size () / width ()`, in exact arithmetic.  The code agrees with it when
the table has at least one column and neither the column count nor the size
of the data reaches `2 ^ 32`; `stateCountChecked` is the computation in the
arithmetic of the code. -/
def stateCount (t : TruthTable) : Nat := t.data.length / t.width

/-- `TruthTable::input`, with the row count and the index in exact
arithmetic; `inputChecked` is the access in the arithmetic of the code. -/
def input (t : TruthTable) (state input : Nat) : TriStateBool :=
  if state ≥ t.stateCount then DONT_CARE
  else if input ≥ t.inputs then DONT_CARE
  else t.data.getD (state * (t.inputs + t.outputs) + input) DONT_CARE

/-- `TruthTable::output`, with the row count and the index in exact
arithmetic; `outputChecked` is the access in the arithmetic of the code. -/
def output (t : TruthTable) (state output : Nat) : TriStateBool :=
  if state ≥ t.stateCount then DONT_CARE
  else if output ≥ t.outputs then DONT_CARE
  else t.data.getD (state * (t.inputs + t.outputs) + t.inputs + output) DONT_CARE

/-- The inner loop of `TruthTable::find`: row `s` is skipped as soon as one
input column is neither equal to the queried value nor `DONT_CARE`. -/
def rowMatches (t : TruthTable) (inputs : List TriStateBool) (s : Nat) : Bool :=
  (List.range t.inputs).all fun i =>
    !(decide (t.input s i ≠ inputs.getD i DONT_CARE) && decide (t.input s i ≠ DONT_CARE))

/-- `TruthTable::find`: the first row that is not skipped, `stateCount` when
every row is skipped.  The argument is the array the `inputs` pointer refers
to. -/
def find (t : TruthTable) (inputs : List TriStateBool) : Nat :=
  match (List.range t.stateCount).find? (t.rowMatches inputs) with
  | some s => s
  | none => t.stateCount

end TruthTable

/-! ## kvm.hpp / kvm.cpp -/

/-- `kvm_cell_var`: the value of input variable `var` in the grid cell
`(column, row)`. -/
def kvm_cell_var (var column row : Nat) : Bool :=
  if var % 2 = 0 then
    let xvar := var / 2
    let xcell := column
    let i1 := 2 ^ (xvar + 1)
    let i2 := (xcell + i1 / 2) % (i1 * 2)
    decide (i2 ≥ i1)
  else
    let yvar := var / 2
    let ycell := row
    let i1 := 2 ^ (yvar + 1)
    let i2 := (ycell + i1 / 2) % (i1 * 2)
    decide (i2 ≥ i1)

/-- Search downwards from `k` for the largest `r` with `r * r ≤ n`. -/
def isqrtAux (n : Nat) : Nat → Nat
  | 0 => 0
  | k + 1 => if (k + 1) * (k + 1) ≤ n then k + 1 else isqrtAux n k

/-- The integer square root: `std::sqrt` converted to `unsigned int`. -/
def isqrt (n : Nat) : Nat := isqrtAux n n

/-- The class `KVMap`; the field `variableCount` is the member `variables`
(read by `KVMap::variableCount`). -/
structure KVMap where
  variableCount : Nat
  width : Nat
  height : Nat
  data : List TriStateBool
  deriving DecidableEq, Repr

namespace KVMap

/-- The `width` the constructor computes from the number of variables, in
exact arithmetic.  The constructor computes in `unsigned int`; `widthMachine`
is that computation, equal to this one for at most 31 variables. -/
def widthFor (nvars : Nat) : Nat :=
  if nvars % 2 ≠ 0 then isqrt (2 ^ (nvars + 1)) else isqrt (2 ^ nvars)

/-- The `height` the constructor computes from the number of variables, in
exact arithmetic.  The constructor computes in `unsigned int`; `heightMachine`
is that computation, equal to this one for at most 31 variables. -/
def heightFor (nvars : Nat) : Nat := 2 ^ nvars / widthFor nvars

/-- The grid cells in the order the constructor visits them: columns in the
outer loop, rows in the inner loop. -/
def cells (width height : Nat) : List (Nat × Nat) :=
  (List.range width).flatMap fun column => (List.range height).map fun row => (column, row)

/-- The array `vars` the constructor fills for one cell. -/
def cellVars (nvars column row : Nat) : List TriStateBool :=
  (List.range nvars).map fun var => if kvm_cell_var var column row then TRUE else FALSE

/-- The value the constructor stores for one cell. -/
def cellValue (table : TruthTable) (output nvars column row : Nat) : TriStateBool :=
  let stateIndx := table.find (cellVars nvars column row)
  if stateIndx = table.stateCount then DONT_CARE else table.output stateIndx output

/-- The constructor `KVMap::KVMap (table, output)`: `data` is resized to
`ncell` value-initialised (`FALSE`) entries and then written cell by cell at
index `row * width + column`. -/
def ofTable (table : TruthTable) (output : Nat) : KVMap :=
  let nvars := table.inputCount
  let ncell := 2 ^ nvars
  let width := widthFor nvars
  let height := ncell / width
  { variableCount := nvars
    width := width
    height := height
    data := (cells width height).foldl
      (fun data cell =>
        data.set (cell.2 * width + cell.1) (cellValue table output nvars cell.1 cell.2))
      (List.replicate ncell FALSE) }

/-- `KVMap::mapWidth`. -/
def mapWidth (m : KVMap) : Nat := m.width

/-- `KVMap::mapHeight`. -/
def mapHeight (m : KVMap) : Nat := m.height

/-- `KVMap::valueAt`. -/
def valueAt (m : KVMap) (column row : Nat) : TriStateBool :=
  if column ≥ m.width then DONT_CARE
  else if row ≥ m.height then DONT_CARE
  else m.data.getD (row * m.width + column) DONT_CARE

/-- `KVMap::inputAt`. -/
def inputAt (m : KVMap) (column row input : Nat) : TriStateBool :=
  if column ≥ m.width then DONT_CARE
  else if row ≥ m.height then DONT_CARE
  else if kvm_cell_var input column row then TRUE else FALSE

end KVMap

/-! ## qmcp.hpp / qmcp.cpp: implicants -/

/-- The class `QMCImplicant`: the ternary vector `states`, the covered
minterm ids and the primality flag (`true` in a fresh object). -/
structure QMCImplicant where
  states : List TriStateBool := []
  minterms : List Nat := []
  prime : Bool := true
  deriving DecidableEq, Repr

/-- `QMCImplicant::initialize (map, column, row)`. -/
def QMCImplicant.initialize (self : QMCImplicant) (map : KVMap) (column row : Nat) : QMCImplicant :=
  { self with
    states := self.states ++ (List.range map.variableCount).map fun i => map.inputAt column row i
    minterms :=
      if map.valueAt column row ≠ DONT_CARE then self.minterms ++ [row * map.mapWidth + column]
      else self.minterms }

namespace QMCImplicant

/-- The scanning loop of `QMCImplicant::tryMerge` over the positions from `i`
on, the two vectors being of equal length `size`: `none` when the loop leaves
the function with `std::nullopt`, otherwise the value of `mergeIndex` after the
loop (`size` when no position differs). -/
def mergeIndexLoop (size : Nat) :
    List TriStateBool → List TriStateBool → Nat → Nat → Option Nat
  | a :: as, b :: bs, i, mergeIndex =>
    if xor (decide (a = DONT_CARE)) (decide (b = DONT_CARE)) then none
    else if a ≠ b then
      if mergeIndex ≠ size then none else mergeIndexLoop size as bs (i + 1) i
    else mergeIndexLoop size as bs (i + 1) mergeIndex
  | _, _, _, mergeIndex => some mergeIndex

/-- The minterm loop of `QMCImplicant::tryMerge`, also used by
`QMCPrimeChart::initialize`: every id of `other` for which `std::find` does
not find an equal id in `merged` is pushed to the back of `merged`. -/
def mergeMinterms (merged other : List Nat) : List Nat :=
  other.foldl (fun ms m => if m ∈ ms then ms else ms ++ [m]) merged

/-- `QMCImplicant::tryMerge`.  `some none` is the result `std::nullopt`,
`some (some m)` a merged implicant, and `none` the write
`merged.states[mergeIndex]` past the end of the vector, which happens when the
two vectors are equal. -/
def tryMerge (self implicant : QMCImplicant) : Option (Option QMCImplicant) :=
  if implicant.states.length ≠ self.states.length then some none
  else
    match mergeIndexLoop self.states.length self.states implicant.states 0 self.states.length with
    | none => some none
    | some mergeIndex =>
      if mergeIndex < self.states.length then
        some (some
          { states := self.states.set mergeIndex DONT_CARE
            minterms := mergeMinterms self.minterms implicant.minterms
            prime := self.prime })
      else none

/-- `QMCImplicant::variableStates`. -/
def variableStates (self : QMCImplicant) : List TriStateBool := self.states

/-- `QMCImplicant::mintermSet`. -/
def mintermSet (self : QMCImplicant) : List Nat := self.minterms

/-- `QMCImplicant::markPrime`. -/
def markPrime (self : QMCImplicant) (prime : Bool) : QMCImplicant := { self with prime := prime }

/-- `QMCImplicant::isPrime`. -/
def isPrime (self : QMCImplicant) : Bool := self.prime

/-- `QMCImplicant::operator==`: equality of the vectors only. -/
def eqv (self other : QMCImplicant) : Bool := decide (self.states = other.states)

/-- `QMCImplicant::inputsTrueCount`. -/
def inputsTrueCount (self : QMCImplicant) : Nat :=
  self.states.foldl (fun numberOfOnes s => if s = TRUE then numberOfOnes + 1 else numberOfOnes) 0

/-- `QMCImplicant::relevantInputCount`. -/
def relevantInputCount (self : QMCImplicant) : Nat :=
  self.states.foldl
    (fun relevantInputs s => if s ≠ DONT_CARE then relevantInputs + 1 else relevantInputs) 0

/-- `QMCImplicant::variableCount`. -/
def variableCount (self : QMCImplicant) : Nat := self.states.length

end QMCImplicant

/-! ## qmcp.cpp: implicant sets -/

/-- The class `QMCImplicantSet`. -/
structure QMCImplicantSet where
  implicants : List QMCImplicant := []
  deriving DecidableEq, Repr

namespace QMCImplicantSet

/-- `QMCImplicantSet::add`: nothing is stored when an implicant with an equal
vector is already there. -/
def add (self : QMCImplicantSet) (implicant : QMCImplicant) : QMCImplicantSet :=
  if self.implicants.any (fun x => x.eqv implicant) then self
  else { implicants := self.implicants ++ [implicant] }

/-- The inner loop of `QMCImplicantSet::tryMerge` for one `im1`: the
implicants `im2` of the other set that are still to visit, the target vector
and `hasMerged`.  Returns the updated `im1`, the visited implicants with their
updated flags, the target vector and `hasMerged`. -/
def tryMergeInner (im1 : QMCImplicant) :
    List QMCImplicant → List QMCImplicantSet → Bool →
      Option (QMCImplicant × List QMCImplicant × List QMCImplicantSet × Bool)
  | [], targetVector, hasMerged => some (im1, [], targetVector, hasMerged)
  | im2 :: rest, targetVector, hasMerged =>
    match im1.tryMerge im2 with
    | none => none
    | some none =>
      (tryMergeInner im1 rest targetVector hasMerged).map fun r => (r.1, im2 :: r.2.1, r.2.2)
    | some (some merged) =>
      let merged := merged.markPrime true
      let numberOfOnes := merged.inputsTrueCount
      match targetVector[numberOfOnes]? with
      | none => none
      | some target =>
        (tryMergeInner (im1.markPrime false) rest
            (targetVector.set numberOfOnes (target.add merged)) true).map
          fun r => (r.1, im2.markPrime false :: r.2.1, r.2.2)

/-- The outer loop of `QMCImplicantSet::tryMerge` over the implicants `im1` of
this set.  Returns the visited implicants of this set, the implicants of the
other set, the target vector and `hasMerged`. -/
def tryMergeOuter :
    List QMCImplicant → List QMCImplicant → List QMCImplicantSet → Bool →
      Option (List QMCImplicant × List QMCImplicant × List QMCImplicantSet × Bool)
  | [], others, targetVector, hasMerged => some ([], others, targetVector, hasMerged)
  | im1 :: rest, others, targetVector, hasMerged =>
    match tryMergeInner im1 others targetVector hasMerged with
    | none => none
    | some (im1, others, targetVector, hasMerged) =>
      (tryMergeOuter rest others targetVector hasMerged).map fun r => (im1 :: r.1, r.2)

/-- `QMCImplicantSet::tryMerge (implicantSet, targetVector)`: returns this
set, the other set, the target vector and the result `hasMerged`; `none` when
`targetVector.at` throws or an implicant merge writes out of bounds. -/
def tryMerge (self implicantSet : QMCImplicantSet) (targetVector : List QMCImplicantSet) :
    Option (QMCImplicantSet × QMCImplicantSet × List QMCImplicantSet × Bool) :=
  (tryMergeOuter self.implicants implicantSet.implicants targetVector false).map fun r =>
    ({ implicants := r.1 }, { implicants := r.2.1 }, r.2.2)

/-- `QMCImplicantSet::implicantSet`. -/
def implicantSet (self : QMCImplicantSet) : List QMCImplicant := self.implicants

/-- `QMCImplicantSet::variableCount`. -/
def variableCount (self : QMCImplicantSet) : Nat :=
  match self.implicants with
  | [] => 0
  | im :: _ => im.variableCount

end QMCImplicantSet

/-! ## qmcp.cpp: the stack of merge stages -/

/-- The class `QMCStack`: the stages, each a vector of implicant sets indexed
by the number of `TRUE` entries.  (The member `minterms` is never read or
written by the program and is left out.) -/
structure QMCStack where
  stages : List (List QMCImplicantSet) := []
  deriving DecidableEq, Repr

/-- The grid cells in the order `QMCStack::initialize` visits them: rows in
the outer loop, columns in the inner loop. -/
def QMCStack.cellsByRow (map : KVMap) : List (Nat × Nat) :=
  (List.range map.mapHeight).flatMap fun row =>
    (List.range map.mapWidth).map fun column => (column, row)

/-- The body of the cell loop of `QMCStack::initialize`; `none` when
`implicantSets.at` throws. -/
def QMCStack.initializeCell (map : KVMap) (implicantSets : List QMCImplicantSet)
    (cell : Nat × Nat) : Option (List QMCImplicantSet) :=
  if map.valueAt cell.1 cell.2 = FALSE then some implicantSets
  else
    let implicant := QMCImplicant.initialize {} map cell.1 cell.2
    let numberOfOnes := implicant.inputsTrueCount
    match implicantSets[numberOfOnes]? with
    | none => none
    | some target => some (implicantSets.set numberOfOnes (target.add implicant))

/-- `QMCStack::initialize (map)`: the stages are cleared and stage 0 is built
with `variableCount + 1` sets. -/
def QMCStack.initialize (_self : QMCStack) (map : KVMap) : Option QMCStack :=
  ((QMCStack.cellsByRow map).foldlM (QMCStack.initializeCell map)
      (List.replicate (map.variableCount + 1) {})).map
    fun implicantSets => { stages := [implicantSets] }

namespace QMCStack

/-- One iteration `i` of the loop of `QMCStack::tryMerge` on the previous
stage, the new stage and `hasMerged`. -/
def tryMergeStep (st : List QMCImplicantSet × List QMCImplicantSet × Bool) (i : Nat) :
    Option (List QMCImplicantSet × List QMCImplicantSet × Bool) :=
  match st.1[i]?, st.1[i + 1]? with
  | some a, some b =>
    match a.tryMerge b st.2.1 with
    | none => none
    | some (a, b, stage2Set, merged) =>
      some ((st.1.set i a).set (i + 1) b, stage2Set, if merged then true else st.2.2)
  | _, _ => none

/-- `QMCStack::tryMerge`: the updated stack and the returned flag.  `none`
when an `at` throws: on a stack without a stage (`stages.at (size - 2)` with a
wrapped index), on a previous stage without a set (the loop bound `size - 1`
wraps and `at (0)` throws) or inside a set merge. -/
def tryMerge (self : QMCStack) : Option (QMCStack × Bool) :=
  match self.stages.getLast? with
  | none => none
  | some stage1Set =>
    if stage1Set.length = 0 then none
    else
      match (List.range (stage1Set.length - 1)).foldlM tryMergeStep
          (stage1Set, List.replicate stage1Set.length {}, false) with
      | none => none
      | some (stage1Set, stage2Set, hasMerged) =>
        some ({ stages := self.stages.dropLast ++ [stage1Set, stage2Set] }, hasMerged)

/-- `QMCStack::variableCount`. -/
def variableCount (self : QMCStack) : Nat :=
  match self.stages with
  | [] => 0
  | stage0 :: _ =>
    match stage0.find? (fun s => decide (s.variableCount > 0)) with
    | some s => s.variableCount
    | none => 0

/-- `QMCStack::stageCount`. -/
def stageCount (self : QMCStack) : Nat := self.stages.length

/-- `QMCStack::implicantSetFor`: `some none` is `std::nullopt`, `none` a
throwing `at`. -/
def implicantSetFor (self : QMCStack) (stage numberOfOnes : Nat) :
    Option (Option QMCImplicantSet) :=
  if stage ≥ self.stages.length then some none
  else if numberOfOnes > self.variableCount then some none
  else
    match self.stages[stage]? with
    | none => none
    | some sets =>
      match sets[numberOfOnes]? with
      | none => none
      | some set => some (some set)

/-- The loop `while (implicantStack.tryMerge ());` of `process_table`, at most
`fuel` calls. -/
def mergeLoop : Nat → QMCStack → Option QMCStack
  | 0, _ => none
  | fuel + 1, stack =>
    match stack.tryMerge with
    | none => none
    | some (stack, true) => mergeLoop fuel stack
    | some (stack, false) => some stack

end QMCStack

/-! ## qmcp.cpp: the prime chart -/

/-- The class `QMCPrimeChart`. -/
structure QMCPrimeChart where
  primes : List QMCImplicant := []
  minterms : List Nat := []
  deriving DecidableEq, Repr

/-- The body of the implicant loop of `QMCPrimeChart::initialize`. -/
def QMCPrimeChart.addImplicant (self : QMCPrimeChart) (implicant : QMCImplicant) :
    QMCPrimeChart :=
  if implicant.isPrime && !implicant.mintermSet.isEmpty then
    { primes := self.primes ++ [implicant]
      minterms := QMCImplicant.mergeMinterms self.minterms implicant.mintermSet }
  else self

/-- The body of the two outer loops of `QMCPrimeChart::initialize` for one
stage and one set index; `none` when `implicantSetFor` throws or returns the
empty optional that the code dereferences. -/
def QMCPrimeChart.initializeSet (stack : QMCStack) (stage : Nat) (self : QMCPrimeChart)
    (numberOfOnes : Nat) : Option QMCPrimeChart :=
  match stack.implicantSetFor stage numberOfOnes with
  | some (some implicants) => some (implicants.implicantSet.foldl QMCPrimeChart.addImplicant self)
  | _ => none

/-- `QMCPrimeChart::initialize (stack)`: `stage` runs below `stageCount` and
`numberOfOnes` runs below `stack.variableCount ()`. -/
def QMCPrimeChart.initialize (self : QMCPrimeChart) (stack : QMCStack) : Option QMCPrimeChart :=
  (List.range stack.stageCount).foldlM
    (fun chart stage =>
      (List.range stack.variableCount).foldlM (QMCPrimeChart.initializeSet stack stage) chart)
    self

namespace QMCPrimeChart

/-- The prime loop of `extractEPIs` for one minterm: `epi` is the covering
prime found so far; `none` is the jump to `not_essential` at the second
covering prime. -/
def epiScan (minterm : Nat) : List QMCImplicant → Option QMCImplicant → Option (Option QMCImplicant)
  | [], epi => some epi
  | primeImplicant :: rest, epi =>
    if minterm ∈ primeImplicant.mintermSet then
      match epi with
      | some _ => none
      | none => epiScan minterm rest (some primeImplicant)
    else epiScan minterm rest epi

/-- The body of the minterm loop of `extractEPIs`. -/
def extractStep (primes : List QMCImplicant) (essentialPrimes : List QMCImplicant)
    (minterm : Nat) : List QMCImplicant :=
  match epiScan minterm primes none with
  | some (some epi) =>
    if essentialPrimes.any (fun x => x.eqv epi) then essentialPrimes else essentialPrimes ++ [epi]
  | _ => essentialPrimes

/-- `QMCPrimeChart::extractEPIs (essentialPrimes)`: the reduced chart and the
extended list. -/
def extractEPIs (self : QMCPrimeChart) (essentialPrimes : List QMCImplicant) :
    QMCPrimeChart × List QMCImplicant :=
  let essentialPrimes := self.minterms.foldl (extractStep self.primes) essentialPrimes
  ({ primes := self.primes.filter fun pi => !essentialPrimes.any (fun x => x.eqv pi)
     minterms := self.minterms.filter fun m =>
       !essentialPrimes.any (fun epi => decide (m ∈ epi.mintermSet)) },
   essentialPrimes)

/-- `QMCPrimeChart::primeImplicants`. -/
def primeImplicants (self : QMCPrimeChart) : List QMCImplicant := self.primes

/-- `QMCPrimeChart::mintermIds`. -/
def mintermIds (self : QMCPrimeChart) : List Nat := self.minterms

/-- `QMCPrimeChart::variableCount`. -/
def variableCount (self : QMCPrimeChart) : Nat :=
  match self.primes with
  | [] => 0
  | p :: _ => p.variableCount

end QMCPrimeChart

/-! ## qmcp.cpp: the cover search of `findOptimalPrimes` -/

/-- The type `term_t`, a `std::set` of pointers to elements of the chart's
prime vector.  A pointer is represented by the index of the element it points
to; the set orders pointers by address, that is by index, so a term is the
increasing list of its indices. -/
abbrev term_t := List Nat

/-- The type `bracket_t`. -/
abbrev bracket_t := List term_t

/-- Insertion of one element into a `std::set`. -/
def termInsert (x : Nat) : term_t → term_t
  | [] => [x]
  | y :: ys =>
    if x < y then x :: y :: ys
    else if x = y then y :: ys
    else y :: termInsert x ys

/-- The range insertion `term1->insert (term2->begin (), term2->end ())`. -/
def termInsertAll (term1 term2 : term_t) : term_t :=
  term2.foldl (fun t x => termInsert x t) term1

/-- The algorithm `std::includes (a.begin (), a.end (), b.begin (), b.end ())`
on two sets: every element of `b` is an element of `a`. -/
def includes (a b : term_t) : Bool := b.all fun x => decide (x ∈ a)

/-- The comparison `operator<` of two sets, the lexicographic order that
`std::sort` uses on the terms. -/
def termLt : term_t → term_t → Bool
  | [], [] => false
  | [], _ :: _ => true
  | _ :: _, [] => false
  | x :: xs, y :: ys => if x < y then true else if y < x then false else termLt xs ys

/-- The call of `std::sort` on a bracket. -/
def sortTerms (bracket : bracket_t) : bracket_t :=
  bracket.insertionSort fun a b => termLt b a = false

/-- The tail of `std::unique`: `prev` is the last term kept. -/
def uniqueAux (prev : term_t) : bracket_t → bracket_t
  | [] => []
  | t :: rest => if t = prev then uniqueAux prev rest else t :: uniqueAux t rest

/-- The algorithm `std::unique` followed by `erase`: of every run of equal
neighbours the first one is kept. -/
def unique : bracket_t → bracket_t
  | [] => []
  | t :: rest => t :: uniqueAux t rest

/-- The two inner loops of `mergeBrackets` for one further bracket: every term
of `merged` is replaced, in place, by its unions with the terms of the
bracket; a term stays as it is when the bracket has no term. -/
def mergeBracket (merged bracket : bracket_t) : bracket_t :=
  merged.flatMap fun term1 =>
    match bracket with
    | [] => [term1]
    | _ :: _ => bracket.map fun term2 => termInsertAll term1 term2

/-- The function `mergeBrackets`; `none` when `brackets` is empty and
`*brackets.begin ()` is not defined. -/
def mergeBrackets (brackets : List bracket_t) : Option bracket_t :=
  match brackets with
  | [] => none
  | first :: others => some (others.foldl mergeBracket first)

/-- The loops of `eliminateSupersets` with the iterators as positions:
`term1` and `term2` are the current positions, the state is at the test
`term2 != bracket.end ()` of the inner loop.  `none` when a position past the
end is dereferenced or when the fuel runs out. -/
def eliminateLoop : Nat → Nat → Nat → bracket_t → Option bracket_t
  | 0, _, _, _ => none
  | fuel + 1, term1, term2, bracket =>
    if term2 = bracket.length then
      -- the inner loop ends: `term1++`, then the test `term1 != bracket.end () - 1`
      if term1 + 1 + 1 = bracket.length then some bracket
      else eliminateLoop fuel (term1 + 1) (term1 + 1 + 1) bracket
    else
      match bracket[term1]?, bracket[term2]? with
      | some t1, some t2 =>
        if includes t1 t2 then
          -- `term1 = bracket.erase (term1)`, then the test of the outer loop
          let bracket := bracket.eraseIdx term1
          if term1 + 1 = bracket.length then some bracket
          else eliminateLoop fuel term1 (term1 + 1) bracket
        else if includes t2 t1 then
          eliminateLoop fuel term1 term2 (bracket.eraseIdx term2)
        else eliminateLoop fuel term1 (term2 + 1) bracket
      | _, _ => none

/-- The function `eliminateSupersets`, run for at most `fuel` steps of the
inner loop. -/
def eliminateSupersets (fuel : Nat) (bracket : bracket_t) : Option bracket_t :=
  if 0 + 1 = bracket.length then some bracket else eliminateLoop fuel 0 1 bracket

namespace QMCPrimeChart

/-- The bracket that `findOptimalPrimes` builds for one minterm: one singleton
term for every prime, in the order of the prime vector, whose minterm list
holds the minterm. -/
def sumFor (self : QMCPrimeChart) (minterm : Nat) : bracket_t :=
  (List.range self.primes.length).filterMap fun id =>
    match self.primes[id]? with
    | some implicant => if minterm ∈ implicant.mintermSet then some [id] else none
    | none => none

/-- The product of sums that `findOptimalPrimes` builds: one bracket per chart
minterm, in the order of the minterm vector. -/
def productOfSums (self : QMCPrimeChart) : List bracket_t :=
  self.minterms.map self.sumFor

/-- The loop that adds `relevantInputCount` of the primes of a term to `l`. -/
def termLengthFrom (self : QMCPrimeChart) (l : Nat) (term : term_t) : Nat :=
  term.foldl
    (fun l id =>
      match self.primes[id]? with
      | some implicant => l + implicant.relevantInputCount
      | none => l)
    l

/-- The sum `l` of `relevantInputCount` over the primes of a term. -/
def termLength (self : QMCPrimeChart) (term : term_t) : Nat := self.termLengthFrom 0 term

/-- The search for the shortest term: `tlen` and `shortestTerm` (`none` is the
null pointer). -/
def shortestLoop (self : QMCPrimeChart) : bracket_t → Nat → Option term_t → Option term_t
  | [], _, shortestTerm => shortestTerm
  | term :: rest, tlen, shortestTerm =>
    let l := self.termLength term
    if l < tlen ∨ tlen = 0 then shortestLoop self rest l (some term)
    else shortestLoop self rest tlen shortestTerm

/-- `QMCPrimeChart::findOptimalPrimes (optimalPrimes)`: the extended output
list; `none` when the function does not complete (no minterm in the chart, a
position past the end in `eliminateSupersets`, no term to choose from, or the
fuel of `eliminateSupersets` runs out). -/
def findOptimalPrimes (self : QMCPrimeChart) (fuel : Nat) (optimalPrimes : List QMCImplicant) :
    Option (List QMCImplicant) :=
  match mergeBrackets self.productOfSums with
  | none => none
  | some sumOfProducts =>
    match eliminateSupersets fuel (unique (sortTerms sumOfProducts)) with
    | none => none
    | some sumOfProducts =>
      match self.shortestLoop sumOfProducts 0 none with
      | none => none
      | some shortestTerm => some (optimalPrimes ++ shortestTerm.filterMap fun id => self.primes[id]?)

end QMCPrimeChart

/-! ## climain.cpp: the pipeline of `process_table` -/

/-- The body of the output loop of `process_table` for output `o`: the list
`essentialPrimeImplicants` that is pushed to `finalTerms`.  The merge loop and
`eliminateSupersets` run with the given fuel. -/
def process_output (fuel : Nat) (table : TruthTable) (o : Nat) : Option (List QMCImplicant) :=
  let kvMap := KVMap.ofTable table o
  match QMCStack.initialize {} kvMap with
  | none => none
  | some implicantStack =>
    match implicantStack.mergeLoop fuel with
    | none => none
    | some implicantStack =>
      match QMCPrimeChart.initialize {} implicantStack with
      | none => none
      | some chart =>
        let r := chart.extractEPIs []
        if r.1.mintermIds.length ≠ 0 then r.1.findOptimalPrimes fuel r.2 else some r.2

/-- The function `process_table`: the vector `finalTerms`. -/
def process_table (fuel : Nat) (table : TruthTable) : Option (List (List QMCImplicant)) :=
  (List.range table.outputCount).mapM (process_output fuel table)

/-! ## Vocabulary of the statements -/

/-- Row `s` of the table fits the queried values: every input column of the
row is `DONT_CARE` or equal to the queried value. -/
def TruthTable.RowFits (t : TruthTable) (inputs : List TriStateBool) (s : Nat) : Prop :=
  ∀ i, i < t.inputs → t.input s i = DONT_CARE ∨ t.input s i = inputs.getD i DONT_CARE

/-- A grid over `variableCount` variables as the `KVMap` constructor builds
it: the width and the height are the ones computed from the number of
variables and `data` holds one entry per cell. -/
def KVMap.WellFormed (g : KVMap) : Prop :=
  g.width = KVMap.widthFor g.variableCount ∧
  g.height = KVMap.heightFor g.variableCount ∧
  g.data.length = 2 ^ g.variableCount

/-- The cells whose implicant `QMCStack::initialize` stores in the set of
index `w`: the cell is not `FALSE` and its vector has `w` entries `TRUE`. -/
def QMCStack.stage0Sel (g : KVMap) (w : Nat) (cell : Nat × Nat) : Bool :=
  decide (g.valueAt cell.1 cell.2 ≠ FALSE) &&
    decide (( QMCImplicant.initialize {} g cell.1 cell.2).inputsTrueCount = w)

/-- The set of index `w` of stage 0 once the cells `visited` have been
processed: the implicants of the selected cells in the order of the visit. -/
def QMCStack.stage0Group (g : KVMap) (visited : List (Nat × Nat)) (w : Nat) : QMCImplicantSet :=
  { implicants := (visited.filter (QMCStack.stage0Sel g w)).map fun cell =>
      QMCImplicant.initialize {} g cell.1 cell.2 }

/-- A term is well formed for a chart: its indices increase strictly and
each of them is a position of the chart's prime vector. -/
def QMCPrimeChart.TermOK (c : QMCPrimeChart) (t : term_t) : Prop :=
  t.Pairwise (· < ·) ∧ ∀ i, i ∈ t → i < c.primes.length

/-- The prime at position `i` of the chart covers the minterm `m`. -/
def QMCPrimeChart.Covers (c : QMCPrimeChart) (i m : Nat) : Prop :=
  ∃ p, c.primes[i]? = some p ∧ m ∈ p.mintermSet

/-- The sum of `relevantInputCount` over a list of implicants. -/
def literalCost (l : List QMCImplicant) : Nat := (l.map QMCImplicant.relevantInputCount).sum

/-- The list of implicants covers every minterm of the list `ms`. -/
def CoversAll (l : List QMCImplicant) (ms : List Nat) : Prop :=
  ∀ m, m ∈ ms → ∃ p, p ∈ l ∧ m ∈ p.mintermSet

/-- The table that samples a grid: it has the input count of the grid and one
output, and for every cell of `order` one row that holds the values `inputAt`
gives the input variables in the cell, followed by the value `valueAt` of the
cell. -/
def KVMap.sampleTable (g : KVMap) (order : List (Nat × Nat)) : TruthTable :=
  { inputs := g.variableCount
    outputs := 1
    data := order.flatMap fun cell =>
      ((List.range g.variableCount).map fun v => g.inputAt cell.1 cell.2 v) ++
        [g.valueAt cell.1 cell.2] }

/-- The truth table of the logical OR of two inputs: rows `00 -> 0`,
`01 -> 1`, `10 -> 1`, `11 -> 1`. -/
def orTable : TruthTable :=
  { inputs := 2
    outputs := 1
    data := [FALSE, FALSE, FALSE, FALSE, TRUE, TRUE, TRUE, FALSE, TRUE, TRUE, TRUE, TRUE] }

/-- The truth table of the logical AND of two inputs: rows `00 -> 0`,
`01 -> 0`, `10 -> 0`, `11 -> 1`. -/
def andTable : TruthTable :=
  { inputs := 2
    outputs := 1
    data := [FALSE, FALSE, FALSE, FALSE, TRUE, FALSE, TRUE, FALSE, FALSE, TRUE, TRUE, TRUE] }

/-- The implicant that a successful merge of `a` with `b` stores in the new
stage: the result of `a.tryMerge (b)` marked prime; `none` when the merge does
not succeed. -/
def QMCImplicant.mergedWith (a b : QMCImplicant) : Option QMCImplicant :=
  match a.tryMerge b with
  | some (some m) => some (m.markPrime true)
  | _ => none

/-- The merge `a.tryMerge (b)` succeeds. -/
def QMCImplicant.merges (a b : QMCImplicant) : Bool := (a.mergedWith b).isSome

/-- The visit of the pair `(a, b)` in `QMCImplicantSet::tryMerge` completes
for a target vector of `n` sets: the merge does not write out of bounds and
the weight of a merged result is an index of the target vector. -/
def QMCImplicant.pairOK (n : Nat) (a b : QMCImplicant) : Bool :=
  match a.tryMerge b with
  | none => false
  | some none => true
  | some (some m) => decide (m.inputsTrueCount < n)

/-- The statement `targetVector.at (numberOfOnes).add (merged)` for an index
inside the target vector. -/
def QMCImplicantSet.addAt (targetVector : List QMCImplicantSet) (merged : QMCImplicant) :
    List QMCImplicantSet :=
  match targetVector[merged.inputsTrueCount]? with
  | some target => targetVector.set merged.inputsTrueCount (target.add merged)
  | none => targetVector

/-- An implicant of a stage after a round: marked non-prime when it merges
with an implicant of the previous set `prev` or of the next set `next`. -/
def QMCStack.markMerged (prev next : List QMCImplicant) (x : QMCImplicant) : QMCImplicant :=
  if prev.any (fun a => a.merges x) || next.any (fun b => x.merges b) then x.markPrime false
  else x

/-- The sets of a stage after a round of `QMCStack::tryMerge`; `prev` holds
the implicants of the set before the first set of the list. -/
def QMCStack.roundFlags (prev : List QMCImplicant) :
    List QMCImplicantSet → List QMCImplicantSet
  | [] => []
  | [a] => [{ implicants := a.implicants.map (QMCStack.markMerged prev []) }]
  | a :: b :: rest =>
    { implicants := a.implicants.map (QMCStack.markMerged prev b.implicants) } ::
      QMCStack.roundFlags a.implicants (b :: rest)

/-- The merged implicants of a round in the order in which they are added to
the new stage: pairs of neighbouring sets from the first to the last, within a
pair the implicants of the first set in the outer loop. -/
def QMCStack.roundMerged : List QMCImplicantSet → List QMCImplicant
  | a :: b :: rest =>
    (a.implicants.flatMap fun x => b.implicants.filterMap x.mergedWith) ++
      QMCStack.roundMerged (b :: rest)
  | _ => []

/-- Every visit of a round completes for a target vector of `n` sets. -/
def QMCStack.roundOK (n : Nat) : List QMCImplicantSet → Bool
  | a :: b :: rest =>
    (a.implicants.all fun x => b.implicants.all (x.pairOK n)) && QMCStack.roundOK n (b :: rest)
  | _ => true

/-- The loop of `QMCStack::tryMerge` as a recursion along the stage: `a` is
the first set of the next pair, with the flags the pairs before have left, and
the list holds the sets after it. -/
def QMCStack.roundRec :
    QMCImplicantSet → List QMCImplicantSet → List QMCImplicantSet → Bool →
      Option (List QMCImplicantSet × List QMCImplicantSet × Bool)
  | a, [], stage2Set, hasMerged => some ([a], stage2Set, hasMerged)
  | a, b :: rest, stage2Set, hasMerged =>
    match a.tryMerge b stage2Set with
    | none => none
    | some (a, b, stage2Set, merged) =>
      (QMCStack.roundRec b rest stage2Set (if merged then true else hasMerged)).map
        fun r => (a :: r.1, r.2)

/-- The implicant `x` of set `w` of the stage `prev` takes part in a
successful merge of the round: with an implicant of the next set, or with an
implicant of the set before. -/
def QMCStack.TookPart (prev : List QMCImplicantSet) (w : Nat) (x : QMCImplicant) : Prop :=
  (∃ b' b m, prev[w + 1]? = some b' ∧ b ∈ b'.implicants ∧ x.tryMerge b = some (some m)) ∨
  (∃ w0 a' a m, w0 + 1 = w ∧ prev[w0]? = some a' ∧ a ∈ a'.implicants ∧
    a.tryMerge x = some (some m))

/-- The sets of stage `k` of a stack over `I` variables: `I + 1` sets, no two
implicants of a set with equal vectors, and every implicant of set `w` has a
vector of `I` entries with `w` entries `TRUE` and `k` entries `DONT_CARE` and
no minterm id twice. -/
def QMCStack.StageOK (I k : Nat) (G : List QMCImplicantSet) : Prop :=
  G.length = I + 1 ∧
  ∀ (w : Nat) (S : QMCImplicantSet), G[w]? = some S →
    (S.implicants.map QMCImplicant.states).Nodup ∧
    ∀ x ∈ S.implicants, x.states.length = I ∧ x.inputsTrueCount = w ∧
      x.states.countP (fun v => decide (v = DONT_CARE)) = k ∧ x.minterms.Nodup

/-- Every stage of the stack is well formed for its index. -/
def QMCStack.StackOK (I : Nat) (s : QMCStack) : Prop :=
  s.stages ≠ [] ∧
  ∀ (k : Nat) (G : List QMCImplicantSet), s.stages[k]? = some G → QMCStack.StageOK I k G

/-- Stage 0 of the stack of the logical OR of two inputs. -/
def orStage0 : List QMCImplicantSet :=
  [{ implicants := [] },
   { implicants := [⟨[TRUE, FALSE], [1], true⟩, ⟨[FALSE, TRUE], [2], true⟩] },
   { implicants := [⟨[TRUE, TRUE], [3], true⟩] }]

/-- The stack of the logical OR of two inputs after one round of merging. -/
def orStackMerged : QMCStack :=
  { stages :=
      [[{ implicants := [] },
        { implicants := [⟨[TRUE, FALSE], [1], false⟩, ⟨[FALSE, TRUE], [2], false⟩] },
        { implicants := [⟨[TRUE, TRUE], [3], false⟩] }],
       [{ implicants := [] },
        { implicants := [⟨[TRUE, DONT_CARE], [1, 3], true⟩, ⟨[DONT_CARE, TRUE], [2, 3], true⟩] },
        { implicants := [] }]] }

/-- A truth table of four inputs and one output, one row per assignment (row
`r` holds bit `i` of `r` as input `i`); the output is `TRUE` in the rows 0, 3,
4, 6, 7, 10, 11 and 14. -/
def tieTable : TruthTable :=
  { inputs := 4
    outputs := 1
    data :=
      [FALSE, FALSE, FALSE, FALSE, TRUE,
       TRUE, FALSE, FALSE, FALSE, FALSE,
       FALSE, TRUE, FALSE, FALSE, FALSE,
       TRUE, TRUE, FALSE, FALSE, TRUE,
       FALSE, FALSE, TRUE, FALSE, TRUE,
       TRUE, FALSE, TRUE, FALSE, FALSE,
       FALSE, TRUE, TRUE, FALSE, TRUE,
       TRUE, TRUE, TRUE, FALSE, TRUE,
       FALSE, FALSE, FALSE, TRUE, FALSE,
       TRUE, FALSE, FALSE, TRUE, FALSE,
       FALSE, TRUE, FALSE, TRUE, TRUE,
       TRUE, TRUE, FALSE, TRUE, TRUE,
       FALSE, FALSE, TRUE, TRUE, FALSE,
       TRUE, FALSE, TRUE, TRUE, FALSE,
       FALSE, TRUE, TRUE, TRUE, TRUE,
       TRUE, TRUE, TRUE, TRUE, FALSE] }

/-- The chart that the pipeline of `process_table` reaches for `tieTable`
after `extractEPIs`: seven primes of three literals each and six minterms,
every minterm covered by at least two primes. -/
def tieChart : QMCPrimeChart :=
  { primes :=
      [⟨[FALSE, DONT_CARE, TRUE, FALSE], [3, 7], true⟩,
       ⟨[TRUE, TRUE, DONT_CARE, FALSE], [5, 6], true⟩,
       ⟨[TRUE, TRUE, FALSE, DONT_CARE], [5, 9], true⟩,
       ⟨[DONT_CARE, TRUE, TRUE, FALSE], [7, 6], true⟩,
       ⟨[FALSE, TRUE, TRUE, DONT_CARE], [7, 11], true⟩,
       ⟨[DONT_CARE, TRUE, FALSE, TRUE], [8, 9], true⟩,
       ⟨[FALSE, TRUE, DONT_CARE, TRUE], [8, 11], true⟩]
    minterms := [7, 5, 6, 9, 11, 8] }

end LOPT

namespace LOPT

open TriStateBool

/-! ## Definitions: machine arithmetic, choices of a product of sums, rounds -/

/-- `TruthTable::width` in the arithmetic of `unsigned int`: the sum
`inputs + outputs` wraps at `2 ^ 32`. -/
def TruthTable.widthMachine (t : TruthTable) : Nat := (t.inputs + t.outputs) % 2 ^ 32

/-- `TruthTable::stateCount` in the arithmetic of the code: `none` when
`width ()` is 0 and the quotient `data.size () / width ()` is not defined;
the quotient is returned as an `unsigned int`. -/
def TruthTable.stateCountChecked (t : TruthTable) : Option Nat :=
  if t.widthMachine = 0 then none else some (t.data.length / t.widthMachine % 2 ^ 32)

/-- `TruthTable::input` in the arithmetic of the code: the index
`state * (inputs + outputs) + input` is computed in `unsigned int`; `none`
when `stateCount ()` divides by 0 or when `data[...]` is read past the end. -/
def TruthTable.inputChecked (t : TruthTable) (state input : Nat) : Option TriStateBool :=
  match t.stateCountChecked with
  | none => none
  | some stateCount =>
    if state ≥ stateCount then some DONT_CARE
    else if input ≥ t.inputs then some DONT_CARE
    else t.data[(state * t.widthMachine + input) % 2 ^ 32]?

/-- `TruthTable::output` in the arithmetic of the code: the index
`state * (inputs + outputs) + inputs + output` is computed in `unsigned int`;
`none` when `stateCount ()` divides by 0 or when `data[...]` is read past the
end. -/
def TruthTable.outputChecked (t : TruthTable) (state output : Nat) : Option TriStateBool :=
  match t.stateCountChecked with
  | none => none
  | some stateCount =>
    if state ≥ stateCount then some DONT_CARE
    else if output ≥ t.outputs then some DONT_CARE
    else t.data[(state * t.widthMachine + t.inputs + output) % 2 ^ 32]?

/-- The table that `climain` builds from a file of two rows and three columns
when it is called with `-o 5` and without `-i`: `inputs = width - outputs` is
computed in `unsigned int` and wraps to `4294967294`. -/
def wrapTable : TruthTable :=
  { inputs := 4294967294
    outputs := 5
    data := [FALSE, FALSE, TRUE, TRUE, TRUE, FALSE] }

/-- The variable `ncell` of the `KVMap` constructor: `std::pow (2, variables)`
converted to `unsigned int`.  A power of two that does not fit is modelled by
its low 32 bits, that is by 0, the value the conversion yields on x86-64. -/
def KVMap.ncellMachine (nvars : Nat) : Nat := 2 ^ nvars % 2 ^ 32

/-- The member `width` as the `KVMap` constructor computes it in `unsigned
int`: for an odd number of variables the square root of
`std::pow (2, variables + 1)`, with `variables + 1` computed in `unsigned int`,
otherwise the square root of `ncell`. -/
def KVMap.widthMachine (nvars : Nat) : Nat :=
  if nvars % 2 ≠ 0 then isqrt (2 ^ ((nvars + 1) % 2 ^ 32)) % 2 ^ 32
  else isqrt (KVMap.ncellMachine nvars)

/-- The member `height` as the `KVMap` constructor computes it,
`ncell / width` in `unsigned int`; `none` when `width` is 0 and the division
is not defined. -/
def KVMap.heightMachine (nvars : Nat) : Option Nat :=
  if KVMap.widthMachine nvars = 0 then none
  else some (KVMap.ncellMachine nvars / KVMap.widthMachine nvars)

/-- The choices of one term from each clause, the choice from the first
clause varying slowest and the choice from the last clause fastest. -/
def termChoices : List bracket_t → List (List term_t)
  | [] => [[]]
  | clause :: rest => clause.flatMap fun t => (termChoices rest).map fun choice => t :: choice

/-- The union of the terms of a choice, built from the first term by
inserting the following terms one after the other. -/
def choiceUnion : List term_t → term_t
  | [] => []
  | t :: rest => rest.foldl termInsertAll t

/-- The minimal terms of a bracket, in the order of the bracket: the terms
that contain no other term of the bracket. -/
def minimalTerms (bracket : bracket_t) : bracket_t :=
  bracket.filter fun t => !bracket.any fun u => decide (u ≠ t) && includes t u

/-- The first `n` calls of `QMCStack::tryMerge` on a stack, whatever they
return; `none` when one of them does not complete. -/
def QMCStack.rounds : Nat → QMCStack → Option QMCStack
  | 0, stack => some stack
  | n + 1, stack =>
    match stack.tryMerge with
    | none => none
    | some (stack, _) => QMCStack.rounds n stack

/-- A truth table of four inputs and one output, one row per assignment (row
`r` holds bit `i` of `r` as input `i`); the output is `TRUE` in the rows 0, 2,
3, 5, 7 and 8. -/
def absorbTable : TruthTable :=
  { inputs := 4
    outputs := 1
    data :=
      [FALSE, FALSE, FALSE, FALSE, TRUE,
       TRUE, FALSE, FALSE, FALSE, FALSE,
       FALSE, TRUE, FALSE, FALSE, TRUE,
       TRUE, TRUE, FALSE, FALSE, TRUE,
       FALSE, FALSE, TRUE, FALSE, FALSE,
       TRUE, FALSE, TRUE, FALSE, TRUE,
       FALSE, TRUE, TRUE, FALSE, FALSE,
       TRUE, TRUE, TRUE, FALSE, TRUE,
       FALSE, FALSE, FALSE, TRUE, TRUE,
       TRUE, FALSE, FALSE, TRUE, FALSE,
       FALSE, TRUE, FALSE, TRUE, FALSE,
       TRUE, TRUE, FALSE, TRUE, FALSE,
       FALSE, FALSE, TRUE, TRUE, FALSE,
       TRUE, FALSE, TRUE, TRUE, FALSE,
       FALSE, TRUE, TRUE, TRUE, FALSE,
       TRUE, TRUE, TRUE, TRUE, FALSE] }

end LOPT

namespace LOPT

open TriStateBool

/-! ## Definitions: implicants of the completed function, the round over all pairs -/

/-- The vector `v` of an implicant matches the assignment `a` of a cell: both
have the same length and every entry of `v` is `DONT_CARE` or equal to the
value of the assignment at its position. -/
def vectorMatches : List TriStateBool → List TriStateBool → Bool
  | [], [] => true
  | y :: v, x :: a => (decide (y = DONT_CARE) || decide (y = x)) && vectorMatches v a
  | _, _ => false

/-- The vector `v` is an implicant of the completed function of the grid: no
cell whose assignment matches `v` has the value `FALSE`. -/
def KVMap.IsImplicant (g : KVMap) (v : List TriStateBool) : Prop :=
  ∀ column, column < g.mapWidth → ∀ row, row < g.mapHeight →
    vectorMatches v (KVMap.cellVars g.variableCount column row) = true →
      g.valueAt column row ≠ FALSE

/-- The minterm list of the implicant is exact for the grid: it holds, without
repetition, the indices `row * width + column` of the cells whose assignment
matches the vector and whose value is `TRUE`. -/
def KVMap.ExactMinterms (g : KVMap) (x : QMCImplicant) : Prop :=
  x.mintermSet.Nodup ∧
  ∀ id, id ∈ x.mintermSet ↔
    ∃ column row, column < g.mapWidth ∧ row < g.mapHeight ∧ id = row * g.mapWidth + column ∧
      vectorMatches x.variableStates (KVMap.cellVars g.variableCount column row) = true ∧
      g.valueAt column row = TRUE

/-- Two vectors that `QMCImplicant::tryMerge` merges: they agree everywhere
but at one position, where both are defined and differ. -/
def VectorsMerge (u v : List TriStateBool) : Prop :=
  ∃ pre x y post, u = pre ++ x :: post ∧ v = pre ++ y :: post ∧ x ≠ y ∧ x ≠ DONT_CARE ∧
    y ≠ DONT_CARE

/-- The round over all pairs, without the grouping by weight: the result
vectors of `QMCImplicant::tryMerge` over all ordered pairs of implicants with
different vectors taken from anywhere in the stage. -/
def QMCStack.specRoundVectors (prev : List QMCImplicantSet) : List (List TriStateBool) :=
  (prev.flatMap QMCImplicantSet.implicants).flatMap fun a =>
    (prev.flatMap QMCImplicantSet.implicants).filterMap fun b =>
      if a.states = b.states then none else (a.mergedWith b).map QMCImplicant.states

/-- The round over all pairs, without the grouping by weight: the implicant
`x` is marked non-prime when `QMCImplicant::tryMerge` succeeds on a pair made
of `x` and an implicant with a different vector taken from anywhere in the
stage. -/
def QMCStack.specRoundMarked (prev : List QMCImplicantSet) (x : QMCImplicant) : Bool :=
  (prev.flatMap QMCImplicantSet.implicants).any fun b =>
    !decide (b.states = x.states) && (x.merges b || b.merges x)

end LOPT

namespace LOPT

open TriStateBool

/-! ## Theorems: `TruthTable::find` -/

theorem find?_range_some (p : Nat → Bool) (n s : Nat)
    (h : (List.range n).find? p = some s) :
    s < n ∧ p s = true ∧ ∀ j, j < s → p j = false := by
  induction n with
  | zero => simp at h
  | succ n ih =>
    rw [List.range_succ, List.find?_append] at h
    cases h1 : (List.range n).find? p with
    | some s1 =>
      rw [h1] at h
      have hs : s1 = s := by simpa [Option.or] using h
      subst hs
      obtain ⟨a, b, c⟩ := ih h1
      exact ⟨by omega, b, c⟩
    | none =>
      rw [h1] at h
      have hnone := List.find?_eq_none.mp h1
      cases hp : p n with
      | true =>
        have hs : n = s := by simpa [Option.or, List.find?_cons, hp] using h
        subst hs
        refine ⟨by omega, hp, ?_⟩
        intro j hj
        have := hnone j (List.mem_range.mpr hj)
        simpa using this
      | false =>
        simp [Option.or, List.find?_cons, hp] at h

theorem find?_range_none (p : Nat → Bool) (n : Nat)
    (h : (List.range n).find? p = none) : ∀ j, j < n → p j = false := by
  intro j hj
  have := List.find?_eq_none.mp h j (List.mem_range.mpr hj)
  simpa using this

theorem TruthTable.rowMatches_iff (t : TruthTable) (a : List TriStateBool) (s : Nat) :
    t.rowMatches a s = true ↔ t.RowFits a s := by
  unfold TruthTable.rowMatches TruthTable.RowFits
  simp only [List.all_eq_true, List.mem_range]
  constructor
  · intro h i hi
    have := h i hi
    by_cases h1 : t.input s i = DONT_CARE
    · exact Or.inl h1
    · right
      by_contra h2
      simp only [h1, h2, ne_eq, not_false_eq_true, decide_True, Bool.and_self, Bool.not_true] at this
      exact Bool.noConfusion this
  · intro h i hi
    rcases h i hi with h1 | h1
    · simp [h1]
    · simp [h1]

/-- C7: for a table and queried values of the table's input count,
`TruthTable::find` returns at most `stateCount`; a returned index below
`stateCount` is a row that fits the query (every input column `DONT_CARE` or
equal to the queried value), no row before the returned index fits, and the
result is `stateCount` exactly when no row fits. -/
theorem TruthTable.find_first_fit (t : TruthTable) (a : List TriStateBool)
    (_ha : a.length = t.inputs) :
    t.find a ≤ t.stateCount ∧
    (t.find a < t.stateCount → t.RowFits a (t.find a)) ∧
    (∀ s, s < t.find a → ¬ t.RowFits a s) ∧
    (t.find a = t.stateCount ↔ ∀ s, s < t.stateCount → ¬ t.RowFits a s) := by
  unfold TruthTable.find
  cases h : (List.range t.stateCount).find? (t.rowMatches a) with
  | some s =>
    obtain ⟨h1, h2, h3⟩ := find?_range_some _ _ _ h
    refine ⟨Nat.le_of_lt h1, fun _ => (t.rowMatches_iff a s).mp h2, ?_, ?_⟩
    · intro j hj hfit
      have := h3 j hj
      rw [(t.rowMatches_iff a j).mpr hfit] at this
      exact Bool.noConfusion this
    · constructor
      · intro he; simp only at he; omega
      · intro hall
        exact absurd ((t.rowMatches_iff a s).mp h2) (hall s h1)
  | none =>
    have key := find?_range_none _ _ h
    have hno : ∀ s, s < t.stateCount → ¬ t.RowFits a s := by
      intro j hj hfit
      have := key j hj
      rw [(t.rowMatches_iff a j).mpr hfit] at this
      exact Bool.noConfusion this
    exact ⟨Nat.le_refl _, fun hlt => absurd hlt (Nat.lt_irrefl _), hno, ⟨fun _ => hno, fun _ => rfl⟩⟩

/-- An instance of `TruthTable.find_first_fit`: in the table of the logical
OR the query `01` has the length of the input count, is answered by row 1, and
row 1 fits the query. -/
theorem TruthTable.find_first_fit_witness :
    [FALSE, TRUE].length = orTable.inputs ∧ orTable.find [FALSE, TRUE] = 1 ∧
      orTable.RowFits [FALSE, TRUE] 1 :=
  ⟨rfl, rfl, (TruthTable.find_first_fit orTable [FALSE, TRUE] rfl).2.1 (by decide)⟩

/-! ## Theorems: `QMCImplicant::tryMerge` -/

namespace QMCImplicant

theorem mergeIndexLoop_mismatch (size : Nat) :
    ∀ (as bs : List TriStateBool) (i mi k : Nat) (x y : TriStateBool),
      as[k]? = some x → bs[k]? = some y →
      xor (decide (x = DONT_CARE)) (decide (y = DONT_CARE)) = true →
      mergeIndexLoop size as bs i mi = none := by
  intro as
  induction as with
  | nil => intro bs i mi k x y h; simp at h
  | cons a as ih =>
    intro bs i mi k x y ha hb hx
    cases bs with
    | nil => simp at hb
    | cons b bs =>
      cases k with
      | zero =>
        simp only [List.getElem?_cons_zero, Option.some.injEq] at ha hb
        subst ha; subst hb
        simp [mergeIndexLoop, hx]
      | succ k =>
        simp only [List.getElem?_cons_succ] at ha hb
        unfold mergeIndexLoop
        split
        · rfl
        · split
          · split
            · rfl
            · exact ih bs _ _ k x y ha hb hx
          · exact ih bs _ _ k x y ha hb hx

theorem mergeIndexLoop_pending (size : Nat) :
    ∀ (as bs : List TriStateBool) (i mi k : Nat) (x y : TriStateBool),
      mi ≠ size → as[k]? = some x → bs[k]? = some y → x ≠ y →
      mergeIndexLoop size as bs i mi = none := by
  intro as
  induction as with
  | nil => intro bs i mi k x y _ h; simp at h
  | cons a as ih =>
    intro bs i mi k x y hmi ha hb hx
    cases bs with
    | nil => simp at hb
    | cons b bs =>
      cases k with
      | zero =>
        simp only [List.getElem?_cons_zero, Option.some.injEq] at ha hb
        subst ha; subst hb
        unfold mergeIndexLoop
        split
        · rfl
        · simp [hx, hmi]
      | succ k =>
        simp only [List.getElem?_cons_succ] at ha hb
        unfold mergeIndexLoop
        split
        · rfl
        · split
          · simp [hmi]
          · exact ih bs _ _ k x y hmi ha hb hx

theorem mergeIndexLoop_two (size : Nat) :
    ∀ (as bs : List TriStateBool) (i mi k1 k2 : Nat) (x1 y1 x2 y2 : TriStateBool),
      i + as.length = size → k1 < k2 →
      as[k1]? = some x1 → bs[k1]? = some y1 → x1 ≠ y1 →
      as[k2]? = some x2 → bs[k2]? = some y2 → x2 ≠ y2 →
      mergeIndexLoop size as bs i mi = none := by
  intro as
  induction as with
  | nil => intro bs i mi k1 k2 x1 y1 x2 y2 _ _ h; simp at h
  | cons a as ih =>
    intro bs i mi k1 k2 x1 y1 x2 y2 hsz hk ha1 hb1 h1 ha2 hb2 h2
    cases bs with
    | nil => simp at hb1
    | cons b bs =>
      simp only [List.length_cons] at hsz
      cases k2 with
      | zero => omega
      | succ k2 =>
        simp only [List.getElem?_cons_succ] at ha2 hb2
        cases k1 with
        | zero =>
          simp only [List.getElem?_cons_zero, Option.some.injEq] at ha1 hb1
          subst ha1; subst hb1
          unfold mergeIndexLoop
          split
          · rfl
          · simp only [h1, ne_eq, not_false_eq_true, ↓reduceIte]
            split
            · rfl
            · exact mergeIndexLoop_pending size as bs _ i k2 x2 y2 (by omega) ha2 hb2 h2
        | succ k1 =>
          simp only [List.getElem?_cons_succ] at ha1 hb1
          unfold mergeIndexLoop
          split
          · rfl
          · split
            · split
              · rfl
              · exact ih bs _ _ k1 k2 x1 y1 x2 y2 (by omega) (by omega) ha1 hb1 h1 ha2 hb2 h2
            · exact ih bs _ _ k1 k2 x1 y1 x2 y2 (by omega) (by omega) ha1 hb1 h1 ha2 hb2 h2

theorem mergeIndexLoop_same (size : Nat) :
    ∀ (as : List TriStateBool) (i mi : Nat), mergeIndexLoop size as as i mi = some mi := by
  intro as
  induction as with
  | nil => intro i mi; rfl
  | cons a as ih =>
    intro i mi
    unfold mergeIndexLoop
    simp [ih]

theorem mergeIndexLoop_one (size : Nat) :
    ∀ (as bs : List TriStateBool) (i k : Nat),
      as.length = bs.length → k < as.length →
      (∀ j : Nat, as[j]? = some DONT_CARE ↔ bs[j]? = some DONT_CARE) →
      as[k]? ≠ bs[k]? → (∀ j : Nat, j ≠ k → as[j]? = bs[j]?) →
      mergeIndexLoop size as bs i size = some (i + k) := by
  intro as
  induction as with
  | nil => intro bs i k _ h; simp at h
  | cons a as ih =>
    intro bs i k hlen hk hdc hdiff hsame
    cases bs with
    | nil => simp at hlen
    | cons b bs =>
      simp only [List.length_cons, Nat.add_right_cancel_iff] at hlen
      have hdc0 : (a = DONT_CARE ↔ b = DONT_CARE) := by simpa using hdc 0
      have hx : xor (decide (a = DONT_CARE)) (decide (b = DONT_CARE)) = false := by
        by_cases h : a = DONT_CARE
        · simp [h, hdc0.mp h]
        · have hb : ¬ b = DONT_CARE := fun hb => h (hdc0.mpr hb)
          simp [h, hb]
      cases k with
      | zero =>
        have hab : a ≠ b := by simpa using hdiff
        have htail : as = bs := by
          apply List.ext_getElem?
          intro j
          simpa using hsame (j + 1) (by omega)
        subst htail
        unfold mergeIndexLoop
        simp [hx, hab, mergeIndexLoop_same]
      | succ k =>
        have hab : a = b := by simpa using hsame 0 (by omega)
        unfold mergeIndexLoop
        simp only [hx, hab, ne_eq, not_true_eq_false, ↓reduceIte, Bool.false_eq_true]
        have h1 : ∀ j : Nat, as[j]? = some DONT_CARE ↔ bs[j]? = some DONT_CARE := by
          intro j; simpa using hdc (j + 1)
        have h2 : as[k]? ≠ bs[k]? := by simpa using hdiff
        have h3 : ∀ j : Nat, j ≠ k → as[j]? = bs[j]? := by
          intro j hj; simpa using hsame (j + 1) (by omega)
        rw [ih bs (i + 1) k hlen (by simpa using hk) h1 h2 h3]
        simp only [Bool.xor_self, Bool.false_eq_true, ↓reduceIte, Option.some.injEq]
        omega

theorem mergeIndexLoop_le (size : Nat) :
    ∀ (as bs : List TriStateBool) (i mi m : Nat), i + as.length ≤ size → mi ≤ size →
      mergeIndexLoop size as bs i mi = some m → m ≤ size := by
  intro as
  induction as with
  | nil =>
    intro bs i mi m _ hmi h
    simp only [mergeIndexLoop, Option.some.injEq] at h
    omega
  | cons a as ih =>
    intro bs i mi m hi hmi h
    cases bs with
    | nil =>
      simp only [mergeIndexLoop, Option.some.injEq] at h
      omega
    | cons b bs =>
      simp only [List.length_cons] at hi
      unfold mergeIndexLoop at h
      split at h
      · exact Option.noConfusion h
      · split at h
        · split at h
          · exact Option.noConfusion h
          · exact ih bs _ _ m (by omega) (by omega) h
        · exact ih bs _ _ m (by omega) hmi h

/-- When `tryMerge` returns an implicant, its fields are those of `self` with
one position of the vector overwritten and the minterms of the other
implicant merged in. -/
theorem tryMerge_some (a b m : QMCImplicant) (h : a.tryMerge b = some (some m)) :
    ∃ mergeIndex, mergeIndex < a.states.length ∧
      mergeIndexLoop a.states.length a.states b.states 0 a.states.length = some mergeIndex ∧
      m.states = a.states.set mergeIndex DONT_CARE ∧
      m.minterms = mergeMinterms a.minterms b.minterms ∧ m.prime = a.prime := by
  unfold tryMerge at h
  split at h
  · simp at h
  · split at h
    · simp at h
    · rename_i mergeIndex hloop
      split at h
      · rename_i hlt
        simp only [Option.some.injEq] at h
        subst h
        exact ⟨mergeIndex, hlt, hloop, rfl, rfl, rfl⟩
      · simp at h

theorem mem_mergeMinterms (x : Nat) :
    ∀ (other merged : List Nat), x ∈ mergeMinterms merged other ↔ x ∈ merged ∨ x ∈ other := by
  intro other
  induction other with
  | nil => intro merged; simp [mergeMinterms]
  | cons m other ih =>
    intro merged
    have step : mergeMinterms merged (m :: other) =
        mergeMinterms (if m ∈ merged then merged else merged ++ [m]) other := rfl
    rw [step, ih]
    by_cases hm : m ∈ merged
    · simp only [hm, ↓reduceIte, List.mem_cons]
      constructor
      · rintro (h | h)
        · exact Or.inl h
        · exact Or.inr (Or.inr h)
      · rintro (h | h | h)
        · exact Or.inl h
        · exact Or.inl (h ▸ hm)
        · exact Or.inr h
    · simp only [hm, ↓reduceIte, List.mem_append, List.mem_singleton, List.mem_cons]
      tauto

theorem nodup_mergeMinterms :
    ∀ (other merged : List Nat), merged.Nodup → (mergeMinterms merged other).Nodup := by
  intro other
  induction other with
  | nil => intro merged h; simpa [mergeMinterms] using h
  | cons m other ih =>
    intro merged h
    have step : mergeMinterms merged (m :: other) =
        mergeMinterms (if m ∈ merged then merged else merged ++ [m]) other := rfl
    rw [step]
    apply ih
    by_cases hm : m ∈ merged
    · simpa [hm] using h
    · simp only [hm, ↓reduceIte]
      rw [List.nodup_append]
      refine ⟨h, List.nodup_singleton m, ?_⟩
      intro x hx hx2
      simp only [List.mem_singleton] at hx2
      exact hm (hx2 ▸ hx)

/-- C5: `a.tryMerge (b)` returns nothing (`some none`) when the vector
lengths differ, when some position is `DONT_CARE` in exactly one of the two
vectors, and when the vectors differ in two positions; when the vectors have
equal length, agree on the `DONT_CARE` positions and differ in exactly the
position `i`, it returns an implicant whose vector is the vector of `a` with
position `i` set to `DONT_CARE`. -/
theorem tryMerge_cases (a b : QMCImplicant) :
    (a.states.length ≠ b.states.length → a.tryMerge b = some none) ∧
    (∀ (i : Nat) (x y : TriStateBool), a.states[i]? = some x → b.states[i]? = some y →
      (x = DONT_CARE ↔ ¬ y = DONT_CARE) → a.tryMerge b = some none) ∧
    (∀ (i j : Nat) (x1 y1 x2 y2 : TriStateBool), i < j →
      a.states[i]? = some x1 → b.states[i]? = some y1 → x1 ≠ y1 →
      a.states[j]? = some x2 → b.states[j]? = some y2 → x2 ≠ y2 →
      a.tryMerge b = some none) ∧
    (∀ i : Nat, a.states.length = b.states.length →
      (∀ j : Nat, a.states[j]? = some DONT_CARE ↔ b.states[j]? = some DONT_CARE) →
      i < a.states.length → a.states[i]? ≠ b.states[i]? →
      (∀ j : Nat, j ≠ i → a.states[j]? = b.states[j]?) →
      ∃ m, a.tryMerge b = some (some m) ∧ m.states = a.states.set i DONT_CARE) := by
  refine ⟨?_, ?_, ?_, ?_⟩
  · intro h
    unfold tryMerge
    rw [if_pos (Ne.symm h)]
  · intro i x y ha hb hxy
    unfold tryMerge
    split
    · rfl
    · have hx : xor (decide (x = DONT_CARE)) (decide (y = DONT_CARE)) = true := by
        by_cases h : y = DONT_CARE
        · have : ¬ x = DONT_CARE := fun hx => (hxy.mp hx) h
          simp [h, this]
        · have : x = DONT_CARE := hxy.mpr h
          simp [h, this]
      rw [mergeIndexLoop_mismatch _ _ _ _ _ i x y ha hb hx]
  · intro i j x1 y1 x2 y2 hij ha1 hb1 h1 ha2 hb2 h2
    unfold tryMerge
    split
    · rfl
    · rw [mergeIndexLoop_two _ _ _ _ _ i j x1 y1 x2 y2 (by omega) hij ha1 hb1 h1 ha2 hb2 h2]
  · intro i hlen hdc hi hdiff hsame
    unfold tryMerge
    rw [if_neg (by simpa using hlen.symm),
      mergeIndexLoop_one _ _ _ 0 i hlen hi hdc hdiff hsame]
    simp only [Nat.zero_add, hi, ↓reduceIte]
    exact ⟨_, rfl, rfl⟩

/-- The first-stage merge of `10` and `11`: an instance of the success case of
`tryMerge_cases`. -/
theorem tryMerge_cases_witness :
    ∃ m, tryMerge ⟨[TRUE, FALSE], [1], true⟩ ⟨[TRUE, TRUE], [3], true⟩ = some (some m) ∧
      m.states = [TRUE, DONT_CARE] :=
  (tryMerge_cases ⟨[TRUE, FALSE], [1], true⟩ ⟨[TRUE, TRUE], [3], true⟩).2.2.2 1 rfl
    (by intro j; rcases j with _ | _ | j <;> simp)
    (by decide) (by decide)
    (by intro j hj; rcases j with _ | _ | j <;> simp at hj ⊢)

/-- C6: when `a.tryMerge (b)` succeeds on implicants whose minterm lists have
no duplicates, the minterm list of the result holds exactly the ids that are
in the list of `a` or in the list of `b`, and holds no id twice. -/
theorem tryMerge_minterms_union (a b m : QMCImplicant)
    (ha : a.mintermSet.Nodup) (_hb : b.mintermSet.Nodup)
    (h : a.tryMerge b = some (some m)) :
    (∀ x, x ∈ m.mintermSet ↔ x ∈ a.mintermSet ∨ x ∈ b.mintermSet) ∧ m.mintermSet.Nodup := by
  obtain ⟨_, _, _, _, hm, _⟩ := tryMerge_some a b m h
  unfold mintermSet at *
  rw [hm]
  exact ⟨fun x => mem_mergeMinterms x _ _, nodup_mergeMinterms _ _ ha⟩

/-- An instance of `tryMerge_minterms_union`: merging `0-1` (ids 4, 6) with
`1-1` (ids 6, 5) gives the ids 4, 6, 5. -/
theorem tryMerge_minterms_union_witness :
    (∀ x, x ∈ [4, 6, 5] ↔ x ∈ [4, 6] ∨ x ∈ [6, 5]) ∧ [4, 6, 5].Nodup :=
  tryMerge_minterms_union ⟨[FALSE, DONT_CARE, TRUE], [4, 6], true⟩
    ⟨[TRUE, DONT_CARE, TRUE], [6, 5], true⟩ ⟨[DONT_CARE, DONT_CARE, TRUE], [4, 6, 5], true⟩
    (by decide) (by decide) (by decide)

end QMCImplicant

end LOPT

namespace LOPT

open TriStateBool

/-! ## Theorems: the dimensions of the KV-map -/

theorem isqrtAux_eq (n r : Nat) (h1 : r * r ≤ n) (h2 : n < (r + 1) * (r + 1)) :
    ∀ k, r ≤ k → isqrtAux n k = r := by
  intro k
  induction k with
  | zero =>
    intro hk
    have : r = 0 := by omega
    subst this
    rfl
  | succ k ih =>
    intro hk
    unfold isqrtAux
    by_cases hle : (k + 1) * (k + 1) ≤ n
    · rw [if_pos hle]
      have hlt : (k + 1) * (k + 1) < (r + 1) * (r + 1) := Nat.lt_of_le_of_lt hle h2
      have : k + 1 < r + 1 := Nat.mul_self_lt_mul_self_iff.mp hlt
      omega
    · rw [if_neg hle]
      apply ih
      rcases Nat.lt_or_ge r (k + 1) with h | h
      · omega
      · have : r = k + 1 := by omega
        subst this
        exact absurd h1 hle

theorem isqrt_sq (r : Nat) : isqrt (r * r) = r := by
  unfold isqrt
  apply isqrtAux_eq (r * r) r (Nat.le_refl _)
  · exact Nat.mul_self_lt_mul_self (Nat.lt_succ_self r)
  · cases r with
    | zero => exact Nat.le_refl _
    | succ r => exact Nat.le_mul_of_pos_left _ (Nat.succ_pos r)

theorem isqrt_two_pow (m : Nat) : isqrt (2 ^ (2 * m)) = 2 ^ m := by
  have : 2 ^ (2 * m) = 2 ^ m * 2 ^ m := by rw [← Nat.pow_add]; congr 1; omega
  rw [this, isqrt_sq]

namespace KVMap

theorem widthFor_eq (I : Nat) : widthFor I = 2 ^ ((I + 1) / 2) := by
  unfold widthFor
  by_cases h : I % 2 ≠ 0
  · rw [if_pos h]
    have : I + 1 = 2 * ((I + 1) / 2) := by omega
    rw [this, isqrt_two_pow]
    congr 1
    omega
  · rw [if_neg h]
    have : I = 2 * (I / 2) := by omega
    have h2 : (I + 1) / 2 = I / 2 := by omega
    rw [h2]
    conv_lhs => rw [this]
    exact isqrt_two_pow _

theorem heightFor_eq (I : Nat) : heightFor I = 2 ^ (I / 2) := by
  unfold heightFor
  rw [widthFor_eq]
  have : I = (I + 1) / 2 + I / 2 := by omega
  conv_lhs => lhs; rw [this]
  rw [Nat.pow_add, Nat.mul_div_cancel_left _ (Nat.pow_pos (by decide))]

theorem width_mul_height (I : Nat) : widthFor I * heightFor I = 2 ^ I := by
  rw [widthFor_eq, heightFor_eq, ← Nat.pow_add]
  congr 1
  omega

end KVMap

/-! ## Theorems: the Gray code of `kvm_cell_var` -/

/-- The test of `kvm_cell_var` along one axis, for the variable of nesting
level `k`. -/
theorem axis_test_eq_xor (k c : Nat) :
    decide ((c + 2 ^ (k + 1) / 2) % (2 ^ (k + 1) * 2) ≥ 2 ^ (k + 1)) =
      xor (c.testBit k) (c.testBit (k + 1)) := by
  have hpos : 0 < 2 ^ k := Nat.pow_pos (by decide)
  have hk1 : 2 ^ (k + 1) = 2 ^ k * 2 := Nat.pow_succ 2 k
  rw [Nat.testBit_to_div_mod, Nat.testBit_to_div_mod, hk1, Nat.mul_div_cancel _ (by decide : 0 < 2)]
  generalize hh : 2 ^ k = h at hpos
  have hq : c = h * (c / h) + c % h := (Nat.div_add_mod c h).symm
  have hr : c % h < h := Nat.mod_lt c hpos
  have hdiv : c / (h * 2) = c / h / 2 := (Nat.div_div_eq_div_mul c h 2).symm
  rw [hdiv]
  generalize c / h = q at hq
  generalize c % h = r at hq hr
  have hsplit : c + h = (h * 2 * 2) * ((q + 1) / 4) + (h * ((q + 1) % 4) + r) := by
    have h4 : q + 1 = 4 * ((q + 1) / 4) + (q + 1) % 4 := (Nat.div_add_mod (q + 1) 4).symm
    have : c + h = h * (q + 1) + r := by rw [hq, Nat.mul_add]; omega
    rw [this]
    conv_lhs => rw [h4]
    rw [Nat.mul_add]
    have : h * (4 * ((q + 1) / 4)) = h * 2 * 2 * ((q + 1) / 4) := by
      rw [← Nat.mul_assoc, Nat.mul_assoc h 2 2]
    omega
  have hm : (q + 1) % 4 < 4 := Nat.mod_lt _ (by decide)
  have hlt : h * ((q + 1) % 4) + r < h * 2 * 2 := by
    have : h * ((q + 1) % 4) ≤ h * 3 := Nat.mul_le_mul_left h (by omega)
    omega
  rw [hsplit, Nat.mul_add_mod, Nat.mod_eq_of_lt hlt]
  have hcases : (q + 1) % 4 = 0 ∨ (q + 1) % 4 = 1 ∨ (q + 1) % 4 = 2 ∨ (q + 1) % 4 = 3 := by omega
  rcases hcases with h0 | h0 | h0 | h0
  · have e1 : q % 2 = 1 := by omega
    have e2 : q / 2 % 2 = 1 := by omega
    rw [h0, e1, e2]
    simp
    omega
  · have e1 : q % 2 = 0 := by omega
    have e2 : q / 2 % 2 = 0 := by omega
    rw [h0, e1, e2]
    simp
    omega
  · have e1 : q % 2 = 1 := by omega
    have e2 : q / 2 % 2 = 0 := by omega
    rw [h0, e1, e2]
    simp
  · have e1 : q % 2 = 0 := by omega
    have e2 : q / 2 % 2 = 1 := by omega
    rw [h0, e1, e2]
    simp
    omega

theorem kvm_cell_var_even (k column row : Nat) :
    kvm_cell_var (2 * k) column row = xor (column.testBit k) (column.testBit (k + 1)) := by
  unfold kvm_cell_var
  have h1 : 2 * k % 2 = 0 := by omega
  have h2 : 2 * k / 2 = k := by omega
  simp only [h1, ↓reduceIte, h2]
  exact axis_test_eq_xor k column

theorem kvm_cell_var_odd (k column row : Nat) :
    kvm_cell_var (2 * k + 1) column row = xor (row.testBit k) (row.testBit (k + 1)) := by
  unfold kvm_cell_var
  have h1 : ¬ (2 * k + 1) % 2 = 0 := by omega
  have h2 : (2 * k + 1) / 2 = k := by omega
  simp only [h1, ↓reduceIte, h2]
  exact axis_test_eq_xor k row

/-- The Gray code is injective below `2 ^ n`: the `n` axis tests determine the
position. -/
theorem axis_injective (n c d : Nat) (hc : c < 2 ^ n) (hd : d < 2 ^ n)
    (h : ∀ k, k < n →
      xor (c.testBit k) (c.testBit (k + 1)) = xor (d.testBit k) (d.testBit (k + 1))) :
    c = d := by
  have high : ∀ x, x < 2 ^ n → ∀ j, n ≤ j → x.testBit j = false := by
    intro x hx j hj
    exact Nat.testBit_lt_two_pow (Nat.lt_of_lt_of_le hx (Nat.pow_le_pow_right (by decide) hj))
  have key : ∀ e j, j + e = n → c.testBit j = d.testBit j := by
    intro e
    induction e with
    | zero =>
      intro j hj
      rw [high c hc j (by omega), high d hd j (by omega)]
    | succ e ih =>
      intro j hj
      have h1 := ih (j + 1) (by omega)
      have h2 := h j (by omega)
      rw [h1] at h2
      cases hcj : c.testBit j <;> cases hdj : d.testBit j <;>
        cases hd1 : d.testBit (j + 1) <;> simp_all
  apply Nat.eq_of_testBit_eq
  intro j
  rcases Nat.lt_or_ge j n with hj | hj
  · exact key (n - j) j (by omega)
  · rw [high c hc j hj, high d hd j hj]

/-- Two cells of the grid over `I` variables with the same value of every
variable are the same cell. -/
theorem kvm_cell_injective (I c r c' r' : Nat)
    (hc : c < KVMap.widthFor I) (hr : r < KVMap.heightFor I)
    (hc' : c' < KVMap.widthFor I) (hr' : r' < KVMap.heightFor I)
    (h : ∀ v, v < I → kvm_cell_var v c r = kvm_cell_var v c' r') : c = c' ∧ r = r' := by
  rw [KVMap.widthFor_eq] at hc hc'
  rw [KVMap.heightFor_eq] at hr hr'
  constructor
  · apply axis_injective _ c c' hc hc'
    intro k hk
    have := h (2 * k) (by omega)
    rwa [kvm_cell_var_even, kvm_cell_var_even] at this
  · apply axis_injective _ r r' hr hr'
    intro k hk
    have := h (2 * k + 1) (by omega)
    rwa [kvm_cell_var_odd, kvm_cell_var_odd] at this

/-- In exact arithmetic, with the width `widthFor I` and the height
`heightFor I`, the grid has `2 ^ I` cells and the map from a cell to the values
`kvm_cell_var` gives its `I` variables is a bijection onto the Boolean
assignments of `I` variables. -/
theorem kvm_cell_bijective (I : Nat) :
    KVMap.widthFor I * KVMap.heightFor I = 2 ^ I ∧
    Function.Bijective
      (fun (cell : Fin (KVMap.widthFor I) × Fin (KVMap.heightFor I)) (v : Fin I) =>
        kvm_cell_var v.val cell.1.val cell.2.val) := by
  refine ⟨KVMap.width_mul_height I, ?_⟩
  rw [Fintype.bijective_iff_injective_and_card]
  constructor
  · intro p q hpq
    have h : ∀ v, v < I → kvm_cell_var v p.1.val p.2.val = kvm_cell_var v q.1.val q.2.val := by
      intro v hv
      exact congrFun hpq ⟨v, hv⟩
    obtain ⟨h1, h2⟩ := kvm_cell_injective I _ _ _ _ p.1.isLt p.2.isLt q.1.isLt q.2.isLt h
    exact Prod.ext (Fin.ext h1) (Fin.ext h2)
  · simp [KVMap.width_mul_height]

end LOPT

namespace LOPT

open TriStateBool

/-! ## Theorems: the `KVMap` constructor -/

namespace KVMap

theorem mem_cells (width height column row : Nat) :
    (column, row) ∈ cells width height ↔ column < width ∧ row < height := by
  unfold cells
  simp only [List.mem_flatMap, List.mem_range, List.mem_map, Prod.mk.injEq]
  constructor
  · rintro ⟨c, hc, r, hr, h1, h2⟩
    subst h1; subst h2
    exact ⟨hc, hr⟩
  · rintro ⟨hc, hr⟩
    exact ⟨column, hc, row, hr, rfl, rfl⟩

/-- A loop of writes `data[idx k] = val k`: position `j` ends with the value
`v` when every write to `j` writes `v` and either `j` holds `v` at the start
or some write goes to `j`. -/
theorem foldl_set_getD {κ α : Type} (idx : κ → Nat) (val : κ → α) (dflt : α) (j : Nat) (v : α) :
    ∀ (ks : List κ) (d : List α), j < d.length →
      (∀ k, k ∈ ks → idx k = j → val k = v) →
      (d.getD j dflt = v ∨ ∃ k, k ∈ ks ∧ idx k = j) →
      (ks.foldl (fun d k => d.set (idx k) (val k)) d).getD j dflt = v := by
  intro ks
  induction ks with
  | nil =>
    intro d _ _ h
    rcases h with h | ⟨k, hk, _⟩
    · exact h
    · simp at hk
  | cons k0 ks ih =>
    intro d hj hall h
    rw [List.foldl_cons]
    apply ih
    · simpa using hj
    · intro k hk; exact hall k (List.mem_cons_of_mem _ hk)
    · by_cases h0 : idx k0 = j
      · left
        rw [h0, List.getD_eq_getElem?_getD, List.getElem?_set_self hj]
        exact hall k0 (List.mem_cons_self _ _) h0
      · rcases h with h | ⟨k, hk, hkj⟩
        · left
          rw [List.getD_eq_getElem?_getD, List.getElem?_set_ne h0, ← List.getD_eq_getElem?_getD]
          exact h
        · rcases List.mem_cons.mp hk with rfl | hk'
          · exact absurd hkj h0
          · exact Or.inr ⟨k, hk', hkj⟩

theorem foldl_set_length {κ α : Type} (idx : κ → Nat) (val : κ → α) :
    ∀ (ks : List κ) (d : List α),
      (ks.foldl (fun d k => d.set (idx k) (val k)) d).length = d.length := by
  intro ks
  induction ks with
  | nil => intro d; rfl
  | cons k0 ks ih => intro d; rw [List.foldl_cons, ih, List.length_set]

theorem ofTable_wellFormed (t : TruthTable) (o : Nat) : (ofTable t o).WellFormed := by
  refine ⟨rfl, rfl, ?_⟩
  have := foldl_set_length (fun cell : Nat × Nat => cell.2 * widthFor t.inputCount + cell.1)
    (fun cell => cellValue t o t.inputCount cell.1 cell.2)
    (cells (widthFor t.inputCount) (2 ^ t.inputCount / widthFor t.inputCount))
    (List.replicate (2 ^ t.inputCount) FALSE)
  rw [List.length_replicate] at this
  exact this

theorem index_lt (I column row : Nat) (hc : column < widthFor I) (hr : row < heightFor I) :
    row * widthFor I + column < 2 ^ I := by
  rw [← width_mul_height I]
  calc row * widthFor I + column < row * widthFor I + widthFor I := by omega
    _ = (row + 1) * widthFor I := by rw [Nat.add_mul, Nat.one_mul]
    _ ≤ heightFor I * widthFor I := Nat.mul_le_mul_right _ hr
    _ = widthFor I * heightFor I := Nat.mul_comm _ _

theorem index_injective (W c r c' r' : Nat) (hc : c < W) (hc' : c' < W)
    (h : r' * W + c' = r * W + c) : c' = c ∧ r' = r := by
  have h1 : (r' * W + c') % W = (r * W + c) % W := by rw [h]
  have h2 : (r' * W + c') / W = (r * W + c) / W := by rw [h]
  rw [Nat.mul_comm r' W, Nat.mul_comm r W] at h1 h2
  rw [Nat.mul_add_mod, Nat.mul_add_mod, Nat.mod_eq_of_lt hc, Nat.mod_eq_of_lt hc'] at h1
  rw [Nat.mul_add_div (by omega), Nat.mul_add_div (by omega), Nat.div_eq_of_lt hc,
    Nat.div_eq_of_lt hc'] at h2
  exact ⟨h1, by omega⟩

/-- The value the constructor leaves in a cell of the grid. -/
theorem ofTable_cell_value (t : TruthTable) (o column row : Nat)
    (hc : column < (ofTable t o).mapWidth) (hr : row < (ofTable t o).mapHeight) :
    (ofTable t o).valueAt column row = cellValue t o t.inputCount column row := by
  have hc1 : column < widthFor t.inputCount := hc
  have hr1 : row < heightFor t.inputCount := hr
  unfold valueAt
  rw [if_neg (by simpa using hc), if_neg (by simpa using hr)]
  show List.getD (List.foldl (fun d (cell : Nat × Nat) =>
      d.set (cell.2 * widthFor t.inputCount + cell.1)
        (cellValue t o t.inputCount cell.1 cell.2))
      (List.replicate (2 ^ t.inputCount) FALSE)
      (cells (widthFor t.inputCount) (2 ^ t.inputCount / widthFor t.inputCount)))
    (row * widthFor t.inputCount + column) DONT_CARE = _
  apply foldl_set_getD (fun cell : Nat × Nat => cell.2 * widthFor t.inputCount + cell.1)
    (fun cell => cellValue t o t.inputCount cell.1 cell.2) DONT_CARE
  · simpa using index_lt t.inputCount column row hc1 hr1
  · rintro ⟨c', r'⟩ hk hidx
    have hk' := (mem_cells _ _ c' r').mp hk
    obtain ⟨e1, e2⟩ := index_injective _ column row c' r' hc1 hk'.1 hidx
    simp only at e1 e2 ⊢
    rw [e1, e2]
  · right
    exact ⟨(column, row), (mem_cells _ _ _ _).mpr ⟨hc1, hr1⟩, rfl⟩

theorem cellVars_unique (I column row : Nat) (a : List TriStateBool) (hlen : a.length = I)
    (ha : ∀ v : Nat, v < I → a[v]? = some (if kvm_cell_var v column row then TRUE else FALSE)) :
    a = cellVars I column row := by
  apply List.ext_getElem?
  intro v
  unfold cellVars
  rcases Nat.lt_or_ge v I with hv | hv
  · rw [ha v hv, List.getElem?_map, List.getElem?_range hv]
    rfl
  · rw [List.getElem?_eq_none (by omega), List.getElem?_eq_none (by simpa using hv)]

/-- C9: for a cell `(column, row)` of the grid built from a table for output
`o`, and the cell's assignment `a` (variable `v` is `TRUE` when
`kvm_cell_var v column row` holds and `FALSE` otherwise), `valueAt` is
`DONT_CARE` when `TruthTable::find` returns `stateCount` on `a`, and otherwise
the output `o` of the row that `find` returns. -/
theorem valueAt_ofTable (t : TruthTable) (o column row : Nat) (a : List TriStateBool)
    (hc : column < (ofTable t o).mapWidth) (hr : row < (ofTable t o).mapHeight)
    (hlen : a.length = t.inputCount)
    (ha : ∀ v : Nat, v < t.inputCount →
      a[v]? = some (if kvm_cell_var v column row then TRUE else FALSE)) :
    (t.find a = t.stateCount → (ofTable t o).valueAt column row = DONT_CARE) ∧
    (t.find a ≠ t.stateCount → (ofTable t o).valueAt column row = t.output (t.find a) o) := by
  rw [ofTable_cell_value t o column row hc hr, cellVars_unique _ column row a hlen ha]
  unfold cellValue
  constructor
  · intro h; simp only [h, ↓reduceIte]
  · intro h; simp only [h, ↓reduceIte]

/-- An instance of `valueAt_ofTable`: in the grid of the logical OR the cell
`(1, 0)` has the assignment `10`, which `find` answers with row 2, and the
cell holds the output `TRUE` of that row. -/
theorem valueAt_ofTable_witness :
    orTable.find [TRUE, FALSE] = 2 ∧ orTable.output 2 0 = TRUE ∧
      (ofTable orTable 0).valueAt 1 0 = TRUE :=
  ⟨rfl, rfl,
    (valueAt_ofTable orTable 0 1 0 [TRUE, FALSE] (by decide) (by decide) rfl
      (by intro v hv
          have hv2 : v < 2 := hv
          rcases v with _ | _ | v
          · decide
          · decide
          · omega)).2 (by decide)⟩

end KVMap

end LOPT

namespace LOPT

open TriStateBool

/-! ## Theorems: `QMCStack::initialize` -/

namespace QMCImplicant

theorem foldl_count_true (l : List TriStateBool) :
    ∀ k : Nat, l.foldl (fun n s => if s = TRUE then n + 1 else n) k = k + l.count TRUE := by
  induction l with
  | nil => intro k; rfl
  | cons s l ih =>
    intro k
    rw [List.foldl_cons, ih]
    by_cases h : s = TRUE
    · subst h
      rw [if_pos rfl, List.count_cons_self]
      omega
    · rw [if_neg h, List.count_cons_of_ne (Ne.symm h)]

theorem inputsTrueCount_eq (im : QMCImplicant) : im.inputsTrueCount = im.states.count TRUE := by
  unfold inputsTrueCount
  rw [foldl_count_true, Nat.zero_add]

theorem inputsTrueCount_le (im : QMCImplicant) : im.inputsTrueCount ≤ im.states.length := by
  rw [inputsTrueCount_eq]
  exact List.count_le_length _ _

/-- The vector of the implicant made from a cell of the grid holds the values
of the input variables in that cell. -/
theorem initialize_states (g : KVMap) (column row : Nat)
    (hc : column < g.width) (hr : row < g.height) :
    ( QMCImplicant.initialize {} g column row).states =
      KVMap.cellVars g.variableCount column row := by
  unfold QMCImplicant.initialize KVMap.cellVars
  simp only [List.nil_append]
  apply List.map_congr_left
  intro i _
  unfold KVMap.inputAt
  rw [if_neg (by omega), if_neg (by omega)]

theorem initialize_minterms (g : KVMap) (column row : Nat) :
    ( QMCImplicant.initialize {} g column row).minterms =
      if g.valueAt column row ≠ DONT_CARE then [row * g.mapWidth + column] else [] := by
  unfold QMCImplicant.initialize
  simp only [List.nil_append]

end QMCImplicant

namespace KVMap

theorem cellVars_length (I column row : Nat) : (cellVars I column row).length = I := by
  unfold cellVars
  rw [List.length_map, List.length_range]

/-- Two cells of a grid with equal vectors of variable values are the same
cell. -/
theorem cellVars_injective (I c r c' r' : Nat)
    (hc : c < widthFor I) (hr : r < heightFor I) (hc' : c' < widthFor I) (hr' : r' < heightFor I)
    (h : cellVars I c r = cellVars I c' r') : c = c' ∧ r = r' := by
  apply kvm_cell_injective I c r c' r' hc hr hc' hr'
  intro v hv
  have h1 : (cellVars I c r)[v]? = (cellVars I c' r')[v]? := by rw [h]
  unfold cellVars at h1
  rw [List.getElem?_map, List.getElem?_map, List.getElem?_range hv] at h1
  simp only [Option.map_some', Option.some.injEq] at h1
  cases h2 : kvm_cell_var v c r <;> cases h3 : kvm_cell_var v c' r' <;> simp_all

end KVMap

namespace QMCStack

theorem mem_cellsByRow (g : KVMap) (column row : Nat) :
    (column, row) ∈ cellsByRow g ↔ column < g.width ∧ row < g.height := by
  unfold cellsByRow KVMap.mapHeight KVMap.mapWidth
  simp only [List.mem_flatMap, List.mem_range, List.mem_map, Prod.mk.injEq]
  constructor
  · rintro ⟨r, hr, c, hc, h1, h2⟩
    subst h1; subst h2
    exact ⟨hc, hr⟩
  · rintro ⟨hc, hr⟩
    exact ⟨row, hr, column, hc, rfl, rfl⟩

theorem nodup_cellsByRow (g : KVMap) : (cellsByRow g).Nodup := by
  unfold cellsByRow
  rw [List.nodup_flatMap]
  constructor
  · intro row _
    apply List.Nodup.map
    · intro a b h
      exact (Prod.mk.inj h).1
    · exact List.nodup_range _
  · apply List.Pairwise.imp_of_mem _ (List.nodup_range g.mapHeight)
    intro a b _ _ hab
    unfold Function.onFun
    rw [List.disjoint_left]
    intro x hx hx2
    simp only [List.mem_map, List.mem_range] at hx hx2
    obtain ⟨c1, _, e1⟩ := hx
    obtain ⟨c2, _, e2⟩ := hx2
    rw [← e2] at e1
    exact hab (Prod.mk.inj e1).2

theorem stage0Group_append_skip (g : KVMap) (P : List (Nat × Nat)) (x : Nat × Nat) (w : Nat)
    (h : stage0Sel g w x = false) : stage0Group g (P ++ [x]) w = stage0Group g P w := by
  unfold stage0Group
  rw [List.filter_append, List.filter_cons_of_neg (by simp [h]), List.filter_nil, List.append_nil]

theorem stage0Group_append_take (g : KVMap) (P : List (Nat × Nat)) (x : Nat × Nat) (w : Nat)
    (h : stage0Sel g w x = true) :
    stage0Group g (P ++ [x]) w =
      { implicants := (stage0Group g P w).implicants ++ [ QMCImplicant.initialize {} g x.1 x.2] } := by
  unfold stage0Group
  rw [List.filter_append, List.filter_cons_of_pos h, List.filter_nil, List.map_append]
  rfl

theorem getElem?_stage0 (g : KVMap) (P : List (Nat × Nat)) (n w : Nat) (hw : w < n) :
    ((List.range n).map (stage0Group g P))[w]? = some (stage0Group g P w) := by
  rw [List.getElem?_map, List.getElem?_range hw]
  rfl

/-- One step of the cell loop of `QMCStack::initialize` on a cell that has not
been visited before. -/
theorem initializeCell_step (g : KVMap) (hg : g.WellFormed) (P : List (Nat × Nat))
    (x : Nat × Nat) (hP : ∀ cell, cell ∈ P → cell.1 < g.width ∧ cell.2 < g.height)
    (hx : x.1 < g.width ∧ x.2 < g.height) (hnew : x ∉ P) :
    initializeCell g ((List.range (g.variableCount + 1)).map (stage0Group g P)) x =
      some ((List.range (g.variableCount + 1)).map (stage0Group g (P ++ [x]))) := by
  unfold initializeCell
  by_cases hv : g.valueAt x.1 x.2 = FALSE
  · rw [if_pos hv]
    congr 1
    apply List.map_congr_left
    intro w _
    rw [stage0Group_append_skip]
    simp [stage0Sel, hv]
  · rw [if_neg hv]
    have hstates := QMCImplicant.initialize_states g x.1 x.2 hx.1 hx.2
    have hw0 : ( QMCImplicant.initialize {} g x.1 x.2).inputsTrueCount < g.variableCount + 1 := by
      have := QMCImplicant.inputsTrueCount_le ( QMCImplicant.initialize {} g x.1 x.2)
      rw [hstates, KVMap.cellVars_length] at this
      omega
    simp only [getElem?_stage0 g P _ _ hw0]
    have hadd : (stage0Group g P ( QMCImplicant.initialize {} g x.1 x.2).inputsTrueCount).add
        ( QMCImplicant.initialize {} g x.1 x.2) =
        { implicants := (stage0Group g P
            ( QMCImplicant.initialize {} g x.1 x.2).inputsTrueCount).implicants ++
            [ QMCImplicant.initialize {} g x.1 x.2] } := by
      unfold QMCImplicantSet.add
      rw [if_neg]
      simp only [List.any_eq_true, not_exists, not_and, Bool.not_eq_true]
      intro y hy
      unfold stage0Group at hy
      simp only [List.mem_map, List.mem_filter] at hy
      obtain ⟨cell, ⟨hcell, _⟩, rfl⟩ := hy
      unfold QMCImplicant.eqv
      rw [decide_eq_false_iff_not, QMCImplicant.initialize_states g cell.1 cell.2
        (hP cell hcell).1 (hP cell hcell).2, hstates]
      intro heq
      have hwd := hg.1
      have hht := hg.2.1
      obtain ⟨e1, e2⟩ := KVMap.cellVars_injective g.variableCount cell.1 cell.2 x.1 x.2
        (hwd ▸ (hP cell hcell).1) (hht ▸ (hP cell hcell).2) (hwd ▸ hx.1) (hht ▸ hx.2) heq
      exact hnew (by rw [← Prod.ext e1 e2]; exact hcell)
    rw [hadd]
    congr 1
    apply List.ext_getElem?
    intro w
    by_cases hw : w = ( QMCImplicant.initialize {} g x.1 x.2).inputsTrueCount
    · rw [hw, List.getElem?_set_self (by simpa using hw0), getElem?_stage0 g _ _ _ hw0,
        stage0Group_append_take]
      simp [stage0Sel, hv]
    · rw [List.getElem?_set_ne (Ne.symm hw)]
      rcases Nat.lt_or_ge w (g.variableCount + 1) with hlt | hge
      · rw [getElem?_stage0 g _ _ _ hlt, getElem?_stage0 g _ _ _ hlt, stage0Group_append_skip]
        simp only [stage0Sel, Bool.and_eq_false_imp, decide_eq_true_eq, decide_eq_false_iff_not]
        intro _ h
        exact hw h.symm
      · rw [List.getElem?_eq_none (by simpa using hge), List.getElem?_eq_none (by simpa using hge)]

theorem initialize_loop (g : KVMap) (hg : g.WellFormed) :
    ∀ (rest P : List (Nat × Nat)),
      (∀ cell, cell ∈ P ++ rest → cell.1 < g.width ∧ cell.2 < g.height) → (P ++ rest).Nodup →
      rest.foldlM (initializeCell g) ((List.range (g.variableCount + 1)).map (stage0Group g P)) =
        some ((List.range (g.variableCount + 1)).map (stage0Group g (P ++ rest))) := by
  intro rest
  induction rest with
  | nil => intro P _ _; simp
  | cons x rest ih =>
    intro P hin hnd
    have hsplit : P ++ x :: rest = (P ++ [x]) ++ rest := by simp
    rw [List.foldlM_cons, initializeCell_step g hg P x
      (fun cell hc => hin cell (List.mem_append_left _ hc))
      (hin x (List.mem_append_right _ (List.mem_cons_self _ _)))
      (fun hxP => by
        have := List.nodup_append.mp hnd
        exact this.2.2 hxP (List.mem_cons_self _ _) )]
    rw [hsplit] at hin hnd ⊢
    exact ih (P ++ [x]) hin hnd

/-- The stage that `QMCStack::initialize` builds for a grid: set `w` holds the
implicants of the cells that are not `FALSE` and have `w` variables `TRUE`,
in the order of the visit. -/
theorem initialize_eq (self : QMCStack) (g : KVMap) (hg : g.WellFormed) :
    QMCStack.initialize self g =
      some { stages := [(List.range (g.variableCount + 1)).map (stage0Group g (cellsByRow g))] } := by
  unfold QMCStack.initialize
  have h0 : List.replicate (g.variableCount + 1) ({} : QMCImplicantSet) =
      (List.range (g.variableCount + 1)).map (stage0Group g []) := by
    apply List.ext_getElem?
    intro w
    rcases Nat.lt_or_ge w (g.variableCount + 1) with hlt | hge
    · rw [getElem?_stage0 g _ _ _ hlt, List.getElem?_replicate, if_pos hlt]
      rfl
    · rw [List.getElem?_eq_none (by simpa using hge), List.getElem?_eq_none (by simpa using hge)]
  rw [h0, initialize_loop g hg (cellsByRow g) []
    (fun cell hc => (mem_cellsByRow g cell.1 cell.2).mp (by simpa using hc))
    (by simpa using nodup_cellsByRow g)]
  simp

theorem mem_stage0Group (g : KVMap) (w : Nat) (im : QMCImplicant)
    (h : im ∈ (stage0Group g (cellsByRow g) w).implicants) :
    ∃ c r, c < g.width ∧ r < g.height ∧ g.valueAt c r ≠ FALSE ∧
      im = QMCImplicant.initialize {} g c r ∧ im.inputsTrueCount = w := by
  unfold stage0Group at h
  simp only [List.mem_map, List.mem_filter] at h
  obtain ⟨⟨c, r⟩, ⟨hcell, hsel⟩, rfl⟩ := h
  have hin := (mem_cellsByRow g c r).mp hcell
  simp only [stage0Sel, Bool.and_eq_true, decide_eq_true_eq] at hsel
  exact ⟨c, r, hin.1, hin.2, hsel.1, rfl, hsel.2⟩

theorem stage0_states_nodup (g : KVMap) (hg : g.WellFormed) :
    ((((List.range (g.variableCount + 1)).map (stage0Group g (cellsByRow g))).flatMap
      QMCImplicantSet.implicants).map QMCImplicant.states).Nodup := by
  rw [List.flatMap_map, List.map_flatMap, List.nodup_flatMap]
  have hinj : ∀ (c r c' r' : Nat), c < g.width → r < g.height → c' < g.width → r' < g.height →
      ( QMCImplicant.initialize {} g c r).states = ( QMCImplicant.initialize {} g c' r').states →
      c = c' ∧ r = r' := by
    intro c r c' r' hc hr hc' hr' h
    rw [QMCImplicant.initialize_states g c r hc hr,
      QMCImplicant.initialize_states g c' r' hc' hr'] at h
    exact KVMap.cellVars_injective g.variableCount c r c' r'
      (hg.1 ▸ hc) (hg.2.1 ▸ hr) (hg.1 ▸ hc') (hg.2.1 ▸ hr') h
  constructor
  · intro w _
    unfold stage0Group
    simp only [List.map_map]
    apply List.Nodup.map_on
    · rintro ⟨c, r⟩ hx ⟨c', r'⟩ hy h
      have h1 := (mem_cellsByRow g c r).mp (List.mem_filter.mp hx).1
      have h2 := (mem_cellsByRow g c' r').mp (List.mem_filter.mp hy).1
      obtain ⟨e1, e2⟩ := hinj c r c' r' h1.1 h1.2 h2.1 h2.2 h
      rw [e1, e2]
    · exact (nodup_cellsByRow g).filter _
  · apply List.Pairwise.imp_of_mem _ (List.nodup_range (g.variableCount + 1))
    intro w w' _ _ hne
    unfold Function.onFun
    rw [List.disjoint_left]
    intro v hv hv'
    simp only [List.mem_map] at hv hv'
    obtain ⟨im, him, e⟩ := hv
    obtain ⟨im', him', e'⟩ := hv'
    obtain ⟨c, r, hc, hr, _, rfl, hw⟩ := mem_stage0Group g w im him
    obtain ⟨c', r', hc', hr', _, rfl, hw'⟩ := mem_stage0Group g w' im' him'
    obtain ⟨e1, e2⟩ := hinj c r c' r' hc hr hc' hr' (e.trans e'.symm)
    subst e1; subst e2
    exact hne (hw.symm.trans hw')

theorem countP_eq_one_of_nodup_map {α β : Type} [DecidableEq β] (f : α → β) (l : List α) (b : β)
    (hnd : (l.map f).Nodup) (hmem : b ∈ l.map f) :
    l.countP (fun a => decide (f a = b)) = 1 := by
  have h := List.count_eq_one_of_mem hnd hmem
  rw [List.count, List.countP_map] at h
  rw [← h]
  congr 1

/-- C10: for a grid over `I` variables, `QMCStack::initialize` returns a stack
whose only stage has exactly `I + 1` sets.  For every cell of the grid, with
`v` the cell's assignment: if the cell is `FALSE`, no implicant of the stage
has the vector `v`; otherwise exactly one implicant of the stage has the
vector `v`, it is stored in the set whose index is the number of `TRUE`
entries of `v`, and its minterm list is `[row * width + column]` when the cell
is `TRUE` and empty when the cell is `DONT_CARE`. -/
theorem initialize_stage0 (self : QMCStack) (g : KVMap) (hg : g.WellFormed) :
    ∃ stage0, QMCStack.initialize self g = some { stages := [stage0] } ∧
      stage0.length = g.variableCount + 1 ∧
      ∀ column row, column < g.mapWidth → row < g.mapHeight →
        (g.valueAt column row = FALSE →
          ∀ set, set ∈ stage0 → ∀ im, im ∈ set.implicants →
            im.states ≠ KVMap.cellVars g.variableCount column row) ∧
        (g.valueAt column row ≠ FALSE →
          (stage0.flatMap QMCImplicantSet.implicants).countP
            (fun im => decide (im.states = KVMap.cellVars g.variableCount column row)) = 1 ∧
          ∃ set im, stage0[(KVMap.cellVars g.variableCount column row).count TRUE]? = some set ∧
            im ∈ set.implicants ∧
            im.states = KVMap.cellVars g.variableCount column row ∧
            im.mintermSet =
              if g.valueAt column row = TRUE then [row * g.mapWidth + column] else []) := by
  refine ⟨_, initialize_eq self g hg, by simp, ?_⟩
  intro column row hc hr
  have hc1 : column < g.width := hc
  have hr1 : row < g.height := hr
  have hstates := QMCImplicant.initialize_states g column row hc1 hr1
  constructor
  · intro hval set hset im him hv
    simp only [List.mem_map, List.mem_range] at hset
    obtain ⟨w, _, rfl⟩ := hset
    obtain ⟨c, r, hc', hr', hval', rfl, _⟩ := mem_stage0Group g w im him
    rw [QMCImplicant.initialize_states g c r hc' hr'] at hv
    obtain ⟨e1, e2⟩ := KVMap.cellVars_injective g.variableCount c r column row
      (hg.1 ▸ hc') (hg.2.1 ▸ hr') (hg.1 ▸ hc1) (hg.2.1 ▸ hr1) hv
    subst e1; subst e2
    exact hval' hval
  · intro hval
    have hw : ( QMCImplicant.initialize {} g column row).inputsTrueCount =
        (KVMap.cellVars g.variableCount column row).count TRUE := by
      rw [QMCImplicant.inputsTrueCount_eq, hstates]
    have hw0 : (KVMap.cellVars g.variableCount column row).count TRUE < g.variableCount + 1 := by
      have := List.count_le_length TRUE (KVMap.cellVars g.variableCount column row)
      rw [KVMap.cellVars_length] at this
      omega
    have hmem : QMCImplicant.initialize {} g column row ∈
        (stage0Group g (cellsByRow g)
          ((KVMap.cellVars g.variableCount column row).count TRUE)).implicants := by
      unfold stage0Group
      simp only [List.mem_map, List.mem_filter]
      refine ⟨(column, row), ⟨(mem_cellsByRow g column row).mpr ⟨hc1, hr1⟩, ?_⟩, rfl⟩
      simp [stage0Sel, hval, hw]
    constructor
    · apply countP_eq_one_of_nodup_map QMCImplicant.states _ _ (stage0_states_nodup g hg)
      simp only [List.mem_map, List.mem_flatMap, List.mem_range]
      exact ⟨_, ⟨_, ⟨_, hw0, rfl⟩, hmem⟩, hstates⟩
    · refine ⟨_, _, getElem?_stage0 g _ _ _ hw0, hmem, hstates, ?_⟩
      unfold QMCImplicant.mintermSet
      rw [QMCImplicant.initialize_minterms]
      cases hv : g.valueAt column row
      · exact absurd hv hval
      · simp
      · simp

/-- An instance of `initialize_stage0`: the grid of the logical OR is well
formed and the stage built for it has three sets. -/
theorem initialize_stage0_witness :
    (KVMap.ofTable orTable 0).WellFormed ∧
      ∃ stage0, QMCStack.initialize {} (KVMap.ofTable orTable 0) = some { stages := [stage0] } ∧
        stage0.length = 3 := by
  obtain ⟨stage0, h1, h2, _⟩ :=
    initialize_stage0 {} (KVMap.ofTable orTable 0) (KVMap.ofTable_wellFormed _ _)
  exact ⟨KVMap.ofTable_wellFormed _ _, stage0, h1, h2⟩

end QMCStack

end LOPT

namespace LOPT

open TriStateBool

/-! ## Theorems: the pipeline on the tables of OR and AND -/

/-- C4: on the table of the logical OR, `QMCStack::initialize` followed by
`tryMerge` until it returns `false` (three calls) and
`QMCPrimeChart::initialize` gives a chart whose primes are exactly `1-` and
`-1`; `extractEPIs` extracts both, leaves no prime and no minterm in the
chart, and the final cover of `process_table` for the output is the list of
these two implicants. -/
theorem or_table_pipeline (fuel : Nat) :
    ∃ stack chart,
      ( QMCStack.initialize {} (KVMap.ofTable orTable 0)).bind (QMCStack.mergeLoop (fuel + 3)) =
        some stack ∧
      QMCPrimeChart.initialize {} stack = some chart ∧
      chart.primeImplicants.map QMCImplicant.variableStates =
        [[TRUE, DONT_CARE], [DONT_CARE, TRUE]] ∧
      (chart.extractEPIs []).2.map QMCImplicant.variableStates =
        [[TRUE, DONT_CARE], [DONT_CARE, TRUE]] ∧
      (chart.extractEPIs []).1.primeImplicants = [] ∧
      (chart.extractEPIs []).1.mintermIds = [] ∧
      process_output (fuel + 3) orTable 0 = some (chart.extractEPIs []).2 ∧
      (chart.extractEPIs []).2.length = 2 :=
  ⟨{ stages :=
      [[⟨[]⟩, ⟨[⟨[TRUE, FALSE], [1], false⟩, ⟨[FALSE, TRUE], [2], false⟩]⟩,
          ⟨[⟨[TRUE, TRUE], [3], false⟩]⟩],
        [⟨[]⟩, ⟨[⟨[TRUE, DONT_CARE], [1, 3], true⟩, ⟨[DONT_CARE, TRUE], [2, 3], true⟩]⟩, ⟨[]⟩],
        [⟨[]⟩, ⟨[]⟩, ⟨[]⟩]] },
    { primes := [⟨[TRUE, DONT_CARE], [1, 3], true⟩, ⟨[DONT_CARE, TRUE], [2, 3], true⟩]
      minterms := [1, 3, 2] },
    rfl, rfl, rfl, rfl, rfl, rfl, rfl, rfl⟩

/-- C1 (failing input): in the grid of the logical AND the cell `(1, 1)` is
`TRUE`, its index is `1 * 2 + 1 = 3`, and the pipeline of `process_table`
completes with an empty list: no implicant of the result covers the index. -/
theorem and_table_not_covered (fuel : Nat) :
    (KVMap.ofTable andTable 0).valueAt 1 1 = TRUE ∧
    (KVMap.ofTable andTable 0).mapWidth = 2 ∧
    process_output (fuel + 2) andTable 0 = some [] :=
  ⟨rfl, rfl, rfl⟩

/-- C2 (failing input): the finished stack of the logical AND stores the
implicant `11` in stage 0, set 2; the implicant is flagged prime and has the
minterm 3, and `QMCPrimeChart::initialize` returns a chart without any prime
and without any minterm. -/
theorem and_stack_chart_misses_prime (fuel : Nat) :
    ∃ stack set,
      ( QMCStack.initialize {} (KVMap.ofTable andTable 0)).bind (QMCStack.mergeLoop (fuel + 2)) =
        some stack ∧
      stack.variableCount = 2 ∧
      stack.implicantSetFor 0 2 = some (some set) ∧
      (⟨[TRUE, TRUE], [3], true⟩ : QMCImplicant) ∈ set.implicantSet ∧
      QMCPrimeChart.initialize {} stack = some { primes := [], minterms := [] } :=
  ⟨{ stages := [[⟨[]⟩, ⟨[]⟩, ⟨[⟨[TRUE, TRUE], [3], true⟩]⟩], [⟨[]⟩, ⟨[]⟩, ⟨[]⟩]] },
    ⟨[⟨[TRUE, TRUE], [3], true⟩]⟩, rfl, rfl, rfl, List.mem_singleton.mpr rfl, rfl⟩

end LOPT

namespace LOPT

open TriStateBool

/-! ## Theorems: terms and the product of sums -/

theorem mem_termInsert (a x : Nat) : ∀ t : term_t, a ∈ termInsert x t ↔ a = x ∨ a ∈ t := by
  intro t
  induction t with
  | nil => simp [termInsert]
  | cons y ys ih =>
    unfold termInsert
    split
    · simp
    · split
      · rename_i h
        subst h
        simp only [List.mem_cons]
        tauto
      · simp only [List.mem_cons, ih]
        tauto

theorem pairwise_termInsert (x : Nat) :
    ∀ t : term_t, t.Pairwise (· < ·) → (termInsert x t).Pairwise (· < ·) := by
  intro t
  induction t with
  | nil => intro _; simp [termInsert]
  | cons y ys ih =>
    intro h
    have hy := (List.pairwise_cons.mp h).1
    have hys := (List.pairwise_cons.mp h).2
    unfold termInsert
    split
    · rename_i hxy
      apply List.pairwise_cons.mpr
      refine ⟨?_, h⟩
      intro a ha
      rcases List.mem_cons.mp ha with rfl | ha
      · exact hxy
      · exact Nat.lt_trans hxy (hy a ha)
    · split
      · exact h
      · rename_i h1 h2
        apply List.pairwise_cons.mpr
        refine ⟨?_, ih hys⟩
        intro a ha
        rcases (mem_termInsert a x ys).mp ha with rfl | ha
        · omega
        · exact hy a ha

theorem mem_termInsertAll (a : Nat) :
    ∀ t2 t1 : term_t, a ∈ termInsertAll t1 t2 ↔ a ∈ t1 ∨ a ∈ t2 := by
  intro t2
  induction t2 with
  | nil => intro t1; simp [termInsertAll]
  | cons x xs ih =>
    intro t1
    have step : termInsertAll t1 (x :: xs) = termInsertAll (termInsert x t1) xs := rfl
    rw [step, ih, mem_termInsert]
    simp only [List.mem_cons]
    tauto

theorem pairwise_termInsertAll :
    ∀ t2 t1 : term_t, t1.Pairwise (· < ·) → (termInsertAll t1 t2).Pairwise (· < ·) := by
  intro t2
  induction t2 with
  | nil => intro t1 h; exact h
  | cons x xs ih =>
    intro t1 h
    have step : termInsertAll t1 (x :: xs) = termInsertAll (termInsert x t1) xs := rfl
    rw [step]
    exact ih _ (pairwise_termInsert x t1 h)

theorem mem_mergeBracket (t' : term_t) (merged bracket : bracket_t) :
    t' ∈ mergeBracket merged bracket ↔
      ∃ t, t ∈ merged ∧ ((bracket = [] ∧ t' = t) ∨ ∃ t2, t2 ∈ bracket ∧ t' = termInsertAll t t2) := by
  unfold mergeBracket
  simp only [List.mem_flatMap]
  constructor
  · rintro ⟨t, ht, h⟩
    refine ⟨t, ht, ?_⟩
    cases bracket with
    | nil => left; exact ⟨rfl, by simpa using h⟩
    | cons b bs =>
      right
      simp only [List.mem_map] at h
      obtain ⟨t2, h2, rfl⟩ := h
      exact ⟨t2, h2, rfl⟩
  · rintro ⟨t, ht, h⟩
    refine ⟨t, ht, ?_⟩
    rcases h with ⟨rfl, rfl⟩ | ⟨t2, h2, rfl⟩
    · simp
    · cases bracket with
      | nil => simp at h2
      | cons b bs =>
        simp only [List.mem_map]
        exact ⟨t2, h2, rfl⟩

namespace QMCPrimeChart

theorem mem_sumFor (c : QMCPrimeChart) (m : Nat) (t : term_t) :
    t ∈ c.sumFor m ↔ ∃ i, c.Covers i m ∧ t = [i] := by
  unfold sumFor Covers
  simp only [List.mem_filterMap, List.mem_range]
  constructor
  · rintro ⟨i, hi, h⟩
    refine ⟨i, ?_⟩
    cases hp : c.primes[i]? with
    | none => rw [hp] at h; simp at h
    | some p =>
      rw [hp] at h
      simp only at h
      split at h
      · rename_i hm
        exact ⟨⟨p, rfl, hm⟩, (Option.some.inj h).symm⟩
      · simp at h
  · rintro ⟨i, ⟨p, hp, hm⟩, rfl⟩
    refine ⟨i, ?_, ?_⟩
    · exact (List.getElem?_eq_some_iff.mp hp).1
    · rw [hp]
      simp [hm]

theorem covers_lt (c : QMCPrimeChart) (i m : Nat) (h : c.Covers i m) : i < c.primes.length := by
  obtain ⟨p, hp, _⟩ := h
  exact (List.getElem?_eq_some_iff.mp hp).1

/-- The invariant of the distribution loop of `mergeBrackets` after the
brackets of the minterms `ms`: every term is well formed and covers every
minterm of `ms`, and every choice `X` of primes that covers the minterms of
`ms` contains all primes of some term. -/
theorem mergeBracket_invariant (c : QMCPrimeChart) :
    ∀ (rest ms : List Nat) (L : bracket_t),
      (∀ m, m ∈ rest → ∃ i, c.Covers i m) →
      ((∀ t, t ∈ L → c.TermOK t ∧ ∀ m, m ∈ ms → ∃ i, i ∈ t ∧ c.Covers i m) ∧
        (∀ X : Nat → Prop, (∀ m, m ∈ ms → ∃ i, X i ∧ c.Covers i m) →
          ∃ t, t ∈ L ∧ ∀ i, i ∈ t → X i)) →
      ((∀ t, t ∈ (rest.map c.sumFor).foldl mergeBracket L →
          c.TermOK t ∧ ∀ m, m ∈ ms ++ rest → ∃ i, i ∈ t ∧ c.Covers i m) ∧
        (∀ X : Nat → Prop, (∀ m, m ∈ ms ++ rest → ∃ i, X i ∧ c.Covers i m) →
          ∃ t, t ∈ (rest.map c.sumFor).foldl mergeBracket L ∧ ∀ i, i ∈ t → X i)) := by
  intro rest
  induction rest with
  | nil => intro ms L _ h; simpa using h
  | cons m0 rest ih =>
    intro ms L hcov hinv
    have hsplit : ms ++ m0 :: rest = (ms ++ [m0]) ++ rest := by simp
    rw [hsplit, List.map_cons, List.foldl_cons]
    apply ih (ms ++ [m0]) _ (fun m hm => hcov m (List.mem_cons_of_mem _ hm))
    obtain ⟨i0, hi0⟩ := hcov m0 (List.mem_cons_self _ _)
    have hne : c.sumFor m0 ≠ [] := by
      intro he
      have : [i0] ∈ c.sumFor m0 := (c.mem_sumFor m0 [i0]).mpr ⟨i0, hi0, rfl⟩
      rw [he] at this
      simp at this
    constructor
    · intro t' ht'
      obtain ⟨t, ht, h⟩ := (mem_mergeBracket t' L _).mp ht'
      rcases h with ⟨he, _⟩ | ⟨t2, h2, rfl⟩
      · exact absurd he hne
      · obtain ⟨i, hi, rfl⟩ := (c.mem_sumFor m0 t2).mp h2
        obtain ⟨hok, hc⟩ := hinv.1 t ht
        refine ⟨⟨pairwise_termInsertAll _ _ hok.1, ?_⟩, ?_⟩
        · intro j hj
          rcases (mem_termInsertAll j _ _).mp hj with hj | hj
          · exact hok.2 j hj
          · rw [List.mem_singleton.mp hj]
            exact c.covers_lt i m0 hi
        · intro m hm
          rcases List.mem_append.mp hm with hm | hm
          · obtain ⟨j, hj, hjc⟩ := hc m hm
            exact ⟨j, (mem_termInsertAll j _ _).mpr (Or.inl hj), hjc⟩
          · rw [List.mem_singleton.mp hm]
            exact ⟨i, (mem_termInsertAll i _ _).mpr (Or.inr (List.mem_singleton.mpr rfl)), hi⟩
    · intro X hX
      obtain ⟨t, ht, htX⟩ := hinv.2 X (fun m hm => hX m (List.mem_append_left _ hm))
      obtain ⟨i, hiX, hic⟩ := hX m0 (List.mem_append_right _ (List.mem_singleton.mpr rfl))
      refine ⟨termInsertAll t [i], ?_, ?_⟩
      · exact (mem_mergeBracket _ L _).mpr
          ⟨t, ht, Or.inr ⟨[i], (c.mem_sumFor m0 [i]).mpr ⟨i, hic, rfl⟩, rfl⟩⟩
      · intro j hj
        rcases (mem_termInsertAll j _ _).mp hj with hj | hj
        · exact htX j hj
        · rw [List.mem_singleton.mp hj]
          exact hiX

/-- The sum of products of `mergeBrackets` on the product of sums of a chart
with at least one minterm, every minterm being covered by a prime. -/
theorem mergeBrackets_productOfSums (c : QMCPrimeChart) (hm : c.minterms ≠ [])
    (hcov : ∀ m, m ∈ c.minterms → ∃ i, c.Covers i m) :
    ∃ L, mergeBrackets c.productOfSums = some L ∧
      (∀ t, t ∈ L → c.TermOK t ∧ ∀ m, m ∈ c.minterms → ∃ i, i ∈ t ∧ c.Covers i m) ∧
      (∀ X : Nat → Prop, (∀ m, m ∈ c.minterms → ∃ i, X i ∧ c.Covers i m) →
        ∃ t, t ∈ L ∧ ∀ i, i ∈ t → X i) := by
  unfold productOfSums mergeBrackets
  cases hms : c.minterms with
  | nil => exact absurd hms hm
  | cons m0 rest =>
    rw [hms] at hcov
    refine ⟨_, rfl, ?_⟩
    have := mergeBracket_invariant c rest [m0] (c.sumFor m0)
      (fun m h => hcov m (List.mem_cons_of_mem _ h)) ?_
    · simpa using this
    · constructor
      · intro t ht
        obtain ⟨i, hi, rfl⟩ := (c.mem_sumFor m0 t).mp ht
        refine ⟨⟨List.pairwise_singleton _ _, ?_⟩, ?_⟩
        · intro j hj
          rw [List.mem_singleton.mp hj]
          exact c.covers_lt i m0 hi
        · intro m hm'
          rw [List.mem_singleton.mp hm']
          exact ⟨i, List.mem_singleton.mpr rfl, hi⟩
      · intro X hX
        obtain ⟨i, hiX, hic⟩ := hX m0 (List.mem_singleton.mpr rfl)
        refine ⟨[i], (c.mem_sumFor m0 [i]).mpr ⟨i, hic, rfl⟩, ?_⟩
        intro j hj
        rw [List.mem_singleton.mp hj]
        exact hiX

end QMCPrimeChart

end LOPT

namespace LOPT

open TriStateBool

/-! ## Theorems: sorting, `std::unique` and `eliminateSupersets` -/

theorem mem_sortTerms (t : term_t) (L : bracket_t) : t ∈ sortTerms L ↔ t ∈ L :=
  (List.perm_insertionSort _ L).mem_iff

theorem mem_uniqueAux (t : term_t) :
    ∀ (L : bracket_t) (prev : term_t),
      (t ∈ uniqueAux prev L → t ∈ L) ∧ (t ∈ L → t = prev ∨ t ∈ uniqueAux prev L) := by
  intro L
  induction L with
  | nil => intro prev; simp [uniqueAux]
  | cons b rest ih =>
    intro prev
    unfold uniqueAux
    by_cases hb : b = prev
    · rw [if_pos hb]
      constructor
      · intro h; exact List.mem_cons_of_mem _ ((ih prev).1 h)
      · intro h
        rcases List.mem_cons.mp h with rfl | h
        · exact Or.inl hb
        · exact (ih prev).2 h
    · rw [if_neg hb]
      constructor
      · intro h
        rcases List.mem_cons.mp h with rfl | h
        · exact List.mem_cons_self _ _
        · exact List.mem_cons_of_mem _ ((ih b).1 h)
      · intro h
        right
        rcases List.mem_cons.mp h with rfl | h
        · exact List.mem_cons_self _ _
        · rcases (ih b).2 h with rfl | h
          · exact List.mem_cons_self _ _
          · exact List.mem_cons_of_mem _ h

theorem mem_unique (t : term_t) (L : bracket_t) : t ∈ unique L ↔ t ∈ L := by
  cases L with
  | nil => simp [unique]
  | cons a rest =>
    unfold unique
    constructor
    · intro h
      rcases List.mem_cons.mp h with rfl | h
      · exact List.mem_cons_self _ _
      · exact List.mem_cons_of_mem _ ((mem_uniqueAux t rest a).1 h)
    · intro h
      rcases List.mem_cons.mp h with rfl | h
      · exact List.mem_cons_self _ _
      · rcases (mem_uniqueAux t rest a).2 h with rfl | h
        · exact List.mem_cons_self _ _
        · exact List.mem_cons_of_mem _ h

theorem includes_iff (a b : term_t) : includes a b = true ↔ ∀ x, x ∈ b → x ∈ a := by
  unfold includes
  simp [List.all_eq_true]

/-- Erasing the term at position `k` keeps the absorption relation when a
term that stays in the bracket is contained in the erased one. -/
theorem erase_absorbed (B B' : bracket_t) (k : Nat) (tk tw : term_t)
    (hk : B[k]? = some tk) (hw : tw ∈ B.eraseIdx k) (hsub : ∀ x, x ∈ tw → x ∈ tk)
    (h : (∀ t, t ∈ B' → t ∈ B.eraseIdx k) ∧
      (∀ t, t ∈ B.eraseIdx k → ∃ t', t' ∈ B' ∧ ∀ x, x ∈ t' → x ∈ t)) :
    (∀ t, t ∈ B' → t ∈ B) ∧ (∀ t, t ∈ B → ∃ t', t' ∈ B' ∧ ∀ x, x ∈ t' → x ∈ t) := by
  constructor
  · intro t ht
    exact List.mem_of_mem_eraseIdx (h.1 t ht)
  · intro t ht
    obtain ⟨idx, hidx⟩ := List.getElem?_of_mem ht
    by_cases hik : idx = k
    · subst hik
      rw [hk] at hidx
      have : tk = t := Option.some.inj hidx
      subst this
      obtain ⟨t', ht', hsub'⟩ := h.2 tw hw
      exact ⟨t', ht', fun x hx => hsub x (hsub' x hx)⟩
    · exact h.2 t (List.mem_eraseIdx_iff_getElem?.mpr ⟨idx, hik, hidx⟩)

/-- What a completed run of the loops of `eliminateSupersets` returns: a
selection of the terms of the bracket such that every term of the bracket
contains all primes of some selected term. -/
theorem eliminateLoop_spec :
    ∀ (fuel i j : Nat) (B B' : bracket_t), i < j → eliminateLoop fuel i j B = some B' →
      (∀ t, t ∈ B' → t ∈ B) ∧ (∀ t, t ∈ B → ∃ t', t' ∈ B' ∧ ∀ x, x ∈ t' → x ∈ t) := by
  intro fuel
  induction fuel with
  | zero => intro i j B B' _ h; simp [eliminateLoop] at h
  | succ fuel ih =>
    intro i j B B' hij h
    have hrefl : ∀ C : bracket_t,
        (∀ t, t ∈ C → t ∈ C) ∧ (∀ t, t ∈ C → ∃ t', t' ∈ C ∧ ∀ x, x ∈ t' → x ∈ t) :=
      fun C => ⟨fun t ht => ht, fun t ht => ⟨t, ht, fun x hx => hx⟩⟩
    unfold eliminateLoop at h
    split at h
    · split at h
      · rw [← Option.some.inj h]
        exact hrefl B
      · exact ih _ _ _ _ (by omega) h
    · split at h
      · rename_i t1 t2 h1 h2
        split at h
        · rename_i hinc
          have hsub := (includes_iff t1 t2).mp hinc
          have ht2 : t2 ∈ B.eraseIdx i :=
            List.mem_eraseIdx_iff_getElem?.mpr ⟨j, by omega, h2⟩
          apply erase_absorbed B B' i t1 t2 h1 ht2 hsub
          simp only at h
          split at h
          · rw [← Option.some.inj h]
            exact hrefl _
          · exact ih _ _ _ _ (by omega) h
        · split at h
          · rename_i hinc
            have hsub := (includes_iff t2 t1).mp hinc
            have ht1 : t1 ∈ B.eraseIdx j :=
              List.mem_eraseIdx_iff_getElem?.mpr ⟨i, by omega, h1⟩
            exact erase_absorbed B B' j t2 t1 h2 ht1 hsub (ih _ _ _ _ hij h)
          · exact ih _ _ _ _ (by omega) h
      · simp at h

theorem eliminateSupersets_spec (fuel : Nat) (B B' : bracket_t)
    (h : eliminateSupersets fuel B = some B') :
    (∀ t, t ∈ B' → t ∈ B) ∧ (∀ t, t ∈ B → ∃ t', t' ∈ B' ∧ ∀ x, x ∈ t' → x ∈ t) := by
  unfold eliminateSupersets at h
  split at h
  · rw [← Option.some.inj h]
    exact ⟨fun t ht => ht, fun t ht => ⟨t, ht, fun x hx => hx⟩⟩
  · exact eliminateLoop_spec fuel 0 1 B B' (by omega) h

/-! ## Theorems: the choice of the shortest term -/

namespace QMCPrimeChart

theorem termLengthFrom_eq (c : QMCPrimeChart) :
    ∀ (t : term_t) (k : Nat),
      c.termLengthFrom k t = k + literalCost (t.filterMap fun id => c.primes[id]?) := by
  intro t
  induction t with
  | nil => intro k; simp [termLengthFrom, literalCost]
  | cons i t ih =>
    intro k
    have step : c.termLengthFrom k (i :: t) =
        c.termLengthFrom (match c.primes[i]? with
          | some implicant => k + implicant.relevantInputCount
          | none => k) t := rfl
    rw [step, ih]
    cases hp : c.primes[i]? with
    | none => simp [List.filterMap_cons, hp]
    | some p =>
      simp only [List.filterMap_cons, hp, literalCost, List.map_cons, List.sum_cons]
      rw [Nat.add_assoc]

theorem termLength_eq (c : QMCPrimeChart) (t : term_t) :
    c.termLength t = literalCost (t.filterMap fun id => c.primes[id]?) := by
  unfold termLength
  rw [termLengthFrom_eq, Nat.zero_add]

/-- The search loop returns a term of minimal length, the first one in the
order of the bracket being kept on ties, when no term has length 0. -/
theorem shortestLoop_spec (c : QMCPrimeChart) :
    ∀ (L : bracket_t) (tlen : Nat) (cur : Option term_t) (res : term_t),
      (∀ t, t ∈ L → 0 < c.termLength t) →
      ((tlen = 0 ∧ cur = none) ∨ ∃ t0, cur = some t0 ∧ tlen = c.termLength t0 ∧ 0 < tlen) →
      c.shortestLoop L tlen cur = some res →
      (res ∈ L ∨ cur = some res) ∧ (∀ t, t ∈ L → c.termLength res ≤ c.termLength t) ∧
        (∀ t0, cur = some t0 → c.termLength res ≤ c.termLength t0) := by
  intro L
  induction L with
  | nil =>
    intro tlen cur res _ _ h
    simp only [shortestLoop] at h
    refine ⟨Or.inr h, fun t ht => by simp at ht, ?_⟩
    intro t0 h0
    rw [h] at h0
    rw [Option.some.inj h0]
  | cons t rest ih =>
    intro tlen cur res hpos hst h
    have hposr : ∀ t', t' ∈ rest → 0 < c.termLength t' :=
      fun t' ht' => hpos t' (List.mem_cons_of_mem _ ht')
    have hpt : 0 < c.termLength t := hpos t (List.mem_cons_self _ _)
    unfold shortestLoop at h
    simp only at h
    split at h
    · rename_i hcond
      obtain ⟨h1, h2, h3⟩ := ih _ _ res hposr (Or.inr ⟨t, rfl, rfl, hpt⟩) h
      have hres : c.termLength res ≤ c.termLength t := h3 t rfl
      refine ⟨?_, ?_, ?_⟩
      · rcases h1 with h1 | h1
        · exact Or.inl (List.mem_cons_of_mem _ h1)
        · rw [Option.some.inj h1]
          exact Or.inl (List.mem_cons_self _ _)
      · intro t' ht'
        rcases List.mem_cons.mp ht' with rfl | ht'
        · exact hres
        · exact h2 t' ht'
      · intro t0 h0
        rcases hst with ⟨_, hnone⟩ | ⟨t0', h0', hlen, hpos0⟩
        · rw [hnone] at h0
          exact Option.noConfusion h0
        · rw [h0'] at h0
          rw [← Option.some.inj h0, ← hlen]
          omega
    · rename_i hcond
      rcases hst with ⟨hz, _⟩ | ⟨t0', h0', hlen, hpos0⟩
      · exact absurd (Or.inr hz) hcond
      · obtain ⟨h1, h2, h3⟩ := ih _ _ res hposr (Or.inr ⟨t0', h0', hlen, hpos0⟩) h
        have h4 := h3 t0' h0'
        refine ⟨?_, ?_, h3⟩
        · rcases h1 with h1 | h1
          · exact Or.inl (List.mem_cons_of_mem _ h1)
          · exact Or.inr h1
        · intro t' ht'
          rcases List.mem_cons.mp ht' with rfl | ht'
          · omega
          · exact h2 t' ht'

end QMCPrimeChart

end LOPT

namespace LOPT

open TriStateBool

/-! ## Theorems: `findOptimalPrimes` returns a cover of minimal literal cost -/

theorem literalCost_le_of_subset (A T : List QMCImplicant) (hA : A.Nodup) (hsub : A ⊆ T) :
    literalCost A ≤ literalCost T := by
  obtain ⟨l, hperm, hsl⟩ := hA.subperm hsub
  unfold literalCost
  rw [← (hperm.map QMCImplicant.relevantInputCount).sum_eq]
  exact (hsl.map QMCImplicant.relevantInputCount).sum_le_sum (fun a _ => Nat.zero_le a)

namespace QMCPrimeChart

theorem nodup_filterMap_primes (c : QMCPrimeChart) (hd : c.primes.Nodup) (t : term_t)
    (ht : t.Nodup) : (t.filterMap fun id => c.primes[id]?).Nodup := by
  apply List.Nodup.filterMap _ ht
  intro a a' b ha ha'
  have h1 : c.primes[a]? = some b := ha
  have h2 : c.primes[a']? = some b := ha'
  exact List.getElem?_inj (List.getElem?_eq_some_iff.mp h1).1 hd (h1.trans h2.symm)

theorem termOK_nodup (c : QMCPrimeChart) (t : term_t) (h : c.TermOK t) : t.Nodup :=
  h.1.imp (fun hlt => Nat.ne_of_lt hlt)

theorem termLength_pos (c : QMCPrimeChart) (t : term_t) (i m : Nat)
    (hlit : ∀ p, p ∈ c.primes → 0 < p.relevantInputCount)
    (hi : i ∈ t) (hc : c.Covers i m) : 0 < c.termLength t := by
  obtain ⟨p, hp, _⟩ := hc
  have hmem : p ∈ t.filterMap fun id => c.primes[id]? :=
    List.mem_filterMap.mpr ⟨i, hi, hp⟩
  have hle := literalCost_le_of_subset [p] _ (List.nodup_singleton p)
    (fun x hx => by rw [List.mem_singleton.mp hx]; exact hmem)
  rw [termLength_eq]
  have : literalCost [p] = p.relevantInputCount := by simp [literalCost]
  have hpos := hlit p (List.getElem?_mem hp)
  omega

/-- C3: on a chart with at least one minterm, primes with pairwise distinct
vectors and at least one literal each, and every minterm covered by a prime,
a completed call of `findOptimalPrimes` appends a list `S` of distinct chart
primes that (a) covers every minterm of the chart and (b) has a sum of
`relevantInputCount` that is at most the sum of every list `T` of chart primes
covering every minterm. -/
theorem findOptimalPrimes_optimal (c : QMCPrimeChart) (fuel : Nat)
    (optimalPrimes result : List QMCImplicant)
    (hm : c.mintermIds ≠ [])
    (hdist : (c.primeImplicants.map QMCImplicant.variableStates).Nodup)
    (hlit : ∀ p, p ∈ c.primeImplicants → 0 < p.relevantInputCount)
    (hcov : CoversAll c.primeImplicants c.mintermIds)
    (h : c.findOptimalPrimes fuel optimalPrimes = some result) :
    ∃ S, result = optimalPrimes ++ S ∧ S.Nodup ∧ (∀ p, p ∈ S → p ∈ c.primeImplicants) ∧
      CoversAll S c.mintermIds ∧
      ∀ T : List QMCImplicant, (∀ p, p ∈ T → p ∈ c.primeImplicants) →
        CoversAll T c.mintermIds → literalCost S ≤ literalCost T := by
  unfold primeImplicants mintermIds at *
  have hnd : c.primes.Nodup := List.Nodup.of_map _ hdist
  have hcov' : ∀ m, m ∈ c.minterms → ∃ i, c.Covers i m := by
    intro m hmm
    obtain ⟨p, hp, hpm⟩ := hcov m hmm
    obtain ⟨i, hi⟩ := List.getElem?_of_mem hp
    exact ⟨i, p, hi, hpm⟩
  obtain ⟨L, hL, hL1, hL2⟩ := c.mergeBrackets_productOfSums hm hcov'
  unfold findOptimalPrimes at h
  rw [hL] at h
  simp only at h
  cases hE : eliminateSupersets fuel (unique (sortTerms L)) with
  | none => rw [hE] at h; simp at h
  | some L2 =>
    rw [hE] at h
    simp only at h
    obtain ⟨hE1, hE2⟩ := eliminateSupersets_spec fuel _ L2 hE
    have hmemL : ∀ t, t ∈ L2 → t ∈ L := by
      intro t ht
      exact (mem_sortTerms t L).mp ((mem_unique t _).mp (hE1 t ht))
    obtain ⟨m0, hm0⟩ := List.exists_mem_of_ne_nil _ hm
    have hpos : ∀ t, t ∈ L2 → 0 < c.termLength t := by
      intro t ht
      obtain ⟨i, hi, hic⟩ := (hL1 t (hmemL t ht)).2 m0 hm0
      exact c.termLength_pos t i m0 hlit hi hic
    cases hS : c.shortestLoop L2 0 none with
    | none => rw [hS] at h; simp at h
    | some t =>
      rw [hS] at h
      simp only [Option.some.injEq] at h
      obtain ⟨hs1, hs2, _⟩ := c.shortestLoop_spec L2 0 none t hpos (Or.inl ⟨rfl, rfl⟩) hS
      have htL2 : t ∈ L2 := by
        rcases hs1 with h1 | h1
        · exact h1
        · exact Option.noConfusion h1
      obtain ⟨htok, htcov⟩ := hL1 t (hmemL t htL2)
      refine ⟨t.filterMap fun id => c.primes[id]?, h.symm, ?_, ?_, ?_, ?_⟩
      · exact c.nodup_filterMap_primes hnd t (c.termOK_nodup t htok)
      · intro p hp
        obtain ⟨i, _, hi⟩ := List.mem_filterMap.mp hp
        exact List.getElem?_mem hi
      · intro m hmm
        obtain ⟨i, hi, p, hp, hpm⟩ := htcov m hmm
        exact ⟨p, List.mem_filterMap.mpr ⟨i, hi, hp⟩, hpm⟩
      · intro T hT hTcov
        have hX : ∀ m, m ∈ c.minterms →
            ∃ i, (∃ p, c.primes[i]? = some p ∧ p ∈ T) ∧ c.Covers i m := by
          intro m hmm
          obtain ⟨p, hp, hpm⟩ := hTcov m hmm
          obtain ⟨i, hi⟩ := List.getElem?_of_mem (hT p hp)
          exact ⟨i, ⟨p, hi, hp⟩, p, hi, hpm⟩
        obtain ⟨t1, ht1, ht1X⟩ := hL2 (fun i => ∃ p, c.primes[i]? = some p ∧ p ∈ T) hX
        obtain ⟨t2, ht2, ht21⟩ := hE2 t1 ((mem_unique t1 _).mpr ((mem_sortTerms t1 L).mpr ht1))
        have hle : c.termLength t ≤ c.termLength t2 := hs2 t2 ht2
        rw [termLength_eq, termLength_eq] at hle
        apply Nat.le_trans hle
        apply literalCost_le_of_subset
        · exact c.nodup_filterMap_primes hnd t2 (c.termOK_nodup t2 (hL1 t2 (hmemL t2 ht2)).1)
        · intro p hp
          obtain ⟨i, hi, hip⟩ := List.mem_filterMap.mp hp
          obtain ⟨p', hp', hpT⟩ := ht1X i (ht21 i hi)
          rw [hip] at hp'
          rw [Option.some.inj hp']
          exact hpT

/-- An instance of `findOptimalPrimes_optimal`: on the chart with the primes
`1-` and `-1` and the single minterm 3, covered by both, the call completes
and appends a cover that costs no more than the cover `[-1]`. -/
theorem findOptimalPrimes_optimal_witness :
    ∃ S, [(⟨[TRUE, DONT_CARE], [1, 3], true⟩ : QMCImplicant)] = [] ++ S ∧ S.Nodup ∧
      literalCost S ≤ literalCost [⟨[DONT_CARE, TRUE], [2, 3], true⟩] := by
  obtain ⟨S, h1, h2, _, _, h5⟩ := findOptimalPrimes_optimal
    { primes := [⟨[TRUE, DONT_CARE], [1, 3], true⟩, ⟨[DONT_CARE, TRUE], [2, 3], true⟩]
      minterms := [3] } 5 [] [⟨[TRUE, DONT_CARE], [1, 3], true⟩]
    (by decide) (by decide) (by decide) (by unfold CoversAll; decide) (by decide)
  exact ⟨S, h1, h2, h5 [⟨[DONT_CARE, TRUE], [2, 3], true⟩] (by decide)
    (by unfold CoversAll; decide)⟩

end QMCPrimeChart

end LOPT

namespace LOPT

open TriStateBool

/-! ## Theorems: the shape of a successful implicant merge -/

namespace QMCImplicant

theorem mergeIndexLoop_comm (size : Nat) :
    ∀ (as bs : List TriStateBool) (i mi : Nat),
      mergeIndexLoop size as bs i mi = mergeIndexLoop size bs as i mi := by
  intro as
  induction as with
  | nil =>
    intro bs i mi
    cases bs <;> rfl
  | cons a as ih =>
    intro bs i mi
    cases bs with
    | nil => rfl
    | cons b bs =>
      unfold mergeIndexLoop
      rw [Bool.xor_comm, ih bs (i + 1) i, ih bs (i + 1) mi]
      by_cases hab : a = b
      · subst hab; rfl
      · have hba : ¬ b = a := fun h => hab h.symm
        simp only [ne_eq, hab, hba, not_false_eq_true, ↓reduceIte]

/-- What the scanning loop has seen when it leaves a merge index: either no
position differs, or exactly one position differs, neither vector holds
`DONT_CARE` there, and the index is that position. -/
theorem mergeIndexLoop_inv (size : Nat) :
    ∀ (as bs : List TriStateBool) (i mi m : Nat),
      as.length = bs.length → i + as.length = size →
      mergeIndexLoop size as bs i mi = some m →
      (m = mi ∧ as = bs) ∨
        (mi = size ∧ ∃ pre x y post, as = pre ++ x :: post ∧ bs = pre ++ y :: post ∧
          m = i + pre.length ∧ x ≠ y ∧ x ≠ DONT_CARE ∧ y ≠ DONT_CARE) := by
  intro as
  induction as with
  | nil =>
    intro bs i mi m hlen _ h
    cases bs with
    | nil =>
      simp only [mergeIndexLoop, Option.some.injEq] at h
      exact Or.inl ⟨h.symm, rfl⟩
    | cons b bs => simp at hlen
  | cons a as ih =>
    intro bs i mi m hlen hsz h
    cases bs with
    | nil => simp at hlen
    | cons b bs =>
      simp only [List.length_cons, Nat.add_right_cancel_iff] at hlen
      simp only [List.length_cons] at hsz
      unfold mergeIndexLoop at h
      split at h
      · exact Option.noConfusion h
      · rename_i hx
        split at h
        · rename_i hab
          split at h
          · exact Option.noConfusion h
          · rename_i hmi
            have hmi' : mi = size := not_not.mp hmi
            rcases ih bs (i + 1) i m hlen (by omega) h with ⟨hm, hsame⟩ | ⟨hi, _⟩
            · right
              refine ⟨hmi', [], a, b, as, rfl, by rw [hsame]; rfl, by simpa using hm, hab, ?_, ?_⟩
              · intro ha
                subst ha
                cases b <;> simp_all
              · intro hb
                subst hb
                cases a <;> simp_all
            · omega
        · rename_i hab
          have hab' : a = b := not_not.mp hab
          subst hab'
          rcases ih bs (i + 1) mi m hlen (by omega) h with ⟨hm, hsame⟩ | ⟨hmi, pre, x, y, post, h1, h2, h3, h4⟩
          · exact Or.inl ⟨hm, by rw [hsame]⟩
          · right
            refine ⟨hmi, a :: pre, x, y, post, by rw [h1]; rfl, by rw [h2]; rfl, ?_, h4⟩
            simp only [List.length_cons]
            omega

theorem mergeIndexLoop_split (size : Nat) (x y : TriStateBool) (post : List TriStateBool)
    (hxy : x ≠ y) (hx : x ≠ DONT_CARE) (hy : y ≠ DONT_CARE) :
    ∀ (pre : List TriStateBool) (i : Nat),
      mergeIndexLoop size (pre ++ x :: post) (pre ++ y :: post) i size = some (i + pre.length) := by
  intro pre
  induction pre with
  | nil =>
    intro i
    simp only [List.nil_append, List.length_nil, Nat.add_zero]
    unfold mergeIndexLoop
    simp [hxy, hx, hy, mergeIndexLoop_same]
  | cons p pre ih =>
    intro i
    simp only [List.cons_append, List.length_cons]
    unfold mergeIndexLoop
    simp only [Bool.xor_self, Bool.false_eq_true, ↓reduceIte, ne_eq, not_true_eq_false]
    rw [ih (i + 1)]
    congr 1
    omega

/-- A successful merge: the two vectors are equal except at one position,
where they hold different values other than `DONT_CARE`, and the result is the
common vector with `DONT_CARE` at that position. -/
theorem tryMerge_some_split (a b m : QMCImplicant) (h : a.tryMerge b = some (some m)) :
    ∃ pre x y post, a.states = pre ++ x :: post ∧ b.states = pre ++ y :: post ∧
      x ≠ y ∧ x ≠ DONT_CARE ∧ y ≠ DONT_CARE ∧ m.states = pre ++ DONT_CARE :: post ∧
      m.minterms = mergeMinterms a.minterms b.minterms ∧ m.prime = a.prime := by
  unfold tryMerge at h
  split at h
  · simp at h
  · rename_i hlen
    have hlen' : a.states.length = b.states.length := (not_not.mp hlen).symm
    split at h
    · simp at h
    · rename_i mergeIndex hloop
      split at h
      · rename_i hlt
        simp only [Option.some.injEq] at h
        subst h
        rcases mergeIndexLoop_inv _ _ _ 0 _ _ hlen' (by omega) hloop with ⟨hm, _⟩ |
          ⟨_, pre, x, y, post, h1, h2, h3, h4, h5, h6⟩
        · omega
        · refine ⟨pre, x, y, post, h1, h2, h4, h5, h6, ?_, rfl, rfl⟩
          simp only [h3, Nat.zero_add]
          rw [h1]
          simp
      · simp at h

theorem tryMerge_of_split (a b : QMCImplicant) (pre post : List TriStateBool)
    (x y : TriStateBool) (ha : a.states = pre ++ x :: post) (hb : b.states = pre ++ y :: post)
    (hxy : x ≠ y) (hx : x ≠ DONT_CARE) (hy : y ≠ DONT_CARE) :
    a.tryMerge b = some (some
      { states := pre ++ DONT_CARE :: post
        minterms := mergeMinterms a.minterms b.minterms
        prime := a.prime }) := by
  unfold tryMerge
  have hlen : b.states.length = a.states.length := by rw [ha, hb]; simp
  rw [if_neg (by simpa using hlen)]
  have hloop := mergeIndexLoop_split a.states.length x y post hxy hx hy pre 0
  rw [← ha, ← hb] at hloop
  rw [hloop]
  have hlt : 0 + pre.length < a.states.length := by rw [ha]; simp
  simp only [hlt, ↓reduceIte, Nat.zero_add]
  rw [ha]
  simp

/-- The merge writes past the end of the vector exactly when the two vectors
are equal. -/
theorem tryMerge_eq_none_iff (a b : QMCImplicant) :
    a.tryMerge b = none ↔ a.states = b.states := by
  constructor
  · intro h
    unfold tryMerge at h
    split at h
    · simp at h
    · rename_i hlen
      have hlen' : a.states.length = b.states.length := (not_not.mp hlen).symm
      split at h
      · simp at h
      · rename_i mergeIndex hloop
        split at h
        · simp at h
        · rename_i hlt
          rcases mergeIndexLoop_inv _ _ _ 0 _ _ hlen' (by omega) hloop with ⟨_, hsame⟩ |
            ⟨_, pre, x, y, post, h1, _, h3, _⟩
          · exact hsame
          · exfalso
            apply hlt
            rw [h3, h1]
            simp
  · intro h
    unfold tryMerge
    rw [if_neg (by simp [h]), h, mergeIndexLoop_same]
    simp

/-- C18: `a.tryMerge (b)` succeeds exactly when `b.tryMerge (a)` succeeds, and
when both succeed the two results have the same vector: the two input vectors
agree outside one position and both results are that common vector with
`DONT_CARE` at the position. -/
theorem tryMerge_symmetric (a b : QMCImplicant) :
    ((∃ m, a.tryMerge b = some (some m)) ↔ ∃ m, b.tryMerge a = some (some m)) ∧
    ∀ m1 m2, a.tryMerge b = some (some m1) → b.tryMerge a = some (some m2) →
      m1.variableStates = m2.variableStates ∧
      ∃ pre x y post, a.variableStates = pre ++ x :: post ∧
        b.variableStates = pre ++ y :: post ∧ x ≠ y ∧
        m1.variableStates = pre ++ DONT_CARE :: post := by
  have key : ∀ (u v : QMCImplicant) (m : QMCImplicant), u.tryMerge v = some (some m) →
      ∃ m', v.tryMerge u = some (some m') ∧ m'.states = m.states := by
    intro u v m h
    obtain ⟨pre, x, y, post, h1, h2, h3, h4, h5, h6, _⟩ := tryMerge_some_split u v m h
    exact ⟨_, tryMerge_of_split v u pre post y x h2 h1 (Ne.symm h3) h5 h4, h6.symm⟩
  constructor
  · constructor
    · rintro ⟨m, h⟩
      obtain ⟨m', h', _⟩ := key a b m h
      exact ⟨m', h'⟩
    · rintro ⟨m, h⟩
      obtain ⟨m', h', _⟩ := key b a m h
      exact ⟨m', h'⟩
  · intro m1 m2 h1 h2
    obtain ⟨m', h', hs⟩ := key a b m1 h1
    rw [h2] at h'
    have hm : m2 = m' := Option.some.inj (Option.some.inj h')
    obtain ⟨pre, x, y, post, e1, e2, e3, _, _, e6, _⟩ := tryMerge_some_split a b m1 h1
    refine ⟨?_, pre, x, y, post, e1, e2, e3, e6⟩
    unfold variableStates
    rw [hm, hs]

/-- An instance of `tryMerge_symmetric`: `10` and `11` merge in both orders
and both results have the vector `1-`. -/
theorem tryMerge_symmetric_witness :
    (⟨[TRUE, DONT_CARE], [1, 3], true⟩ : QMCImplicant).variableStates =
      (⟨[TRUE, DONT_CARE], [3, 1], true⟩ : QMCImplicant).variableStates :=
  ((tryMerge_symmetric ⟨[TRUE, FALSE], [1], true⟩ ⟨[TRUE, TRUE], [3], true⟩).2
    ⟨[TRUE, DONT_CARE], [1, 3], true⟩ ⟨[TRUE, DONT_CARE], [3, 1], true⟩ rfl rfl).1

end QMCImplicant

end LOPT

namespace LOPT

open TriStateBool

/-! ## Theorems: `QMCPrimeChart::extractEPIs` -/

namespace QMCPrimeChart

theorem epiScan_some (m : Nat) :
    ∀ (l : List QMCImplicant) (e : QMCImplicant),
      epiScan m l (some e) =
        if l.filter (fun p => decide (m ∈ p.mintermSet)) = [] then some (some e) else none := by
  intro l
  induction l with
  | nil => intro e; simp [epiScan]
  | cons q rest ih =>
    intro e
    unfold epiScan
    by_cases hq : m ∈ q.mintermSet
    · simp [hq]
    · simp only [hq, ↓reduceIte, ih, List.filter_cons, decide_False, Bool.false_eq_true]

/-- The prime loop of `extractEPIs` ends with a prime exactly when that prime
is the only one of the list whose minterm list holds the minterm. -/
theorem epiScan_none_eq_some (m : Nat) (p : QMCImplicant) :
    ∀ l : List QMCImplicant,
      epiScan m l none = some (some p) ↔
        l.filter (fun p => decide (m ∈ p.mintermSet)) = [p] := by
  intro l
  induction l with
  | nil => simp [epiScan]
  | cons q rest ih =>
    unfold epiScan
    by_cases hq : m ∈ q.mintermSet
    · simp only [hq, ↓reduceIte, epiScan_some, List.filter_cons, decide_True]
      constructor
      · intro h
        split at h
        · rename_i hnil
          rw [hnil, Option.some.inj (Option.some.inj h)]
        · exact Option.noConfusion h
      · intro h
        have h1 : q = p := (List.cons.inj h).1
        have h2 := (List.cons.inj h).2
        rw [if_pos h2, h1]
    · simp only [hq, ↓reduceIte, ih, List.filter_cons, decide_False, Bool.false_eq_true]

theorem extractStep_eq (primes out : List QMCImplicant) (m : Nat) :
    (∀ p, primes.filter (fun p => decide (m ∈ p.mintermSet)) = [p] →
      extractStep primes out m =
        if out.any (fun x => x.eqv p) then out else out ++ [p]) ∧
    ((∀ p, primes.filter (fun p => decide (m ∈ p.mintermSet)) ≠ [p]) →
      extractStep primes out m = out) := by
  constructor
  · intro p hp
    unfold extractStep
    rw [(epiScan_none_eq_some m p primes).mpr hp]
  · intro hno
    unfold extractStep
    split
    · rename_i epi h
      exact absurd ((epiScan_none_eq_some m epi primes).mp h) (hno epi)
    · rfl

theorem eq_singleton_of_nodup {α : Type} (l : List α) (p : α) (hnd : l.Nodup) (hp : p ∈ l)
    (hall : ∀ q, q ∈ l → q = p) : l = [p] := by
  cases l with
  | nil => simp at hp
  | cons a rest =>
    cases rest with
    | nil => rw [hall a (List.mem_cons_self _ _)]
    | cons b rest =>
      exfalso
      have ha := hall a (List.mem_cons_self _ _)
      have hb := hall b (List.mem_cons_of_mem _ (List.mem_cons_self _ _))
      have := (List.nodup_cons.mp hnd).1
      apply this
      rw [ha, ← hb]
      exact List.mem_cons_self _ _

/-- The filter of the covering primes is a single prime exactly when the prime
is the only prime of the list that covers the minterm. -/
theorem filter_eq_singleton_iff (primes : List QMCImplicant) (hnd : primes.Nodup) (m : Nat)
    (p : QMCImplicant) :
    primes.filter (fun p => decide (m ∈ p.mintermSet)) = [p] ↔
      (p ∈ primes ∧ m ∈ p.mintermSet ∧ ∀ q, q ∈ primes → m ∈ q.mintermSet → q = p) := by
  constructor
  · intro h
    have hp : p ∈ primes.filter (fun p => decide (m ∈ p.mintermSet)) := by
      rw [h]; exact List.mem_singleton.mpr rfl
    have hp' := List.mem_filter.mp hp
    refine ⟨hp'.1, by simpa using hp'.2, ?_⟩
    intro q hq hqm
    have : q ∈ primes.filter (fun p => decide (m ∈ p.mintermSet)) :=
      List.mem_filter.mpr ⟨hq, by simpa using hqm⟩
    rw [h] at this
    exact List.mem_singleton.mp this
  · rintro ⟨hp, hpm, hall⟩
    apply eq_singleton_of_nodup _ p (hnd.filter _)
    · exact List.mem_filter.mpr ⟨hp, by simpa using hpm⟩
    · intro q hq
      have hq' := List.mem_filter.mp hq
      exact hall q hq'.1 (by simpa using hq'.2)

/-- The invariant of the minterm loop of `extractEPIs` when it starts with an
empty output list. -/
theorem extract_loop_invariant (primes : List QMCImplicant) :
    ∀ (rest processed : List Nat) (out : List QMCImplicant),
      ((out.map QMCImplicant.states).Nodup ∧
        (∀ p, p ∈ out → ∃ m, m ∈ processed ∧
          primes.filter (fun p => decide (m ∈ p.mintermSet)) = [p]) ∧
        (∀ m, m ∈ processed → ∀ p,
          primes.filter (fun p => decide (m ∈ p.mintermSet)) = [p] →
            ∃ e, e ∈ out ∧ e.states = p.states)) →
      (((rest.foldl (extractStep primes) out).map QMCImplicant.states).Nodup ∧
        (∀ p, p ∈ rest.foldl (extractStep primes) out → ∃ m, m ∈ processed ++ rest ∧
          primes.filter (fun p => decide (m ∈ p.mintermSet)) = [p]) ∧
        (∀ m, m ∈ processed ++ rest → ∀ p,
          primes.filter (fun p => decide (m ∈ p.mintermSet)) = [p] →
            ∃ e, e ∈ rest.foldl (extractStep primes) out ∧ e.states = p.states)) := by
  intro rest
  induction rest with
  | nil => intro processed out h; simpa using h
  | cons m0 rest ih =>
    intro processed out ⟨h1, h2, h3⟩
    have hsplit : processed ++ m0 :: rest = (processed ++ [m0]) ++ rest := by simp
    rw [List.foldl_cons, hsplit]
    apply ih
    by_cases hex : ∃ p, primes.filter (fun p => decide (m0 ∈ p.mintermSet)) = [p]
    · obtain ⟨p, hp⟩ := hex
      rw [(extractStep_eq primes out m0).1 p hp]
      by_cases hany : out.any (fun x => x.eqv p) = true
      · rw [if_pos hany]
        refine ⟨h1, ?_, ?_⟩
        · intro q hq
          obtain ⟨m, hm, hf⟩ := h2 q hq
          exact ⟨m, List.mem_append_left _ hm, hf⟩
        · intro m hm q hq
          rcases List.mem_append.mp hm with hm | hm
          · exact h3 m hm q hq
          · rw [List.mem_singleton.mp hm, hp] at hq
            have hqp : p = q := (List.cons.inj hq).1
            subst hqp
            obtain ⟨x, hx, hxe⟩ := List.any_eq_true.mp hany
            exact ⟨x, hx, by simpa [QMCImplicant.eqv] using hxe⟩
      · rw [if_neg hany]
        refine ⟨?_, ?_, ?_⟩
        · rw [List.map_append, List.nodup_append]
          refine ⟨h1, List.nodup_singleton _, ?_⟩
          intro v hv hv2
          simp only [List.map_cons, List.map_nil, List.mem_singleton] at hv2
          obtain ⟨x, hx, hxv⟩ := List.mem_map.mp hv
          apply hany
          apply List.any_eq_true.mpr
          exact ⟨x, hx, by simp [QMCImplicant.eqv, hxv, hv2]⟩
        · intro q hq
          rcases List.mem_append.mp hq with hq | hq
          · obtain ⟨m, hm, hf⟩ := h2 q hq
            exact ⟨m, List.mem_append_left _ hm, hf⟩
          · rw [List.mem_singleton.mp hq]
            exact ⟨m0, List.mem_append_right _ (List.mem_singleton.mpr rfl), hp⟩
        · intro m hm q hq
          rcases List.mem_append.mp hm with hm | hm
          · obtain ⟨e, he, hes⟩ := h3 m hm q hq
            exact ⟨e, List.mem_append_left _ he, hes⟩
          · rw [List.mem_singleton.mp hm, hp] at hq
            have hqp : p = q := (List.cons.inj hq).1
            subst hqp
            exact ⟨p, List.mem_append_right _ (List.mem_singleton.mpr rfl), rfl⟩
    · have hno : ∀ p, primes.filter (fun p => decide (m0 ∈ p.mintermSet)) ≠ [p] :=
        fun p hp => hex ⟨p, hp⟩
      rw [(extractStep_eq primes out m0).2 hno]
      refine ⟨h1, ?_, ?_⟩
      · intro q hq
        obtain ⟨m, hm, hf⟩ := h2 q hq
        exact ⟨m, List.mem_append_left _ hm, hf⟩
      · intro m hm q hq
        rcases List.mem_append.mp hm with hm | hm
        · exact h3 m hm q hq
        · rw [List.mem_singleton.mp hm] at hq
          exact absurd hq (hno q)

/-- C13: on a chart whose primes have pairwise distinct vectors, `extractEPIs`
called with an empty output list leaves in it exactly the chart primes `p` for
which some chart minterm is in the minterm list of `p` and of no other chart
prime, and no two entries of the output list have equal vectors. -/
theorem extractEPIs_essential (c : QMCPrimeChart)
    (hd : (c.primeImplicants.map QMCImplicant.variableStates).Nodup) :
    (∀ p, p ∈ (c.extractEPIs []).2 ↔
      (p ∈ c.primeImplicants ∧ ∃ m, m ∈ c.mintermIds ∧ m ∈ p.mintermSet ∧
        ∀ q, q ∈ c.primeImplicants → m ∈ q.mintermSet → q = p)) ∧
    ((c.extractEPIs []).2.map QMCImplicant.variableStates).Nodup := by
  unfold primeImplicants mintermIds at *
  have hnd : c.primes.Nodup := List.Nodup.of_map _ hd
  have hinv := extract_loop_invariant c.primes c.minterms [] []
    ⟨List.nodup_nil, fun p hp => by simp at hp, fun m hm => by simp at hm⟩
  simp only [List.nil_append] at hinv
  obtain ⟨h1, h2, h3⟩ := hinv
  have hout : (c.extractEPIs []).2 = c.minterms.foldl (extractStep c.primes) [] := rfl
  rw [hout]
  refine ⟨?_, h1⟩
  intro p
  constructor
  · intro hp
    obtain ⟨m, hm, hf⟩ := h2 p hp
    obtain ⟨a, b, d⟩ := (filter_eq_singleton_iff c.primes hnd m p).mp hf
    exact ⟨a, m, hm, b, d⟩
  · rintro ⟨hp, m, hm, hpm, hall⟩
    have hf := (filter_eq_singleton_iff c.primes hnd m p).mpr ⟨hp, hpm, hall⟩
    obtain ⟨e, he, hes⟩ := h3 m hm p hf
    obtain ⟨m', _, hf'⟩ := h2 e he
    have he' := ((filter_eq_singleton_iff c.primes hnd m' e).mp hf').1
    have : e = p := List.inj_on_of_nodup_map hd he' hp hes
    rw [← this]
    exact he

/-- An instance of `extractEPIs_essential`: in the chart of the logical OR
both primes are the only cover of a minterm and both are extracted. -/
theorem extractEPIs_essential_witness :
    ((⟨[TRUE, DONT_CARE], [1, 3], true⟩ : QMCImplicant) ∈
      (extractEPIs { primes := [⟨[TRUE, DONT_CARE], [1, 3], true⟩,
        ⟨[DONT_CARE, TRUE], [2, 3], true⟩], minterms := [1, 3, 2] } []).2) ∧
    ((extractEPIs { primes := [⟨[TRUE, DONT_CARE], [1, 3], true⟩,
        ⟨[DONT_CARE, TRUE], [2, 3], true⟩], minterms := [1, 3, 2] } []).2.map
      QMCImplicant.variableStates).Nodup :=
  ⟨((extractEPIs_essential { primes := [⟨[TRUE, DONT_CARE], [1, 3], true⟩,
        ⟨[DONT_CARE, TRUE], [2, 3], true⟩], minterms := [1, 3, 2] } (by decide)).1 _).mpr
      ⟨by decide, 1, by decide, by decide, by decide⟩,
    (extractEPIs_essential { primes := [⟨[TRUE, DONT_CARE], [1, 3], true⟩,
        ⟨[DONT_CARE, TRUE], [2, 3], true⟩], minterms := [1, 3, 2] } (by decide)).2⟩

/-- C14: after `extractEPIs` the prime list of the chart is the original
prime list, in its order, without the primes whose vector equals the vector
of an entry of the final output list, and the minterm list of the chart is
the original minterm list, in its order, without the ids that occur in the
minterm list of an entry of the final output list. -/
theorem extractEPIs_frame (c : QMCPrimeChart) (essentialPrimes : List QMCImplicant) :
    (c.extractEPIs essentialPrimes).1.primeImplicants =
      c.primeImplicants.filter (fun p => decide
        (¬ ∃ e, e ∈ (c.extractEPIs essentialPrimes).2 ∧
          e.variableStates = p.variableStates)) ∧
    (c.extractEPIs essentialPrimes).1.mintermIds =
      c.mintermIds.filter (fun m => decide
        (¬ ∃ e, e ∈ (c.extractEPIs essentialPrimes).2 ∧ m ∈ e.mintermSet)) := by
  unfold primeImplicants mintermIds extractEPIs
  constructor
  · apply List.filter_congr
    intro p _
    rw [Bool.eq_iff_iff]
    simp [QMCImplicant.eqv, QMCImplicant.variableStates, List.any_eq_true]
  · apply List.filter_congr
    intro m _
    rw [Bool.eq_iff_iff]
    simp [List.any_eq_true]

end QMCPrimeChart

end LOPT

namespace LOPT

open TriStateBool

/-! ## Theorems: neighbouring cells of the KV-map -/

/-- The test of `kvm_cell_var` along one axis as the parity of a quotient. -/
theorem axis_test_eq_div (k x : Nat) :
    decide ((x + 2 ^ (k + 1) / 2) % (2 ^ (k + 1) * 2) ≥ 2 ^ (k + 1)) =
      decide ((x + 2 ^ k) / 2 ^ (k + 1) % 2 = 1) := by
  have hk1 : 2 ^ (k + 1) = 2 ^ k * 2 := Nat.pow_succ 2 k
  have hhalf : 2 ^ (k + 1) / 2 = 2 ^ k := by rw [hk1, Nat.mul_div_cancel _ (by decide : 0 < 2)]
  rw [hhalf]
  have hpos : 0 < 2 ^ (k + 1) := Nat.pow_pos (by decide)
  generalize 2 ^ (k + 1) = h at hpos
  generalize x + 2 ^ k = y
  rw [Nat.mod_mul]
  have h1 : y % h < h := Nat.mod_lt y hpos
  have h2 : y / h % 2 < 2 := Nat.mod_lt _ (by decide)
  rcases Nat.lt_or_ge (y / h % 2) 1 with h3 | h3
  · have h0 : y / h % 2 = 0 := by omega
    rw [h0, Nat.mul_zero, Nat.add_zero]
    simp only [Nat.zero_ne_one, decide_False, decide_eq_false_iff_not]
    omega
  · have h0 : y / h % 2 = 1 := by omega
    rw [h0, Nat.mul_one]
    simp only [decide_True, decide_eq_true_eq]
    omega

/-- Going one step along an axis changes the test of level `k` exactly when
`2 ^ (k + 1)` divides the new position plus `2 ^ k`. -/
theorem axis_test_step (k x : Nat) :
    decide ((x + 2 ^ k) / 2 ^ (k + 1) % 2 = 1) ≠ decide ((x + 1 + 2 ^ k) / 2 ^ (k + 1) % 2 = 1) ↔
      2 ^ (k + 1) ∣ x + 1 + 2 ^ k := by
  have hpos : 0 < 2 ^ (k + 1) := Nat.pow_pos (by decide)
  have hy : x + 1 + 2 ^ k = x + 2 ^ k + 1 := by omega
  rw [hy, Nat.succ_div]
  generalize 2 ^ (k + 1) = h at hpos
  generalize x + 2 ^ k = y
  by_cases hd : h ∣ y + 1
  · simp only [hd, ↓reduceIte, iff_true]
    intro he
    have := of_decide_eq_true (p := y / h % 2 = 1)
    have h2 : y / h % 2 < 2 := Nat.mod_lt _ (by decide)
    by_cases h3 : y / h % 2 = 1
    · have h4 : ¬ (y / h + 1) % 2 = 1 := by omega
      simp [h3, h4] at he
    · have h4 : (y / h + 1) % 2 = 1 := by omega
      simp [h3, h4] at he
  · simp only [hd, ↓reduceIte, Nat.add_zero, ne_eq, not_true_eq_false]

theorem exists_level (z : Nat) (hz : 1 ≤ z) : ∃ k, 2 ^ (k + 1) ∣ z + 2 ^ k := by
  induction z using Nat.strong_induction_on with
  | _ z ih =>
    rcases Nat.even_or_odd z with he | ho
    · obtain ⟨z', hz'⟩ := he
      have h1 : 1 ≤ z' := by omega
      obtain ⟨k, hk⟩ := ih z' (by omega) h1
      refine ⟨k + 1, ?_⟩
      have : z + 2 ^ (k + 1) = 2 * (z' + 2 ^ k) := by rw [Nat.pow_succ]; omega
      rw [this, Nat.pow_succ 2 (k + 1), Nat.mul_comm (2 ^ (k + 1)) 2]
      exact Nat.mul_dvd_mul_left 2 hk
    · obtain ⟨z', hz'⟩ := ho
      refine ⟨0, ?_⟩
      simp only [Nat.zero_add, Nat.pow_one, Nat.pow_zero]
      omega

theorem level_unique (z k j : Nat) (hk : 2 ^ (k + 1) ∣ z + 2 ^ k) (hj : 2 ^ (j + 1) ∣ z + 2 ^ j) :
    k = j := by
  have key : ∀ a b : Nat, a < b → 2 ^ (a + 1) ∣ z + 2 ^ a → 2 ^ (b + 1) ∣ z + 2 ^ b → False := by
    intro a b hab ha hb
    have h1 : 2 ^ (a + 1) ∣ 2 ^ b := Nat.pow_dvd_pow 2 (by omega)
    have h2 : 2 ^ (a + 1) ∣ 2 ^ (b + 1) := Nat.pow_dvd_pow 2 (by omega)
    have h3 : 2 ^ (a + 1) ∣ z + 2 ^ b := Nat.dvd_trans h2 hb
    have h4 : 2 ^ (a + 1) ∣ z := (Nat.dvd_add_left h1).mp h3
    have h5 : 2 ^ (a + 1) ∣ 2 ^ a := (Nat.dvd_add_right h4).mp ha
    have h6 := Nat.le_of_dvd (Nat.pow_pos (by decide)) h5
    have h7 : 2 ^ a < 2 ^ (a + 1) := Nat.pow_lt_pow_right (by decide) (by omega)
    omega
  rcases Nat.lt_trichotomy k j with h | h | h
  · exact (key k j h hk hj).elim
  · exact h
  · exact (key j k h hj hk).elim

theorem level_lt (z k n : Nat) (hz : 1 ≤ z) (hzn : z < 2 ^ n) (hk : 2 ^ (k + 1) ∣ z + 2 ^ k) :
    k < n := by
  have h1 : 2 ^ k ∣ 2 ^ (k + 1) := Nat.pow_dvd_pow 2 (by omega)
  have h2 : 2 ^ k ∣ z := (Nat.dvd_add_left (Nat.dvd_refl _)).mp (Nat.dvd_trans h1 hk)
  have h3 : 2 ^ k ≤ z := Nat.le_of_dvd (by omega) h2
  have h4 : 2 ^ k < 2 ^ n := by omega
  exact (Nat.pow_lt_pow_iff_right (by decide)).mp h4

/-- The last position of an axis of length `2 ^ n` and position 0 differ
exactly in the test of level `n - 1`. -/
theorem axis_wrap (n k : Nat) (hk : k < n) :
    decide ((2 ^ n - 1 + 2 ^ k) / 2 ^ (k + 1) % 2 = 1) ≠ decide ((0 + 2 ^ k) / 2 ^ (k + 1) % 2 = 1) ↔
      k + 1 = n := by
  have hpk : 0 < 2 ^ k := Nat.pow_pos (by decide)
  have hlt : 2 ^ k < 2 ^ (k + 1) := Nat.pow_lt_pow_right (by decide) (by omega)
  have h0 : (0 + 2 ^ k) / 2 ^ (k + 1) = 0 := by
    rw [Nat.zero_add]; exact Nat.div_eq_of_lt hlt
  have hn : 2 ^ n = 2 ^ (k + 1) * 2 ^ (n - (k + 1)) := by
    rw [← Nat.pow_add]; congr 1; omega
  have hsum : 2 ^ n - 1 + 2 ^ k = 2 ^ (k + 1) * 2 ^ (n - (k + 1)) + (2 ^ k - 1) := by
    have : 0 < 2 ^ n := Nat.pow_pos (by decide)
    omega
  have hq : (2 ^ n - 1 + 2 ^ k) / 2 ^ (k + 1) = 2 ^ (n - (k + 1)) := by
    rw [hsum, Nat.mul_add_div (Nat.pow_pos (by decide)), Nat.div_eq_of_lt (by omega), Nat.add_zero]
  rw [h0, hq]
  simp only [Nat.zero_mod, Nat.zero_ne_one, decide_False, ne_eq, decide_eq_false_iff_not,
    not_not]
  constructor
  · intro h
    by_contra hne
    have : n - (k + 1) = (n - (k + 1) - 1) + 1 := by omega
    rw [this, Nat.pow_succ, Nat.mul_mod_left] at h
    exact absurd h (by decide)
  · intro h
    have : n - (k + 1) = 0 := by omega
    rw [this]
    rfl

/-- On an axis of length `2 ^ n` with `n ≥ 1`, a position and its successor
(cyclically) differ in the test of exactly one level below `n`. -/
theorem axis_neighbour (n x : Nat) (hn : 1 ≤ n) (hx : x < 2 ^ n) :
    ∃ k, k < n ∧ ∀ j, j < n →
      (decide ((x + 2 ^ (j + 1) / 2) % (2 ^ (j + 1) * 2) ≥ 2 ^ (j + 1)) ≠
        decide (((x + 1) % 2 ^ n + 2 ^ (j + 1) / 2) % (2 ^ (j + 1) * 2) ≥ 2 ^ (j + 1)) ↔
        j = k) := by
  rcases Nat.lt_or_ge (x + 1) (2 ^ n) with hlt | hge
  · rw [Nat.mod_eq_of_lt hlt]
    obtain ⟨k, hk⟩ := exists_level (x + 1) (by omega)
    refine ⟨k, level_lt (x + 1) k n (by omega) hlt hk, ?_⟩
    intro j _
    rw [axis_test_eq_div, axis_test_eq_div, axis_test_step]
    constructor
    · intro hj; exact level_unique (x + 1) j k hj hk
    · intro hj; rw [hj]; exact hk
  · have hx1 : x + 1 = 2 ^ n := by omega
    have hx2 : x = 2 ^ n - 1 := by omega
    rw [hx1, Nat.mod_self]
    refine ⟨n - 1, by omega, ?_⟩
    intro j hj
    rw [axis_test_eq_div, axis_test_eq_div, hx2, axis_wrap n j hj]
    omega

/-- C17: for `I ≥ 1` and a cell of the grid over `I` variables, the cell and
its right neighbour (cyclically) differ in the value of exactly one variable
when the width is at least 2, and the cell and its lower neighbour
(cyclically) differ in the value of exactly one variable when the height is at
least 2. -/
theorem kvm_cell_neighbours (I column row : Nat) (hI : 1 ≤ I)
    (hc : column < KVMap.widthFor I) (hr : row < KVMap.heightFor I) :
    (2 ≤ KVMap.widthFor I → ∃! v, v < I ∧
      kvm_cell_var v column row ≠ kvm_cell_var v ((column + 1) % KVMap.widthFor I) row) ∧
    (2 ≤ KVMap.heightFor I → ∃! v, v < I ∧
      kvm_cell_var v column row ≠ kvm_cell_var v column ((row + 1) % KVMap.heightFor I)) := by
  rw [KVMap.widthFor_eq] at hc ⊢
  rw [KVMap.heightFor_eq] at hr ⊢
  have even_var : ∀ (k c r : Nat), kvm_cell_var (2 * k) c r =
      decide ((c + 2 ^ (k + 1) / 2) % (2 ^ (k + 1) * 2) ≥ 2 ^ (k + 1)) := by
    intro k c r
    unfold kvm_cell_var
    have h1 : 2 * k % 2 = 0 := by omega
    have h2 : 2 * k / 2 = k := by omega
    simp only [h1, ↓reduceIte, h2]
  have odd_var : ∀ (k c r : Nat), kvm_cell_var (2 * k + 1) c r =
      decide ((r + 2 ^ (k + 1) / 2) % (2 ^ (k + 1) * 2) ≥ 2 ^ (k + 1)) := by
    intro k c r
    unfold kvm_cell_var
    have h1 : ¬ (2 * k + 1) % 2 = 0 := by omega
    have h2 : (2 * k + 1) / 2 = k := by omega
    simp only [h1, ↓reduceIte, h2]
  constructor
  · intro hw
    have hn : 1 ≤ (I + 1) / 2 := by omega
    obtain ⟨k, hk, hall⟩ := axis_neighbour ((I + 1) / 2) column hn hc
    refine ⟨2 * k, ⟨by omega, ?_⟩, ?_⟩
    · rw [even_var, even_var]
      exact (hall k hk).mpr rfl
    · rintro v ⟨hv, hdiff⟩
      rcases Nat.even_or_odd' v with ⟨j, hj | hj⟩
      · subst hj
        rw [even_var, even_var] at hdiff
        have := (hall j (by omega)).mp hdiff
        omega
      · subst hj
        rw [odd_var, odd_var] at hdiff
        exact absurd rfl hdiff
  · intro hh
    have hn : 1 ≤ I / 2 := by
      rcases Nat.lt_or_ge (I / 2) 1 with h | h
      · have h0 : I / 2 = 0 := by omega
        rw [h0] at hh
        simp at hh
      · exact h
    obtain ⟨k, hk, hall⟩ := axis_neighbour (I / 2) row hn hr
    refine ⟨2 * k + 1, ⟨by omega, ?_⟩, ?_⟩
    · rw [odd_var, odd_var]
      exact (hall k hk).mpr rfl
    · rintro v ⟨hv, hdiff⟩
      rcases Nat.even_or_odd' v with ⟨j, hj | hj⟩
      · subst hj
        rw [even_var, even_var] at hdiff
        exact absurd rfl hdiff
      · subst hj
        rw [odd_var, odd_var] at hdiff
        have := (hall j (by omega)).mp hdiff
        omega

/-- An instance of `kvm_cell_neighbours`: in the grid over two variables the
cell `(1, 0)` and the cell `(0, 0)` to its right (cyclically) differ in
exactly one variable. -/
theorem kvm_cell_neighbours_witness :
    ∃! v, v < 2 ∧ kvm_cell_var v 1 0 ≠ kvm_cell_var v ((1 + 1) % KVMap.widthFor 2) 0 :=
  (kvm_cell_neighbours 2 1 0 (by decide) (by decide) (by decide)).1 (by decide)

end LOPT

namespace LOPT

open TriStateBool

/-! ## Theorems: sampling a grid into a table and back -/

/-- The two outcomes of `TruthTable::find`. -/
theorem TruthTable.find_cases (t : TruthTable) (a : List TriStateBool) :
    (t.find a < t.stateCount ∧ t.RowFits a (t.find a)) ∨
      (t.find a = t.stateCount ∧ ∀ s, s < t.stateCount → ¬ t.RowFits a s) := by
  unfold TruthTable.find
  cases h : (List.range t.stateCount).find? (t.rowMatches a) with
  | some s =>
    obtain ⟨h1, h2, _⟩ := find?_range_some _ _ _ h
    exact Or.inl ⟨h1, (t.rowMatches_iff a s).mp h2⟩
  | none =>
    right
    refine ⟨rfl, ?_⟩
    intro j hj hfit
    have := find?_range_none _ _ h j hj
    rw [(t.rowMatches_iff a j).mpr hfit] at this
    exact Bool.noConfusion this

/-- Indexing a concatenation of rows of equal length. -/
theorem getElem?_flatMap_rows {α β : Type} (f : α → List β) (w : Nat) :
    ∀ (l : List α), (∀ a, a ∈ l → (f a).length = w) → ∀ (s i : Nat) (a : α),
      l[s]? = some a → i < w → (l.flatMap f)[s * w + i]? = (f a)[i]? := by
  intro l
  induction l with
  | nil => intro _ s i a h; simp at h
  | cons a0 rest ih =>
    intro hlen s i a hs hi
    have h0 : (f a0).length = w := hlen a0 (List.mem_cons_self _ _)
    rw [List.flatMap_cons]
    cases s with
    | zero =>
      simp only [List.getElem?_cons_zero, Option.some.injEq] at hs
      subst hs
      rw [Nat.zero_mul, Nat.zero_add, List.getElem?_append_left (by omega)]
    | succ s =>
      simp only [List.getElem?_cons_succ] at hs
      rw [List.getElem?_append_right (by rw [h0, Nat.succ_mul]; omega)]
      have : (s + 1) * w + i - (f a0).length = s * w + i := by
        rw [h0, Nat.succ_mul]; omega
      rw [this]
      exact ih (fun a ha => hlen a (List.mem_cons_of_mem _ ha)) s i a hs hi

theorem length_flatMap_rows {α β : Type} (f : α → List β) (w : Nat) :
    ∀ (l : List α), (∀ a, a ∈ l → (f a).length = w) → (l.flatMap f).length = l.length * w := by
  intro l
  induction l with
  | nil => intro _; simp
  | cons a0 rest ih =>
    intro hlen
    rw [List.flatMap_cons, List.length_append, hlen a0 (List.mem_cons_self _ _),
      ih (fun a ha => hlen a (List.mem_cons_of_mem _ ha)), List.length_cons, Nat.succ_mul]
    omega

namespace KVMap

theorem sampleTable_row_length (g : KVMap) (cell : Nat × Nat) :
    (((List.range g.variableCount).map fun v => g.inputAt cell.1 cell.2 v) ++
      [g.valueAt cell.1 cell.2]).length = g.variableCount + 1 := by
  simp

theorem sampleTable_stateCount (g : KVMap) (order : List (Nat × Nat)) :
    (g.sampleTable order).stateCount = order.length := by
  unfold TruthTable.stateCount TruthTable.width sampleTable
  simp only
  rw [length_flatMap_rows _ (g.variableCount + 1) order
    (fun cell _ => sampleTable_row_length g cell)]
  exact Nat.mul_div_cancel _ (by omega)

theorem sampleTable_input (g : KVMap) (order : List (Nat × Nat)) (s i : Nat) (cell : Nat × Nat)
    (hs : order[s]? = some cell) (hi : i < g.variableCount) :
    (g.sampleTable order).input s i = g.inputAt cell.1 cell.2 i := by
  have hslt : s < order.length := (List.getElem?_eq_some_iff.mp hs).1
  unfold TruthTable.input
  rw [sampleTable_stateCount, if_neg (by omega)]
  have hin : (g.sampleTable order).inputs = g.variableCount := rfl
  have hout : (g.sampleTable order).outputs = 1 := rfl
  rw [hin, hout, if_neg (by omega), List.getD_eq_getElem?_getD]
  have hdata : (g.sampleTable order).data = order.flatMap fun cell =>
      ((List.range g.variableCount).map fun v => g.inputAt cell.1 cell.2 v) ++
        [g.valueAt cell.1 cell.2] := rfl
  rw [hdata, getElem?_flatMap_rows _ (g.variableCount + 1) order
    (fun cell _ => sampleTable_row_length g cell) s i cell hs (by omega),
    List.getElem?_append_left (by simpa using hi), List.getElem?_map, List.getElem?_range hi]
  rfl

theorem sampleTable_output (g : KVMap) (order : List (Nat × Nat)) (s : Nat) (cell : Nat × Nat)
    (hs : order[s]? = some cell) :
    (g.sampleTable order).output s 0 = g.valueAt cell.1 cell.2 := by
  have hslt : s < order.length := (List.getElem?_eq_some_iff.mp hs).1
  unfold TruthTable.output
  rw [sampleTable_stateCount, if_neg (by omega)]
  have hin : (g.sampleTable order).inputs = g.variableCount := rfl
  have hout : (g.sampleTable order).outputs = 1 := rfl
  rw [hin, hout, if_neg (by omega), List.getD_eq_getElem?_getD]
  have hdata : (g.sampleTable order).data = order.flatMap fun cell =>
      ((List.range g.variableCount).map fun v => g.inputAt cell.1 cell.2 v) ++
        [g.valueAt cell.1 cell.2] := rfl
  rw [hdata, Nat.add_zero,
    getElem?_flatMap_rows _ (g.variableCount + 1) order
      (fun cell _ => sampleTable_row_length g cell) s g.variableCount cell hs (by omega),
    List.getElem?_append_right (by simp)]
  simp

/-- A row of the sampled table fits the assignment of a cell exactly when it
is the row of that cell. -/
theorem sampleTable_rowFits (g : KVMap) (hg : g.WellFormed) (order : List (Nat × Nat))
    (horder : ∀ cell, cell ∈ order → cell.1 < g.width ∧ cell.2 < g.height)
    (s : Nat) (cell : Nat × Nat) (hs : order[s]? = some cell) (column row : Nat)
    (hc : column < g.width) (hr : row < g.height)
    (hfit : (g.sampleTable order).RowFits (cellVars g.variableCount column row) s) :
    cell = (column, row) := by
  have hcell := horder cell (List.getElem?_mem hs)
  have key : ∀ v, v < g.variableCount →
      kvm_cell_var v cell.1 cell.2 = kvm_cell_var v column row := by
    intro v hv
    have h1 := hfit v hv
    rw [sampleTable_input g order s v cell hs hv] at h1
    unfold inputAt at h1
    rw [if_neg (by omega), if_neg (by omega)] at h1
    unfold cellVars at h1
    rw [List.getD_eq_getElem?_getD, List.getElem?_map, List.getElem?_range hv] at h1
    simp only [Option.map_some', Option.getD_some] at h1
    cases h2 : kvm_cell_var v cell.1 cell.2 <;> cases h3 : kvm_cell_var v column row <;>
      simp_all
  obtain ⟨e1, e2⟩ := kvm_cell_injective g.variableCount cell.1 cell.2 column row
    (hg.1 ▸ hcell.1) (hg.2.1 ▸ hcell.2) (hg.1 ▸ hc) (hg.2.1 ▸ hr) key
  exact Prod.ext e1 e2

theorem sampleTable_rowFits_self (g : KVMap) (order : List (Nat × Nat)) (s : Nat)
    (column row : Nat) (hs : order[s]? = some (column, row))
    (hc : column < g.width) (hr : row < g.height) :
    (g.sampleTable order).RowFits (cellVars g.variableCount column row) s := by
  intro v hv
  have hv' : v < g.variableCount := hv
  right
  rw [sampleTable_input g order s v (column, row) hs hv']
  unfold inputAt cellVars
  rw [if_neg (by omega), if_neg (by omega), List.getD_eq_getElem?_getD, List.getElem?_map,
    List.getElem?_range hv']
  rfl

/-- C19: let `G` be the grid built from a table for an output, and let the
table `T'` have the input count of `G`, one output and one row per cell of
`G` (in any order `order`) holding the values `inputAt` of the variables and
the value `valueAt` of the cell.  The grid built from `T'` for output 0 has
the width and the height of `G` and the same `valueAt` everywhere. -/
theorem roundtrip_sampleTable (t : TruthTable) (o : Nat) (order : List (Nat × Nat))
    (horder : ∀ column row, (column, row) ∈ order ↔
      column < (ofTable t o).mapWidth ∧ row < (ofTable t o).mapHeight) :
    (ofTable ((ofTable t o).sampleTable order) 0).mapWidth = (ofTable t o).mapWidth ∧
    (ofTable ((ofTable t o).sampleTable order) 0).mapHeight = (ofTable t o).mapHeight ∧
    ∀ column row,
      (ofTable ((ofTable t o).sampleTable order) 0).valueAt column row =
        (ofTable t o).valueAt column row := by
  refine ⟨rfl, rfl, ?_⟩
  intro column row
  have hg := ofTable_wellFormed t o
  generalize hgdef : ofTable t o = g at horder hg
  have hw' : (ofTable (g.sampleTable order) 0).width = g.width := by rw [← hgdef]; rfl
  have hh' : (ofTable (g.sampleTable order) 0).height = g.height := by rw [← hgdef]; rfl
  by_cases hc : column < g.width
  · by_cases hr : row < g.height
    · rw [ofTable_cell_value _ 0 column row (by unfold mapWidth; omega)
        (by unfold mapHeight; omega)]
      have hI : (g.sampleTable order).inputCount = g.variableCount := rfl
      unfold cellValue
      rw [hI]
      have hmem : (column, row) ∈ order := (horder column row).mpr ⟨hc, hr⟩
      obtain ⟨s0, hs0⟩ := List.getElem?_of_mem hmem
      have hs0lt : s0 < order.length := (List.getElem?_eq_some_iff.mp hs0).1
      have hin : ∀ cell, cell ∈ order → cell.1 < g.width ∧ cell.2 < g.height :=
        fun cell h => (horder cell.1 cell.2).mp h
      rcases TruthTable.find_cases (g.sampleTable order)
          (cellVars g.variableCount column row) with ⟨hlt, hfit⟩ | ⟨_, hno⟩
      · simp only
        rw [if_neg (by omega)]
        rw [sampleTable_stateCount] at hlt
        obtain ⟨cell, hcell⟩ : ∃ cell, order[(g.sampleTable order).find
            (cellVars g.variableCount column row)]? = some cell :=
          ⟨_, List.getElem?_eq_getElem hlt⟩
        have := sampleTable_rowFits g hg order hin _ cell hcell column row hc hr hfit
        rw [sampleTable_output g order _ cell hcell, this]
      · exfalso
        apply hno s0 (by rw [sampleTable_stateCount]; exact hs0lt)
        exact sampleTable_rowFits_self g order s0 column row hs0 hc hr
    · unfold valueAt
      rw [hw', hh', if_neg (by omega), if_pos (by omega), if_neg (by omega), if_pos (by omega)]
  · unfold valueAt
    rw [hw', if_pos (by omega), if_pos (by omega)]

/-- An instance of `roundtrip_sampleTable`: sampling the grid of the logical
OR in the order of its rows gives a table whose grid has the same value in
the cell `(1, 1)`. -/
theorem roundtrip_sampleTable_witness :
    (ofTable ((ofTable orTable 0).sampleTable (QMCStack.cellsByRow (ofTable orTable 0))) 0).valueAt
      1 1 = (ofTable orTable 0).valueAt 1 1 :=
  (roundtrip_sampleTable orTable 0 (QMCStack.cellsByRow (ofTable orTable 0))
    (fun column row => QMCStack.mem_cellsByRow (ofTable orTable 0) column row)).2.2 1 1

end KVMap

end LOPT

namespace LOPT

open TriStateBool

/-! ## Theorems: the order of the terms and the choice between equal costs -/

theorem termLt_nil_right (a : term_t) : termLt a [] = false := by
  cases a <;> rfl

theorem termLt_asymm : ∀ a b : term_t, termLt a b = true → termLt b a = false := by
  intro a
  induction a with
  | nil => intro b _; exact termLt_nil_right b
  | cons x xs ih =>
    intro b h
    cases b with
    | nil => simp [termLt] at h
    | cons y ys =>
      unfold termLt at h ⊢
      by_cases h1 : x < y
      · have h2 : ¬ y < x := by omega
        simp [h1, h2]
      · by_cases h2 : y < x
        · simp [h1, h2] at h
        · simp only [h1, h2, ↓reduceIte] at h ⊢
          exact ih ys h

theorem termLt_antisymm : ∀ a b : term_t, termLt a b = false → termLt b a = false → a = b := by
  intro a
  induction a with
  | nil =>
    intro b h _
    cases b with
    | nil => rfl
    | cons y ys => simp [termLt] at h
  | cons x xs ih =>
    intro b h1 h2
    cases b with
    | nil => simp [termLt] at h2
    | cons y ys =>
      unfold termLt at h1 h2
      by_cases hxy : x < y
      · simp [hxy] at h1
      · by_cases hyx : y < x
        · simp [hyx] at h2
        · simp only [hxy, hyx, ↓reduceIte] at h1 h2
          have : x = y := by omega
          rw [this, ih ys h1 h2]

/-- The order "not greater" of the terms is transitive. -/
theorem termLe_trans : ∀ a b c : term_t,
    termLt b a = false → termLt c b = false → termLt c a = false := by
  intro a
  induction a with
  | nil => intro b c _ _; exact termLt_nil_right c
  | cons x xs ih =>
    intro b c h1 h2
    cases b with
    | nil => simp [termLt] at h1
    | cons y ys =>
      cases c with
      | nil => simp [termLt] at h2
      | cons z zs =>
        unfold termLt at h1 h2 ⊢
        by_cases hyx : y < x
        · simp [hyx] at h1
        · by_cases hzy : z < y
          · simp [hzy] at h2
          · simp only [hyx, hzy, ↓reduceIte] at h1 h2
            have hzx : ¬ z < x := by omega
            simp only [hzx, ↓reduceIte]
            by_cases hxy : x < y
            · have hxz : x < z := by omega
              simp [hxz]
            · simp only [hxy, ↓reduceIte] at h1
              by_cases hyz : y < z
              · have hxz : x < z := by omega
                simp [hxz]
              · simp only [hyz, ↓reduceIte] at h2
                have hxz : ¬ x < z := by omega
                simp only [hxz, ↓reduceIte]
                exact ih ys zs h1 h2

theorem termLt_of_le_of_ne (a b : term_t) (hle : termLt b a = false) (hne : a ≠ b) :
    termLt a b = true := by
  by_contra h
  exact hne (termLt_antisymm a b (by simpa using h) hle)

theorem termLt_trans (a b c : term_t) (h1 : termLt a b = true) (h2 : termLt b c = true) :
    termLt a c = true := by
  by_contra h
  have hca : termLt a c = false := by simpa using h
  have hab : termLt b a = false := termLt_asymm a b h1
  have := termLe_trans c a b hca hab
  rw [h2] at this
  exact Bool.noConfusion this

theorem sortTerms_sorted (L : bracket_t) :
    (sortTerms L).Pairwise (fun a b => termLt b a = false) := by
  unfold sortTerms
  exact @List.sorted_insertionSort term_t (fun a b => termLt b a = false) _
    ⟨fun a b => by
      cases h : termLt b a with
      | false => exact Or.inl rfl
      | true => exact Or.inr (termLt_asymm b a h)⟩
    ⟨fun a b c h1 h2 => termLe_trans a b c h1 h2⟩ L

theorem uniqueAux_pairwise :
    ∀ (L : bracket_t) (prev : term_t),
      (prev :: L).Pairwise (fun a b => termLt b a = false) →
      (prev :: uniqueAux prev L).Pairwise (fun a b => termLt a b = true) := by
  intro L
  induction L with
  | nil => intro prev _; simp [uniqueAux]
  | cons b rest ih =>
    intro prev h
    have hprev := (List.pairwise_cons.mp h).1
    have htail := (List.pairwise_cons.mp h).2
    unfold uniqueAux
    by_cases hb : b = prev
    · rw [if_pos hb]
      apply ih prev
      exact List.pairwise_cons.mpr
        ⟨fun x hx => hprev x (List.mem_cons_of_mem _ hx), (List.pairwise_cons.mp htail).2⟩
    · rw [if_neg hb]
      have hrec := ih b htail
      have hpb : termLt prev b = true :=
        termLt_of_le_of_ne prev b (hprev b (List.mem_cons_self _ _)) (Ne.symm hb)
      apply List.pairwise_cons.mpr
      refine ⟨?_, hrec⟩
      intro x hx
      rcases List.mem_cons.mp hx with rfl | hx
      · exact hpb
      · exact termLt_trans prev b x hpb ((List.pairwise_cons.mp hrec).1 x hx)

/-- After `std::sort` and `std::unique` the terms increase strictly. -/
theorem unique_sortTerms_pairwise (L : bracket_t) :
    (unique (sortTerms L)).Pairwise (fun a b => termLt a b = true) := by
  have h := sortTerms_sorted L
  cases hs : sortTerms L with
  | nil => simp [unique]
  | cons a rest =>
    rw [hs] at h
    unfold unique
    exact uniqueAux_pairwise rest a h

theorem eliminateLoop_sublist :
    ∀ (fuel i j : Nat) (B B' : bracket_t), eliminateLoop fuel i j B = some B' →
      List.Sublist B' B := by
  intro fuel
  induction fuel with
  | zero => intro i j B B' h; simp [eliminateLoop] at h
  | succ fuel ih =>
    intro i j B B' h
    unfold eliminateLoop at h
    split at h
    · split at h
      · rw [← Option.some.inj h]
      · exact ih _ _ _ _ h
    · split at h
      · split at h
        · simp only at h
          split at h
          · rw [← Option.some.inj h]
            exact List.eraseIdx_sublist _ _
          · exact (ih _ _ _ _ h).trans (List.eraseIdx_sublist _ _)
        · split at h
          · exact (ih _ _ _ _ h).trans (List.eraseIdx_sublist _ _)
          · exact ih _ _ _ _ h
      · simp at h

theorem eliminateSupersets_sublist (fuel : Nat) (B B' : bracket_t)
    (h : eliminateSupersets fuel B = some B') : List.Sublist B' B := by
  unfold eliminateSupersets at h
  split at h
  · rw [← Option.some.inj h]
  · exact eliminateLoop_sublist fuel 0 1 B B' h

namespace QMCPrimeChart

/-- The search loop keeps the first term of minimal length: the terms before
the chosen one are strictly longer, the terms after it are not shorter. -/
theorem shortestLoop_first (c : QMCPrimeChart) :
    ∀ (L : bracket_t) (tlen : Nat) (cur : Option term_t) (res : term_t),
      (∀ t, t ∈ L → 0 < c.termLength t) →
      ((tlen = 0 ∧ cur = none) ∨ ∃ t0, cur = some t0 ∧ tlen = c.termLength t0 ∧ 0 < tlen) →
      c.shortestLoop L tlen cur = some res →
      (cur = some res ∧ ∀ t, t ∈ L → c.termLength res ≤ c.termLength t) ∨
        (∃ pre post, L = pre ++ res :: post ∧
          (∀ t, t ∈ pre → c.termLength res < c.termLength t) ∧
          (∀ t, t ∈ post → c.termLength res ≤ c.termLength t) ∧
          ∀ t0, cur = some t0 → c.termLength res < c.termLength t0) := by
  intro L
  induction L with
  | nil =>
    intro tlen cur res _ _ h
    simp only [shortestLoop] at h
    exact Or.inl ⟨h, fun t ht => by simp at ht⟩
  | cons t rest ih =>
    intro tlen cur res hpos hst h
    have hposr : ∀ t', t' ∈ rest → 0 < c.termLength t' :=
      fun t' ht' => hpos t' (List.mem_cons_of_mem _ ht')
    have hpt : 0 < c.termLength t := hpos t (List.mem_cons_self _ _)
    unfold shortestLoop at h
    simp only at h
    split at h
    · rename_i hcond
      have hcur : ∀ t0, cur = some t0 → c.termLength t < c.termLength t0 := by
        intro t0 h0
        rcases hst with ⟨_, hnone⟩ | ⟨t0', h0', hlen, hpos0⟩
        · rw [hnone] at h0
          exact Option.noConfusion h0
        · rw [h0'] at h0
          rw [← Option.some.inj h0, ← hlen]
          omega
      right
      rcases ih _ _ res hposr (Or.inr ⟨t, rfl, rfl, hpt⟩) h with ⟨h1, h2⟩ |
        ⟨pre, post, h1, h2, h3, h4⟩
      · have hres : t = res := Option.some.inj h1
        subst hres
        exact ⟨[], rest, rfl, fun x hx => by simp at hx, h2, hcur⟩
      · have hlt := h4 t rfl
        refine ⟨t :: pre, post, by rw [h1]; rfl, ?_, h3, ?_⟩
        · intro x hx
          rcases List.mem_cons.mp hx with rfl | hx
          · exact hlt
          · exact h2 x hx
        · intro t0 h0
          exact Nat.lt_trans hlt (hcur t0 h0)
    · rename_i hcond
      rcases hst with ⟨hz, _⟩ | ⟨t0', h0', hlen, hpos0⟩
      · exact absurd (Or.inr hz) hcond
      · have hle : c.termLength t0' ≤ c.termLength t := by omega
        rcases ih _ _ res hposr (Or.inr ⟨t0', h0', hlen, hpos0⟩) h with ⟨h1, h2⟩ |
          ⟨pre, post, h1, h2, h3, h4⟩
        · left
          refine ⟨h1, ?_⟩
          rw [h0'] at h1
          have hres : t0' = res := Option.some.inj h1
          subst hres
          intro x hx
          rcases List.mem_cons.mp hx with rfl | hx
          · exact hle
          · exact h2 x hx
        · right
          have hlt := h4 t0' h0'
          refine ⟨t :: pre, post, by rw [h1]; rfl, ?_, h3, h4⟩
          intro x hx
          rcases List.mem_cons.mp hx with rfl | hx
          · omega
          · exact h2 x hx

set_option maxRecDepth 100000

/-- C15 (counterexample): `tieChart` is the chart the pipeline reaches for
`tieTable` after `extractEPIs`.  On it `findOptimalPrimes` completes and
appends the primes of the term `{1, 4, 5}`, although the term `{2, 3, 6}`
also survives deduplication and absorption, has the same minimal length, and
occurs earlier in the sum of products built by `mergeBrackets`. -/
theorem tie_break_not_first_encountered :
    ((( QMCStack.initialize {} (KVMap.ofTable tieTable 0)).bind (QMCStack.mergeLoop 6)).bind
      fun stack => ( QMCPrimeChart.initialize {} stack).map fun chart =>
        (chart.extractEPIs []).1) = some tieChart ∧
    ∃ sop survivors, mergeBrackets tieChart.productOfSums = some sop ∧
      eliminateSupersets 300 (unique (sortTerms sop)) = some survivors ∧
      tieChart.findOptimalPrimes 300 [] =
        some ([1, 4, 5].filterMap fun id => tieChart.primes[id]?) ∧
      [2, 3, 6] ∈ survivors ∧ [1, 4, 5] ∈ survivors ∧
      (∀ t, t ∈ survivors → tieChart.termLength [2, 3, 6] ≤ tieChart.termLength t) ∧
      tieChart.termLength [2, 3, 6] = tieChart.termLength [1, 4, 5] ∧
      sop.indexOf [2, 3, 6] < sop.indexOf [1, 4, 5] := by
  refine ⟨rfl, _, [[0, 1, 2, 6], [0, 1, 5, 6], [1, 2, 4, 6], [1, 3, 5, 6], [1, 4, 5],
    [2, 3, 4, 5], [2, 3, 6]], rfl, rfl, rfl, ?_, ?_, ?_, ?_, ?_⟩
  · decide
  · decide
  · decide
  · decide
  · decide

/-- C15 (amended): on a completed call of `findOptimalPrimes` the appended
primes are those of a term `chosen` that survives deduplication and
absorption; when every surviving term has a positive length, `chosen` has
minimal length among the surviving terms, and every other surviving term of
the same length is greater than `chosen` in the order in which `std::sort`
puts the terms (the lexicographic order of the positions of their primes). -/
theorem findOptimalPrimes_tie_break (c : QMCPrimeChart) (fuel : Nat)
    (optimalPrimes result : List QMCImplicant)
    (h : c.findOptimalPrimes fuel optimalPrimes = some result) :
    ∃ sop survivors chosen, mergeBrackets c.productOfSums = some sop ∧
      eliminateSupersets fuel (unique (sortTerms sop)) = some survivors ∧
      chosen ∈ survivors ∧
      result = optimalPrimes ++ chosen.filterMap (fun id => c.primeImplicants[id]?) ∧
      ((∀ t, t ∈ survivors → 0 < c.termLength t) →
        ∀ t, t ∈ survivors → c.termLength chosen ≤ c.termLength t ∧
          (c.termLength t = c.termLength chosen → t = chosen ∨ termLt chosen t = true)) := by
  unfold findOptimalPrimes at h
  cases hL : mergeBrackets c.productOfSums with
  | none => rw [hL] at h; simp at h
  | some L =>
    rw [hL] at h
    simp only at h
    cases hE : eliminateSupersets fuel (unique (sortTerms L)) with
    | none => rw [hE] at h; simp at h
    | some L2 =>
      rw [hE] at h
      simp only at h
      cases hS : c.shortestLoop L2 0 none with
      | none => rw [hS] at h; simp at h
      | some t =>
        rw [hS] at h
        simp only [Option.some.injEq] at h
        have hsorted : L2.Pairwise (fun a b => termLt a b = true) :=
          (unique_sortTerms_pairwise L).sublist (eliminateSupersets_sublist fuel _ L2 hE)
        have hmem' : t ∈ L2 := by
          -- the chosen term is an element of the bracket whatever the lengths are
          have aux : ∀ (B : bracket_t) (tlen : Nat) (cur : Option term_t) (res : term_t),
              c.shortestLoop B tlen cur = some res → res ∈ B ∨ cur = some res := by
            intro B
            induction B with
            | nil => intro tlen cur res hh; exact Or.inr hh
            | cons b rest ih =>
              intro tlen cur res hh
              unfold shortestLoop at hh
              simp only at hh
              split at hh
              · rcases ih _ _ res hh with h1 | h1
                · exact Or.inl (List.mem_cons_of_mem _ h1)
                · rw [Option.some.inj h1]; exact Or.inl (List.mem_cons_self _ _)
              · rcases ih _ _ res hh with h1 | h1
                · exact Or.inl (List.mem_cons_of_mem _ h1)
                · exact Or.inr h1
          rcases aux L2 0 none t hS with h1 | h1
          · exact h1
          · exact Option.noConfusion h1
        refine ⟨L, L2, t, rfl, hE, hmem', h.symm, ?_⟩
        intro hpos t' ht'
        rcases c.shortestLoop_first L2 0 none t hpos (Or.inl ⟨rfl, rfl⟩) hS with ⟨h1, _⟩ |
          ⟨pre, post, h1, h2, h3, _⟩
        · exact Option.noConfusion h1
        · rw [h1] at ht' hsorted
          rcases List.mem_append.mp ht' with hp | hp
          · have := h2 t' hp
            exact ⟨by omega, fun he => by omega⟩
          · rcases List.mem_cons.mp hp with rfl | hp
            · exact ⟨Nat.le_refl _, fun _ => Or.inl rfl⟩
            · refine ⟨h3 t' hp, fun _ => Or.inr ?_⟩
              have hs2 := (List.pairwise_append.mp hsorted).2.1
              exact (List.pairwise_cons.mp hs2).1 t' hp

/-- An instance of `findOptimalPrimes_tie_break`: on `tieChart` the call
completes and the chosen term is smaller, in the order of the sorted terms,
than the surviving term `{2, 3, 6}` of the same length. -/
theorem findOptimalPrimes_tie_break_witness :
    ∃ sop survivors chosen, mergeBrackets tieChart.productOfSums = some sop ∧
      eliminateSupersets 300 (unique (sortTerms sop)) = some survivors ∧
      chosen ∈ survivors ∧
      ([1, 4, 5].filterMap fun id => tieChart.primes[id]?) =
        [] ++ chosen.filterMap (fun id => tieChart.primeImplicants[id]?) := by
  obtain ⟨sop, survivors, chosen, h1, h2, h3, h4, _⟩ :=
    findOptimalPrimes_tie_break tieChart 300 []
      ([1, 4, 5].filterMap fun id => tieChart.primes[id]?) (by rfl)
  exact ⟨sop, survivors, chosen, h1, h2, h3, h4⟩

end QMCPrimeChart

end LOPT

namespace LOPT

open TriStateBool

/-! ## Theorems: one round of `QMCImplicantSet::tryMerge` -/

namespace QMCImplicant

theorem tryMerge_markPrime_right (a b : QMCImplicant) (q : Bool) :
    a.tryMerge (b.markPrime q) = a.tryMerge b := rfl

theorem tryMerge_markPrime_left (a b : QMCImplicant) (p : Bool) :
    (a.markPrime p).tryMerge b =
      (a.tryMerge b).map (Option.map fun m => m.markPrime p) := by
  unfold tryMerge markPrime
  simp only
  split
  · rfl
  · split
    · rfl
    · split
      · rfl
      · rfl

theorem mergedWith_markPrime_left (a b : QMCImplicant) (p : Bool) :
    (a.markPrime p).mergedWith b = a.mergedWith b := by
  unfold mergedWith
  rw [tryMerge_markPrime_left]
  cases a.tryMerge b with
  | none => rfl
  | some r =>
    cases r with
    | none => rfl
    | some m => rfl

theorem mergedWith_markPrime_right (a b : QMCImplicant) (q : Bool) :
    a.mergedWith (b.markPrime q) = a.mergedWith b := rfl

theorem merges_markPrime_left (a b : QMCImplicant) (p : Bool) :
    (a.markPrime p).merges b = a.merges b := by
  unfold merges
  rw [mergedWith_markPrime_left]

theorem merges_markPrime_right (a b : QMCImplicant) (q : Bool) :
    a.merges (b.markPrime q) = a.merges b := rfl

theorem pairOK_markPrime_left (n : Nat) (a b : QMCImplicant) (p : Bool) :
    (a.markPrime p).pairOK n b = a.pairOK n b := by
  unfold pairOK
  rw [tryMerge_markPrime_left]
  cases a.tryMerge b with
  | none => rfl
  | some r =>
    cases r with
    | none => rfl
    | some m => rfl

theorem pairOK_markPrime_right (n : Nat) (a b : QMCImplicant) (q : Bool) :
    a.pairOK n (b.markPrime q) = a.pairOK n b := rfl

theorem markPrime_markPrime (a : QMCImplicant) (p q : Bool) :
    (a.markPrime p).markPrime q = a.markPrime q := rfl

end QMCImplicant

namespace QMCImplicantSet

theorem length_addAt (T : List QMCImplicantSet) (m : QMCImplicant) :
    (addAt T m).length = T.length := by
  unfold addAt
  split
  · rw [List.length_set]
  · rfl

theorem length_foldl_addAt (L : List QMCImplicant) :
    ∀ T : List QMCImplicantSet, (L.foldl addAt T).length = T.length := by
  induction L with
  | nil => intro T; rfl
  | cons m L ih => intro T; rw [List.foldl_cons, ih, length_addAt]

/-- The inner loop of `QMCImplicantSet::tryMerge` for one implicant `a`: it
completes exactly when every visit completes, and then `a` and the implicants
it merges with are marked non-prime, the merged implicants are added to the
target vector, and `hasMerged` is set when a merge succeeds. -/
theorem tryMergeInner_eq :
    ∀ (B : List QMCImplicant) (a : QMCImplicant) (T : List QMCImplicantSet) (hm : Bool),
      tryMergeInner a B T hm =
        if B.all (fun b => a.pairOK T.length b) then
          some (if B.any (fun b => a.merges b) then a.markPrime false else a,
            B.map (fun b => if a.merges b then b.markPrime false else b),
            (B.filterMap fun b => a.mergedWith b).foldl addAt T,
            hm || B.any (fun b => a.merges b))
        else none := by
  intro B
  induction B with
  | nil => intro a T hm; simp [tryMergeInner]
  | cons b rest ih =>
    intro a T hm
    unfold tryMergeInner
    cases h : a.tryMerge b with
    | none =>
      have hok : a.pairOK T.length b = false := by unfold QMCImplicant.pairOK; rw [h]
      simp [hok]
    | some r =>
      cases r with
      | none =>
        have hok : a.pairOK T.length b = true := by unfold QMCImplicant.pairOK; rw [h]
        have hmw : a.mergedWith b = none := by unfold QMCImplicant.mergedWith; rw [h]
        have hmg : a.merges b = false := by unfold QMCImplicant.merges; rw [hmw]; rfl
        simp only [ih, List.all_cons, hok, Bool.true_and, List.any_cons, hmg, Bool.false_or,
          List.map_cons, Bool.false_eq_true, ↓reduceIte, List.filterMap_cons, hmw]
        split
        · rfl
        · rfl
      | some m =>
        have hmw : a.mergedWith b = some (m.markPrime true) := by
          unfold QMCImplicant.mergedWith; rw [h]
        have hmg : a.merges b = true := by unfold QMCImplicant.merges; rw [hmw]; rfl
        have hcount : (m.markPrime true).inputsTrueCount = m.inputsTrueCount := rfl
        simp only
        cases ht : T[(m.markPrime true).inputsTrueCount]? with
        | none =>
          have hge : T.length ≤ m.inputsTrueCount := by
            rw [hcount] at ht
            exact List.getElem?_eq_none_iff.mp ht
          have hok : a.pairOK T.length b = false := by
            unfold QMCImplicant.pairOK
            rw [h]
            simp only [decide_eq_false_iff_not]
            omega
          simp [hok]
        | some target =>
          have hlt : m.inputsTrueCount < T.length := by
            rw [hcount] at ht
            exact (List.getElem?_eq_some_iff.mp ht).1
          have hok : a.pairOK T.length b = true := by
            unfold QMCImplicant.pairOK
            rw [h]
            simpa using hlt
          have hadd : addAt T (m.markPrime true) =
              T.set (m.markPrime true).inputsTrueCount (target.add (m.markPrime true)) := by
            unfold addAt
            rw [ht]
          simp only [ih, List.length_set, QMCImplicant.pairOK_markPrime_left,
            QMCImplicant.merges_markPrime_left, QMCImplicant.mergedWith_markPrime_left,
            QMCImplicant.markPrime_markPrime, ite_self, Bool.true_or, List.all_cons, hok,
            Bool.true_and, List.any_cons, hmg, ↓reduceIte, List.map_cons, List.filterMap_cons,
            hmw, List.foldl_cons, hadd, Bool.or_true]
          split
          · rfl
          · rfl

theorem map_flag_flag (A : List QMCImplicant) (B : List QMCImplicant) (a : QMCImplicant) :
    (B.map fun b => if a.merges b then b.markPrime false else b).map
        (fun b => if A.any (fun x => x.merges b) then b.markPrime false else b) =
      B.map fun b => if (a :: A).any (fun x => x.merges b) then b.markPrime false else b := by
  rw [List.map_map]
  apply List.map_congr_left
  intro b _
  simp only [Function.comp, List.any_cons]
  by_cases h1 : a.merges b = true
  · simp only [h1, ↓reduceIte, QMCImplicant.merges_markPrime_right,
      QMCImplicant.markPrime_markPrime, ite_self, Bool.true_or]
  · simp only [h1, Bool.false_eq_true, ↓reduceIte, Bool.false_or]

/-- The two loops of `QMCImplicantSet::tryMerge` on the implicants `A` of this
set and `B` of the other set. -/
theorem tryMergeOuter_eq :
    ∀ (A B : List QMCImplicant) (T : List QMCImplicantSet) (hm : Bool),
      tryMergeOuter A B T hm =
        if A.all (fun a => B.all (fun b => a.pairOK T.length b)) then
          some (A.map (fun a => if B.any (fun b => a.merges b) then a.markPrime false else a),
            B.map (fun b => if A.any (fun a => a.merges b) then b.markPrime false else b),
            (A.flatMap fun a => B.filterMap fun b => a.mergedWith b).foldl addAt T,
            hm || A.any (fun a => B.any (fun b => a.merges b)))
        else none := by
  intro A
  induction A with
  | nil =>
    intro B T hm
    simp only [tryMergeOuter, List.all_nil, ↓reduceIte, List.map_nil, List.any_nil,
      Bool.false_eq_true, List.flatMap_nil, List.foldl_nil, Bool.or_false]
    congr 3
    exact (List.map_id' B).symm
  | cons a rest ih =>
    intro B T hm
    unfold tryMergeOuter
    rw [tryMergeInner_eq]
    by_cases hok : B.all (fun b => a.pairOK T.length b) = true
    · rw [if_pos hok]
      simp only
      rw [ih]
      have h1 : ∀ x : QMCImplicant,
          (fun b => x.pairOK T.length (if a.merges b then b.markPrime false else b)) =
            fun b => x.pairOK T.length b := by
        intro x
        funext b
        split <;> rfl
      have h2 : ∀ x : QMCImplicant,
          (fun b => x.merges (if a.merges b then b.markPrime false else b)) =
            fun b => x.merges b := by
        intro x
        funext b
        split <;> rfl
      have h3 : ∀ x : QMCImplicant,
          (fun b => x.mergedWith (if a.merges b then b.markPrime false else b)) =
            fun b => x.mergedWith b := by
        intro x
        funext b
        split <;> rfl
      simp only [length_foldl_addAt, List.all_map, List.any_map, Function.comp_def,
        List.all_cons, hok, Bool.true_and, List.map_cons, List.any_cons, List.flatMap_cons,
        List.foldl_append, List.filterMap_map, h1, h2, h3]
      have h4 := map_flag_flag rest B a
      simp only [List.any_cons] at h4
      have h5 : (B.map fun b =>
          if (a.merges b || rest.any fun x => x.merges b) = true then b.markPrime false else b) =
          (B.map fun b => if a.merges b then b.markPrime false else b).map
            (fun b => if rest.any (fun x => x.merges b) then b.markPrime false else b) :=
        h4.symm
      rw [h5]
      split <;> split <;> simp only [Option.map_some', Option.map_none', Bool.or_assoc]
    · rw [if_neg hok]
      simp only [List.all_cons]
      have : (B.all fun b => a.pairOK T.length b) = false := by simpa using hok
      rw [if_neg]
      rw [this]
      simp

end QMCImplicantSet

end LOPT

namespace LOPT

open TriStateBool

/-! ## Theorems: one round of `QMCStack::tryMerge` -/

namespace QMCStack

theorem isEmpty_filterMap_mergedWith (a : QMCImplicant) (B : List QMCImplicant) :
    (B.filterMap fun b => a.mergedWith b).isEmpty = !B.any (fun b => a.merges b) := by
  induction B with
  | nil => rfl
  | cons b rest ih =>
    rw [List.filterMap_cons, List.any_cons]
    unfold QMCImplicant.merges
    cases h : a.mergedWith b with
    | none =>
      simp only [Option.isSome_none, Bool.false_or]
      exact ih
    | some m => rfl

theorem isEmpty_append_eq {α : Type} (xs ys : List α) :
    (xs ++ ys).isEmpty = (xs.isEmpty && ys.isEmpty) := by
  cases xs <;> rfl

theorem isEmpty_pairs (A B : List QMCImplicant) :
    (A.flatMap fun a => B.filterMap fun b => a.mergedWith b).isEmpty =
      !A.any (fun a => B.any fun b => a.merges b) := by
  induction A with
  | nil => rfl
  | cons a rest ih =>
    rw [List.flatMap_cons, isEmpty_append_eq, ih, isEmpty_filterMap_mergedWith, List.any_cons,
      Bool.not_or]

/-- The loop of `QMCStack::tryMerge` from index `pre.length` on is the
recursion `roundRec` on the sets from that index on. -/
theorem foldlM_tryMergeStep :
    ∀ (rest pre : List QMCImplicantSet) (a : QMCImplicantSet) (T : List QMCImplicantSet)
      (hm : Bool),
      (List.range' pre.length rest.length).foldlM tryMergeStep (pre ++ a :: rest, T, hm) =
        (roundRec a rest T hm).map fun r => (pre ++ r.1, r.2) := by
  intro rest
  induction rest with
  | nil =>
    intro pre a T hm
    rfl
  | cons b rest ih =>
    intro pre a T hm
    rw [List.length_cons, List.range'_succ, List.foldlM_cons]
    have h1 : (pre ++ a :: b :: rest)[pre.length]? = some a := by
      rw [List.getElem?_append_right (Nat.le_refl _)]
      simp
    have h2 : (pre ++ a :: b :: rest)[pre.length + 1]? = some b := by
      rw [List.getElem?_append_right (Nat.le_succ _)]
      simp
    unfold roundRec
    simp only [tryMergeStep, h1, h2]
    cases h : a.tryMerge b T with
    | none => rfl
    | some r =>
      obtain ⟨a', b', T', merged⟩ := r
      simp only [Option.bind_eq_bind, Option.some_bind]
      have hset : ((pre ++ a :: b :: rest).set pre.length a').set (pre.length + 1) b' =
          (pre ++ [a']) ++ b' :: rest := by
        rw [List.set_append_right _ _ (Nat.le_refl _), Nat.sub_self, List.set_cons_zero,
          List.set_append_right _ _ (Nat.le_succ _)]
        simp
      rw [hset]
      have hlen : pre.length + 1 = (pre ++ [a']).length := by simp
      rw [hlen, ih (pre ++ [a']) b' T' (if merged = true then true else hm)]
      cases roundRec b' rest T' (if merged = true then true else hm) with
      | none => rfl
      | some r => simp

theorem pairOK_ite (c : Bool) (n : Nat) (x b : QMCImplicant) :
    (if c then x.markPrime false else x).pairOK n b = x.pairOK n b := by
  cases c
  · rfl
  · exact QMCImplicant.pairOK_markPrime_left n x b false

theorem merges_ite (c : Bool) (x b : QMCImplicant) :
    (if c then x.markPrime false else x).merges b = x.merges b := by
  cases c
  · rfl
  · exact QMCImplicant.merges_markPrime_left x b false

theorem mergedWith_ite (c : Bool) (x b : QMCImplicant) :
    (if c then x.markPrime false else x).mergedWith b = x.mergedWith b := by
  cases c
  · rfl
  · exact QMCImplicant.mergedWith_markPrime_left x b false

theorem markMerged_eq (prev next : List QMCImplicant) (x : QMCImplicant) :
    (if next.any (fun b => x.merges b) then
      (if prev.any (fun p => p.merges x) then x.markPrime false else x).markPrime false
    else (if prev.any (fun p => p.merges x) then x.markPrime false else x)) =
      markMerged prev next x := by
  unfold markMerged
  cases prev.any (fun p => p.merges x) <;> cases next.any (fun b => x.merges b) <;> rfl

/-- The recursion `roundRec` in closed form: it completes exactly when every
visit of the round completes, and then the sets carry the flags of
`roundFlags`, the merged implicants are added to the target vector in the
order of `roundMerged`, and the flag is set when a merge succeeds. -/
theorem roundRec_eq :
    ∀ (rest : List QMCImplicantSet) (a0 : QMCImplicantSet) (prev : List QMCImplicant)
      (T : List QMCImplicantSet) (hm : Bool),
      roundRec { implicants := a0.implicants.map fun x =>
          if prev.any (fun p => p.merges x) then x.markPrime false else x } rest T hm =
        if roundOK T.length (a0 :: rest) then
          some (roundFlags prev (a0 :: rest),
            (roundMerged (a0 :: rest)).foldl QMCImplicantSet.addAt T,
            hm || !(roundMerged (a0 :: rest)).isEmpty)
        else none := by
  intro rest
  induction rest with
  | nil =>
    intro a0 prev T hm
    simp only [roundRec, roundOK, roundFlags, roundMerged, ↓reduceIte, List.foldl_nil,
      List.isEmpty_nil, Bool.not_true, Bool.or_false, Option.some.injEq, Prod.mk.injEq,
      and_true, List.cons.injEq, QMCImplicantSet.mk.injEq]
    apply List.map_congr_left
    intro x _
    unfold markMerged
    simp only [List.any_nil, Bool.or_false]
  | cons b rest ih =>
    intro a0 prev T hm
    unfold roundRec
    simp only [QMCImplicantSet.tryMerge]
    rw [QMCImplicantSet.tryMergeOuter_eq]
    simp only [List.all_map, List.any_map, List.flatMap_map, List.map_map, Function.comp_def,
      pairOK_ite, merges_ite, mergedWith_ite, markMerged_eq, Bool.false_or]
    have hOK : roundOK T.length (a0 :: b :: rest) =
        ((a0.implicants.all fun x => b.implicants.all fun y => x.pairOK T.length y) &&
          roundOK T.length (b :: rest)) := rfl
    have hM : roundMerged (a0 :: b :: rest) =
        (a0.implicants.flatMap fun x => b.implicants.filterMap fun y => x.mergedWith y) ++
          roundMerged (b :: rest) := rfl
    have hF : roundFlags prev (a0 :: b :: rest) =
        { implicants := a0.implicants.map (markMerged prev b.implicants) } ::
          roundFlags a0.implicants (b :: rest) := rfl
    rw [hOK, hM, hF]
    by_cases h1 : (a0.implicants.all fun x => b.implicants.all fun y => x.pairOK T.length y) = true
    · rw [if_pos h1]
      simp only [Option.map_some']
      rw [ih b a0.implicants]
      simp only [QMCImplicantSet.length_foldl_addAt, h1, Bool.true_and, List.foldl_append,
        isEmpty_append_eq, isEmpty_pairs]
      by_cases h2 : roundOK T.length (b :: rest) = true
      · rw [if_pos h2, if_pos h2]
        simp only [Option.map_some', Option.some.injEq, Prod.mk.injEq, true_and,
          List.cons.injEq, and_true, QMCImplicantSet.mk.injEq]
        cases a0.implicants.any (fun a => b.implicants.any fun y => a.merges y) <;>
          cases hm <;> rfl
      · rw [if_neg h2, if_neg h2]
        rfl
    · rw [if_neg h1]
      have h1f : (a0.implicants.all fun x => b.implicants.all fun y => x.pairOK T.length y) =
          false := by simpa using h1
      rw [h1f]
      rfl

/-- `QMCStack::tryMerge` in closed form on a stack whose last stage `G` has a
set. -/
theorem tryMerge_eq (s : QMCStack) (G : List QMCImplicantSet)
    (h : s.stages.getLast? = some G) (hG : G ≠ []) :
    s.tryMerge =
      if roundOK G.length G then
        some ({ stages := s.stages.dropLast ++
            [roundFlags [] G,
              (roundMerged G).foldl QMCImplicantSet.addAt (List.replicate G.length {})] },
          !(roundMerged G).isEmpty)
      else none := by
  unfold tryMerge
  rw [h]
  cases G with
  | nil => exact absurd rfl hG
  | cons a rest =>
    have hlen : (a :: rest).length ≠ 0 := by simp
    simp only [if_neg hlen]
    have hr : List.range ((a :: rest).length - 1) = List.range' ([] : List QMCImplicantSet).length
        rest.length := by
      rw [List.range_eq_range']
      rfl
    rw [hr]
    have hstep := foldlM_tryMergeStep rest [] a (List.replicate (a :: rest).length {}) false
    rw [List.nil_append] at hstep
    rw [hstep]
    have ha : a = { implicants := a.implicants.map fun x =>
        if ([] : List QMCImplicant).any (fun p => p.merges x) then x.markPrime false else x } := by
      cases a
      simp
    have hrec := roundRec_eq rest a [] (List.replicate (a :: rest).length {}) false
    rw [← ha] at hrec
    rw [hrec]
    simp only [List.length_replicate, Bool.false_or]
    by_cases hok : roundOK (a :: rest).length (a :: rest) = true
    · simp only [if_pos hok, Option.map_some', List.nil_append]
    · simp only [if_neg hok, Option.map_none']

end QMCStack

end LOPT

namespace LOPT

open TriStateBool

/-! ## Theorems: the members of a round -/

namespace QMCImplicant

theorem mergedWith_eq_some (a b m : QMCImplicant) :
    a.mergedWith b = some m ↔ ∃ m0, a.tryMerge b = some (some m0) ∧ m = m0.markPrime true := by
  unfold mergedWith
  cases h : a.tryMerge b with
  | none => simp
  | some r =>
    cases r with
    | none => simp
    | some m0 =>
      simp only [Option.some.injEq, exists_eq_left']
      exact eq_comm

theorem merges_iff (a b : QMCImplicant) :
    a.merges b = true ↔ ∃ m0, a.tryMerge b = some (some m0) := by
  unfold merges
  rw [Option.isSome_iff_exists]
  constructor
  · rintro ⟨m, hm⟩
    obtain ⟨m0, h0, _⟩ := (mergedWith_eq_some a b m).mp hm
    exact ⟨m0, h0⟩
  · rintro ⟨m0, h0⟩
    exact ⟨m0.markPrime true, (mergedWith_eq_some a b _).mpr ⟨m0, h0, rfl⟩⟩

end QMCImplicant

namespace QMCImplicantSet

theorem mem_add (S : QMCImplicantSet) (m x : QMCImplicant) (h : x ∈ (S.add m).implicants) :
    x ∈ S.implicants ∨ x = m := by
  unfold add at h
  split at h
  · exact Or.inl h
  · rcases List.mem_append.mp h with h | h
    · exact Or.inl h
    · exact Or.inr (List.mem_singleton.mp h)

theorem add_ne_nil (S : QMCImplicantSet) (m : QMCImplicant) : (S.add m).implicants ≠ [] := by
  unfold add
  split
  · rename_i h
    obtain ⟨x, hx, _⟩ := List.any_eq_true.mp h
    exact List.ne_nil_of_mem hx
  · simp

theorem nodup_add (S : QMCImplicantSet) (m : QMCImplicant)
    (h : (S.implicants.map QMCImplicant.states).Nodup) :
    ((S.add m).implicants.map QMCImplicant.states).Nodup := by
  unfold add
  split
  · exact h
  · rename_i hany
    rw [List.map_append, List.map_singleton]
    refine List.Nodup.append h (List.nodup_singleton _) ?_
    intro v hv hv'
    rw [List.mem_singleton] at hv'
    obtain ⟨x, hx, hxv⟩ := List.mem_map.mp hv
    apply hany
    refine List.any_eq_true.mpr ⟨x, hx, ?_⟩
    unfold QMCImplicant.eqv
    rw [decide_eq_true_iff, hxv, hv']

theorem getElem?_addAt (T : List QMCImplicantSet) (m : QMCImplicant) (w : Nat) :
    (addAt T m)[w]? =
      if w = m.inputsTrueCount then (T[w]?).map (fun S => S.add m) else T[w]? := by
  unfold addAt
  cases h : T[m.inputsTrueCount]? with
  | none =>
    simp only
    split
    · rename_i hw
      rw [hw, h]
      rfl
    · rfl
  | some target =>
    simp only
    rw [List.getElem?_set]
    split
    · rename_i hw
      have hlt : m.inputsTrueCount < T.length := (List.getElem?_eq_some_iff.mp h).1
      rw [if_pos hlt, if_pos hw.symm, ← hw, h]
      rfl
    · rename_i hw
      rw [if_neg (fun h => hw h.symm)]

/-- An invariant of the sets by their index holds after the merged implicants
are added when adding one implicant to the set of its `TRUE` count keeps it. -/
theorem foldl_addAt_invariant (R : Nat → QMCImplicantSet → Prop) (L : List QMCImplicant)
    (hadd : ∀ m ∈ L, ∀ S, R m.inputsTrueCount S → R m.inputsTrueCount (S.add m)) :
    ∀ T : List QMCImplicantSet,
      (∀ (w : Nat) (S : QMCImplicantSet), T[w]? = some S → R w S) →
      ∀ (w : Nat) (S : QMCImplicantSet), (L.foldl addAt T)[w]? = some S → R w S := by
  induction L with
  | nil => intro T hT; exact hT
  | cons m L ih =>
    intro T hT
    rw [List.foldl_cons]
    apply ih (fun x hx => hadd x (List.mem_cons_of_mem _ hx))
    intro w S hS
    rw [getElem?_addAt] at hS
    split at hS
    · rename_i hw
      cases hT' : T[w]? with
      | none => rw [hT'] at hS; cases hS
      | some S0 =>
        rw [hT'] at hS
        simp only [Option.map_some', Option.some.injEq] at hS
        rw [← hS, hw]
        apply hadd m (List.mem_cons_self _ _)
        rw [← hw]
        exact hT w S0 hT'
    · exact hT w S hS

theorem getElem?_replicate_empty (n w : Nat) (S : QMCImplicantSet)
    (h : (List.replicate n ({} : QMCImplicantSet))[w]? = some S) : S.implicants = [] := by
  rw [List.getElem?_replicate] at h
  split at h
  · cases h; rfl
  · cases h

end QMCImplicantSet

namespace QMCStack

theorem getElem?_succ_of {α : Type} {x : α} {xs : List α} {w : Nat} {y : Option α}
    (h : xs[w]? = y) : (x :: xs)[w + 1]? = y := by
  rw [List.getElem?_cons_succ]
  exact h

theorem getElem?_of_succ {α : Type} {x : α} {xs : List α} {w : Nat} {y : Option α}
    (h : (x :: xs)[w + 1]? = y) : xs[w]? = y := by
  rw [List.getElem?_cons_succ] at h
  exact h

theorem mem_roundMerged (m : QMCImplicant) :
    ∀ G : List QMCImplicantSet, m ∈ roundMerged G ↔
      ∃ (w : Nat) (A B : QMCImplicantSet) (a b : QMCImplicant),
        G[w]? = some A ∧ G[w + 1]? = some B ∧ a ∈ A.implicants ∧ b ∈ B.implicants ∧
          a.mergedWith b = some m := by
  intro G
  induction G with
  | nil => simp [roundMerged]
  | cons A rest ih =>
    cases rest with
    | nil =>
      simp only [roundMerged, List.not_mem_nil, false_iff, not_exists, not_and]
      intro w A' B a b _ h2
      simp at h2
    | cons B rest =>
      have hM : roundMerged (A :: B :: rest) =
          (A.implicants.flatMap fun x => B.implicants.filterMap fun y => x.mergedWith y) ++
            roundMerged (B :: rest) := rfl
      rw [hM, List.mem_append, ih]
      constructor
      · rintro (h | ⟨w, A', B', a, b, h1, h2, h3⟩)
        · obtain ⟨a, ha, hm⟩ := List.mem_flatMap.mp h
          obtain ⟨b, hb, hab⟩ := List.mem_filterMap.mp hm
          exact ⟨0, A, B, a, b, rfl, by simp, ha, hb, hab⟩
        · exact ⟨w + 1, A', B', a, b, getElem?_succ_of h1, getElem?_succ_of h2, h3⟩
      · rintro ⟨w, A', B', a, b, h1, h2, ha, hb, hab⟩
        cases w with
        | zero =>
          simp only [List.getElem?_cons_zero, Option.some.injEq, Nat.zero_add,
            List.getElem?_cons_succ] at h1 h2
          subst h1 h2
          exact Or.inl (List.mem_flatMap.mpr ⟨a, ha, List.mem_filterMap.mpr ⟨b, hb, hab⟩⟩)
        | succ w =>
          exact Or.inr ⟨w, A', B', a, b, getElem?_of_succ h1, getElem?_of_succ h2, ha, hb, hab⟩

theorem roundOK_iff (n : Nat) :
    ∀ G : List QMCImplicantSet, roundOK n G = true ↔
      ∀ (w : Nat) (A B : QMCImplicantSet) (a b : QMCImplicant),
        G[w]? = some A → G[w + 1]? = some B → a ∈ A.implicants → b ∈ B.implicants →
          a.pairOK n b = true := by
  intro G
  induction G with
  | nil => simp [roundOK]
  | cons A rest ih =>
    cases rest with
    | nil =>
      simp only [roundOK, true_iff]
      intro w A' B a b _ h2
      simp at h2
    | cons B rest =>
      have hOK : roundOK n (A :: B :: rest) =
          ((A.implicants.all fun x => B.implicants.all fun y => x.pairOK n y) &&
            roundOK n (B :: rest)) := rfl
      rw [hOK, Bool.and_eq_true, ih]
      constructor
      · rintro ⟨h0, hr⟩ w A' B' a b h1 h2 ha hb
        cases w with
        | zero =>
          simp only [List.getElem?_cons_zero, Option.some.injEq, Nat.zero_add,
            List.getElem?_cons_succ] at h1 h2
          subst h1 h2
          exact List.all_eq_true.mp (List.all_eq_true.mp h0 a ha) b hb
        | succ w => exact hr w A' B' a b (getElem?_of_succ h1) (getElem?_of_succ h2) ha hb
      · intro h
        refine ⟨?_, fun w A' B' a b h1 h2 =>
          h (w + 1) A' B' a b (getElem?_succ_of h1) (getElem?_succ_of h2)⟩
        apply List.all_eq_true.mpr
        intro a ha
        apply List.all_eq_true.mpr
        intro b hb
        exact h 0 A B a b rfl (by simp) ha hb

theorem length_roundFlags :
    ∀ (G : List QMCImplicantSet) (P : List QMCImplicant), (roundFlags P G).length = G.length := by
  intro G
  induction G with
  | nil => intro P; rfl
  | cons A rest ih =>
    intro P
    cases rest with
    | nil => rfl
    | cons B rest =>
      have hF : roundFlags P (A :: B :: rest) =
          { implicants := A.implicants.map (markMerged P B.implicants) } ::
            roundFlags A.implicants (B :: rest) := rfl
      rw [hF, List.length_cons, ih]
      rfl

/-- The set of index `w` after a round: its implicants are marked against the
set before (`Pw`) and the set after (`Nw`). -/
theorem getElem?_roundFlags :
    ∀ (G : List QMCImplicantSet) (P : List QMCImplicant) (w : Nat) (S : QMCImplicantSet)
      (Pw Nw : List QMCImplicant),
      G[w]? = some S → (w = 0 → Pw = P) →
      (∀ (w0 : Nat) (S0 : QMCImplicantSet), w0 + 1 = w → G[w0]? = some S0 → Pw = S0.implicants) →
      (∀ S1 : QMCImplicantSet, G[w + 1]? = some S1 → Nw = S1.implicants) →
      (G[w + 1]? = none → Nw = []) →
      (roundFlags P G)[w]? = some { implicants := S.implicants.map (markMerged Pw Nw) } := by
  intro G
  induction G with
  | nil => intro P w S Pw Nw h; simp at h
  | cons A rest ih =>
    intro P w S Pw Nw hS hP0 hP hN hN0
    cases rest with
    | nil =>
      cases w with
      | zero =>
        simp only [List.getElem?_cons_zero, Option.some.injEq] at hS
        subst hS
        rw [hP0 rfl, hN0 (by simp)]
        simp [roundFlags]
      | succ w => simp at hS
    | cons B rest =>
      have hF : roundFlags P (A :: B :: rest) =
          { implicants := A.implicants.map (markMerged P B.implicants) } ::
            roundFlags A.implicants (B :: rest) := rfl
      rw [hF]
      cases w with
      | zero =>
        simp only [List.getElem?_cons_zero, Option.some.injEq] at hS
        subst hS
        rw [hP0 rfl, hN B (by simp)]
        simp
      | succ w =>
        rw [List.getElem?_cons_succ]
        rw [List.getElem?_cons_succ] at hS
        apply ih A.implicants w S Pw Nw hS
        · intro hw
          subst hw
          exact hP 0 A rfl rfl
        · intro w0 S0 hw0 hS0
          exact hP (w0 + 1) S0 (by omega) (by rw [List.getElem?_cons_succ]; exact hS0)
        · intro S1 hS1
          exact hN S1 (by rw [List.getElem?_cons_succ]; exact hS1)
        · intro hnone
          exact hN0 (by rw [List.getElem?_cons_succ]; exact hnone)

end QMCStack

end LOPT

namespace LOPT

open TriStateBool

/-! ## Theorems: the flags after a round -/

namespace QMCStack

theorem tryMerge_completed (s s' : QMCStack) (ret : Bool) (prev : List QMCImplicantSet)
    (hlast : s.stages.getLast? = some prev) (h : s.tryMerge = some (s', ret)) :
    prev ≠ [] ∧ roundOK prev.length prev = true ∧
      s' = { stages := s.stages.dropLast ++
        [roundFlags [] prev,
          (roundMerged prev).foldl QMCImplicantSet.addAt (List.replicate prev.length {})] } ∧
      ret = !(roundMerged prev).isEmpty := by
  have hne : prev ≠ [] := by
    intro hnil
    subst hnil
    unfold tryMerge at h
    rw [hlast] at h
    simp at h
  rw [tryMerge_eq s prev hlast hne] at h
  by_cases hok : roundOK prev.length prev = true
  · rw [if_pos hok] at h
    simp only [Option.some.injEq, Prod.mk.injEq] at h
    exact ⟨hne, hok, h.1.symm, h.2.symm⟩
  · rw [if_neg hok] at h
    cases h

theorem tookPart_iff (G : List QMCImplicantSet) (w : Nat) (S : QMCImplicantSet)
    (Pw Nw : List QMCImplicant) (x : QMCImplicant) (hS : G[w]? = some S)
    (hP0 : w = 0 → Pw = [])
    (hP : ∀ (w0 : Nat) (S0 : QMCImplicantSet), w0 + 1 = w → G[w0]? = some S0 →
      Pw = S0.implicants)
    (hN : ∀ S1 : QMCImplicantSet, G[w + 1]? = some S1 → Nw = S1.implicants)
    (hN0 : G[w + 1]? = none → Nw = []) :
    (Pw.any (fun a => a.merges x) || Nw.any (fun b => x.merges b)) = true ↔ TookPart G w x := by
  unfold TookPart
  rw [Bool.or_eq_true, List.any_eq_true, List.any_eq_true]
  constructor
  · rintro (⟨a, ha, hm⟩ | ⟨b, hb, hm⟩)
    · right
      cases w with
      | zero => rw [hP0 rfl] at ha; cases ha
      | succ w0 =>
        have hlt : w0 < G.length := by
          have := (List.getElem?_eq_some_iff.mp hS).1
          omega
        obtain ⟨m, hm⟩ := (QMCImplicant.merges_iff a x).mp hm
        refine ⟨w0, G[w0], a, m, rfl, List.getElem?_eq_getElem hlt, ?_, hm⟩
        rw [← hP w0 G[w0] rfl (List.getElem?_eq_getElem hlt)]
        exact ha
    · left
      cases hG : G[w + 1]? with
      | none => rw [hN0 hG] at hb; cases hb
      | some S1 =>
        obtain ⟨m, hm⟩ := (QMCImplicant.merges_iff x b).mp hm
        refine ⟨S1, b, m, rfl, ?_, hm⟩
        rw [← hN S1 hG]
        exact hb
  · rintro (⟨b', b, m, h1, hb, hm⟩ | ⟨w0, a', a, m, hw, h1, ha, hm⟩)
    · right
      refine ⟨b, ?_, (QMCImplicant.merges_iff x b).mpr ⟨m, hm⟩⟩
      rw [hN b' h1]
      exact hb
    · left
      refine ⟨a, ?_, (QMCImplicant.merges_iff a x).mpr ⟨m, hm⟩⟩
      rw [hP w0 a' hw h1]
      exact ha

/-- The flags of the previous stage after a round, set by set. -/
theorem roundFlags_spec (G : List QMCImplicantSet) (w : Nat) (S : QMCImplicantSet)
    (hS : G[w]? = some S) :
    ∃ S', (roundFlags [] G)[w]? = some S' ∧
      List.Forall₂ (fun x x' => x'.states = x.states ∧ x'.minterms = x.minterms ∧
          (TookPart G w x → x'.prime = false) ∧ (¬ TookPart G w x → x'.prime = x.prime))
        S.implicants S'.implicants := by
  obtain ⟨Pw, hP0, hP⟩ : ∃ Pw : List QMCImplicant, (w = 0 → Pw = []) ∧
      ∀ (w0 : Nat) (S0 : QMCImplicantSet), w0 + 1 = w → G[w0]? = some S0 →
        Pw = S0.implicants := by
    cases w with
    | zero => exact ⟨[], fun _ => rfl, fun w0 S0 hw _ => absurd hw (Nat.succ_ne_zero _)⟩
    | succ w1 =>
      refine ⟨((G[w1]?).map fun S0 => S0.implicants).getD [],
        fun hw => absurd hw (Nat.succ_ne_zero _), ?_⟩
      intro w0 S0 hw hS0
      have hw' : w0 = w1 := by omega
      subst hw'
      rw [hS0]
      rfl
  obtain ⟨Nw, hN, hN0⟩ : ∃ Nw : List QMCImplicant,
      (∀ S1 : QMCImplicantSet, G[w + 1]? = some S1 → Nw = S1.implicants) ∧
        (G[w + 1]? = none → Nw = []) := by
    refine ⟨((G[w + 1]?).map fun S1 => S1.implicants).getD [], ?_, ?_⟩
    · intro S1 hS1; rw [hS1]; rfl
    · intro hnone; rw [hnone]; rfl
  have hget := getElem?_roundFlags G [] w S Pw Nw hS hP0 hP hN hN0
  refine ⟨_, hget, ?_⟩
  rw [List.forall₂_map_right_iff, List.forall₂_same]
  intro x _
  have htp := tookPart_iff G w S Pw Nw x hS hP0 hP hN hN0
  unfold markMerged
  split
  · rename_i hc
    exact ⟨rfl, rfl, fun _ => rfl, fun hn => absurd (htp.mp hc) hn⟩
  · rename_i hc
    exact ⟨rfl, rfl, fun ht => absurd (htp.mpr ht) hc, fun _ => rfl⟩

theorem exists_nonempty_foldl_addAt (L : List QMCImplicant) :
    ∀ T : List QMCImplicantSet, (∀ m ∈ L, m.inputsTrueCount < T.length) →
      ((∃ S ∈ L.foldl QMCImplicantSet.addAt T, S.implicants ≠ []) ↔
        (L ≠ [] ∨ ∃ S ∈ T, S.implicants ≠ [])) := by
  induction L with
  | nil => intro T _; simp
  | cons m L ih =>
    intro T hL
    rw [List.foldl_cons]
    have hlt := hL m (List.mem_cons_self _ _)
    rw [ih (QMCImplicantSet.addAt T m) (by
      intro x hx
      rw [QMCImplicantSet.length_addAt]
      exact hL x (List.mem_cons_of_mem _ hx))]
    have hex : ∃ S ∈ QMCImplicantSet.addAt T m, S.implicants ≠ [] := by
      have hget := QMCImplicantSet.getElem?_addAt T m m.inputsTrueCount
      rw [if_pos rfl, List.getElem?_eq_getElem hlt] at hget
      exact ⟨_, List.getElem?_mem hget, QMCImplicantSet.add_ne_nil _ _⟩
    constructor
    · intro _
      exact Or.inl (List.cons_ne_nil _ _)
    · intro _
      exact Or.inr hex

theorem roundMerged_count_lt (n : Nat) (G : List QMCImplicantSet) (h : roundOK n G = true)
    (m : QMCImplicant) (hm : m ∈ roundMerged G) : m.inputsTrueCount < n := by
  obtain ⟨w, A, B, a, b, hA, hB, ha, hb, hab⟩ := (mem_roundMerged m G).mp hm
  have hok := (roundOK_iff n G).mp h w A B a b hA hB ha hb
  obtain ⟨m0, h0, hm0⟩ := (QMCImplicant.mergedWith_eq_some a b m).mp hab
  unfold QMCImplicant.pairOK at hok
  rw [h0] at hok
  rw [hm0]
  simpa using hok

/-- C11: on every stack on which a call of `QMCStack::tryMerge` completes,
the previous stage keeps its sets and the vectors and minterms of their
implicants; an implicant of the previous stage that took part in a successful
`QMCImplicant::tryMerge` of the round has `isPrime = false` afterwards and an
implicant that took part in none keeps its flag; every implicant stored in the
new stage has `isPrime = true`; and the call returns true exactly when a merge
of the round succeeded, which is exactly when the new stage holds an
implicant. -/
theorem tryMerge_round (s s' : QMCStack) (ret : Bool) (prev : List QMCImplicantSet)
    (hlast : s.stages.getLast? = some prev) (h : s.tryMerge = some (s', ret)) :
    ∃ prev' next : List QMCImplicantSet,
      s'.stages = s.stages.dropLast ++ [prev', next] ∧
      prev'.length = prev.length ∧
      (∀ (w : Nat) (S : QMCImplicantSet), prev[w]? = some S →
        ∃ S', prev'[w]? = some S' ∧
          List.Forall₂ (fun x x' => x'.variableStates = x.variableStates ∧
              x'.mintermSet = x.mintermSet ∧
              (TookPart prev w x → x'.isPrime = false) ∧
              (¬ TookPart prev w x → x'.isPrime = x.isPrime))
            S.implicants S'.implicants) ∧
      (∀ S ∈ next, ∀ m ∈ S.implicants, m.isPrime = true) ∧
      (ret = true ↔ ∃ (w : Nat) (A B : QMCImplicantSet) (a b m : QMCImplicant),
          prev[w]? = some A ∧ prev[w + 1]? = some B ∧ a ∈ A.implicants ∧ b ∈ B.implicants ∧
            a.tryMerge b = some (some m)) ∧
      (ret = true ↔ ∃ S ∈ next, S.implicants ≠ []) := by
  obtain ⟨_, hok, hs', hret⟩ := tryMerge_completed s s' ret prev hlast h
  refine ⟨roundFlags [] prev,
    (roundMerged prev).foldl QMCImplicantSet.addAt (List.replicate prev.length {}),
    by rw [hs'], length_roundFlags prev [], roundFlags_spec prev, ?_, ?_, ?_⟩
  · intro S hS
    obtain ⟨w, hw⟩ := List.mem_iff_getElem?.mp hS
    refine QMCImplicantSet.foldl_addAt_invariant
      (fun _ S => ∀ m ∈ S.implicants, m.isPrime = true) (roundMerged prev) ?_
      (List.replicate prev.length {}) ?_ w S hw
    · intro m hm S0 hS0 x hx
      rcases QMCImplicantSet.mem_add S0 m x hx with hx | hx
      · exact hS0 x hx
      · obtain ⟨_, _, _, a, b, _, _, _, _, hab⟩ := (mem_roundMerged m prev).mp hm
        obtain ⟨m0, _, hm0⟩ := (QMCImplicant.mergedWith_eq_some a b m).mp hab
        rw [hx, hm0]
        rfl
    · intro w0 S0 hS0 x hx
      rw [QMCImplicantSet.getElem?_replicate_empty _ _ _ hS0] at hx
      cases hx
  · rw [hret]
    constructor
    · intro hne
      cases hL : roundMerged prev with
      | nil => rw [hL] at hne; cases hne
      | cons m L =>
        have hm : m ∈ roundMerged prev := by rw [hL]; exact List.mem_cons_self _ _
        obtain ⟨w, A, B, a, b, hA, hB, ha, hb, hab⟩ := (mem_roundMerged m prev).mp hm
        obtain ⟨m0, h0, _⟩ := (QMCImplicant.mergedWith_eq_some a b m).mp hab
        exact ⟨w, A, B, a, b, m0, hA, hB, ha, hb, h0⟩
    · rintro ⟨w, A, B, a, b, m0, hA, hB, ha, hb, h0⟩
      have hm : m0.markPrime true ∈ roundMerged prev :=
        (mem_roundMerged _ prev).mpr ⟨w, A, B, a, b, hA, hB, ha, hb,
          (QMCImplicant.mergedWith_eq_some a b _).mpr ⟨m0, h0, rfl⟩⟩
      cases hL : roundMerged prev with
      | nil => rw [hL] at hm; cases hm
      | cons m L => rfl
  · rw [hret, exists_nonempty_foldl_addAt (roundMerged prev) (List.replicate prev.length {})
      (by
        intro m hm
        rw [List.length_replicate]
        exact roundMerged_count_lt prev.length prev hok m hm)]
    constructor
    · intro hne
      left
      intro hL
      rw [hL] at hne
      cases hne
    · rintro (hne | ⟨S, hS, hSne⟩)
      · cases hL : roundMerged prev with
        | nil => exact absurd hL hne
        | cons m L => rfl
      · rw [(List.mem_replicate.mp hS).2] at hSne
        exact absurd rfl hSne

/-- An instance of `tryMerge_round`: the round on stage 0 of the logical OR of
two inputs returns true and builds the stack `orStackMerged`. -/
theorem tryMerge_round_witness :
    ∃ prev' next : List QMCImplicantSet,
      orStackMerged.stages = ({ stages := [orStage0] } : QMCStack).stages.dropLast ++
        [prev', next] ∧
      prev'.length = orStage0.length ∧
      (∀ (w : Nat) (S : QMCImplicantSet), orStage0[w]? = some S →
        ∃ S', prev'[w]? = some S' ∧
          List.Forall₂ (fun x x' => x'.variableStates = x.variableStates ∧
              x'.mintermSet = x.mintermSet ∧
              (TookPart orStage0 w x → x'.isPrime = false) ∧
              (¬ TookPart orStage0 w x → x'.isPrime = x.isPrime))
            S.implicants S'.implicants) ∧
      (∀ S ∈ next, ∀ m ∈ S.implicants, m.isPrime = true) ∧
      (true = true ↔ ∃ (w : Nat) (A B : QMCImplicantSet) (a b m : QMCImplicant),
          orStage0[w]? = some A ∧ orStage0[w + 1]? = some B ∧ a ∈ A.implicants ∧
            b ∈ B.implicants ∧ a.tryMerge b = some (some m)) ∧
      (true = true ↔ ∃ S ∈ next, S.implicants ≠ []) :=
  tryMerge_round { stages := [orStage0] } orStackMerged true orStage0 rfl (by decide)

end QMCStack

end LOPT

namespace LOPT

open TriStateBool

/-! ## Theorems: the stages of the merge loop -/

namespace QMCImplicant

/-- A merged implicant has the length of its parents, one `DONT_CARE` more
and no minterm id twice; a parent has an entry that is not `DONT_CARE`. -/
theorem merged_props (I k : Nat) (a b m : QMCImplicant) (ha : a.states.length = I)
    (hk : a.states.countP (fun v => decide (v = DONT_CARE)) = k) (hn : a.minterms.Nodup)
    (h : a.tryMerge b = some (some m)) :
    m.states.length = I ∧ m.states.countP (fun v => decide (v = DONT_CARE)) = k + 1 ∧
      m.minterms.Nodup ∧ k < I := by
  obtain ⟨pre, x, y, post, hsa, _, _, hx, _, hsm, hmm, _⟩ := tryMerge_some_split a b m h
  rw [hsa] at ha hk
  rw [List.length_append, List.length_cons] at ha
  rw [List.countP_append, List.countP_cons] at hk
  simp only [decide_eq_true_eq, if_neg hx, Nat.add_zero] at hk
  have h1 := List.countP_le_length (fun v => decide (v = DONT_CARE)) (l := pre)
  have h2 := List.countP_le_length (fun v => decide (v = DONT_CARE)) (l := post)
  refine ⟨?_, ?_, ?_, by omega⟩
  · rw [hsm, List.length_append, List.length_cons]
    exact ha
  · rw [hsm, List.countP_append, List.countP_cons]
    simp only [decide_True, if_true]
    omega
  · rw [hmm]
    exact nodup_mergeMinterms _ _ hn

end QMCImplicant

namespace QMCStack

theorem markMerged_states (P N : List QMCImplicant) (x : QMCImplicant) :
    (markMerged P N x).states = x.states ∧ (markMerged P N x).minterms = x.minterms := by
  unfold markMerged
  split
  · exact ⟨rfl, rfl⟩
  · exact ⟨rfl, rfl⟩

theorem getElem?_roundFlags_exists :
    ∀ (G : List QMCImplicantSet) (P : List QMCImplicant) (w : Nat) (S' : QMCImplicantSet),
      (roundFlags P G)[w]? = some S' →
      ∃ (S : QMCImplicantSet) (Pw Nw : List QMCImplicant), G[w]? = some S ∧
        S'.implicants = S.implicants.map (markMerged Pw Nw) := by
  intro G
  induction G with
  | nil => intro P w S' h; simp [roundFlags] at h
  | cons A rest ih =>
    intro P w S' h
    cases rest with
    | nil =>
      cases w with
      | zero =>
        simp only [roundFlags, List.getElem?_cons_zero, Option.some.injEq] at h
        exact ⟨A, P, [], rfl, by rw [← h]⟩
      | succ w => simp [roundFlags] at h
    | cons B rest =>
      have hF : roundFlags P (A :: B :: rest) =
          { implicants := A.implicants.map (markMerged P B.implicants) } ::
            roundFlags A.implicants (B :: rest) := rfl
      rw [hF] at h
      cases w with
      | zero =>
        simp only [List.getElem?_cons_zero, Option.some.injEq] at h
        exact ⟨A, P, B.implicants, rfl, by rw [← h]⟩
      | succ w =>
        obtain ⟨S, Pw, Nw, hS, hS'⟩ := ih A.implicants w S' (getElem?_of_succ h)
        exact ⟨S, Pw, Nw, getElem?_succ_of hS, hS'⟩

/-- The flags of a round do not touch what makes a stage well formed. -/
theorem stageOK_roundFlags (I k : Nat) (G : List QMCImplicantSet) (P : List QMCImplicant)
    (hG : StageOK I k G) : StageOK I k (roundFlags P G) := by
  refine ⟨by rw [length_roundFlags]; exact hG.1, ?_⟩
  intro w S' hS'
  obtain ⟨S, Pw, Nw, hS, hmap⟩ := getElem?_roundFlags_exists G P w S' hS'
  obtain ⟨hnd, hmem⟩ := hG.2 w S hS
  have hst : S'.implicants.map QMCImplicant.states = S.implicants.map QMCImplicant.states := by
    rw [hmap, List.map_map]
    apply List.map_congr_left
    intro x _
    exact (markMerged_states Pw Nw x).1
  refine ⟨by rw [hst]; exact hnd, ?_⟩
  intro x' hx'
  rw [hmap] at hx'
  obtain ⟨x, hx, rfl⟩ := List.mem_map.mp hx'
  obtain ⟨h1, h2, h3, h4⟩ := hmem x hx
  have hs := markMerged_states Pw Nw x
  unfold QMCImplicant.inputsTrueCount at h2 ⊢
  rw [hs.1, hs.2]
  exact ⟨h1, h2, h3, h4⟩

/-- On a well-formed stage every visit of a round completes. -/
theorem roundOK_of_stageOK (I k : Nat) (G : List QMCImplicantSet) (hG : StageOK I k G) :
    roundOK G.length G = true := by
  rw [roundOK_iff]
  intro w A B a b hA hB ha hb
  obtain ⟨ha1, ha2, _, _⟩ := (hG.2 w A hA).2 a ha
  obtain ⟨_, hb2, _, _⟩ := (hG.2 (w + 1) B hB).2 b hb
  unfold QMCImplicant.pairOK
  cases h : a.tryMerge b with
  | none =>
    have heq := (QMCImplicant.tryMerge_eq_none_iff a b).mp h
    unfold QMCImplicant.inputsTrueCount at ha2 hb2
    rw [heq] at ha2
    omega
  | some r =>
    cases r with
    | none => rfl
    | some m =>
      obtain ⟨pre, x, y, post, hsa, _, _, _, _, hsm, _, _⟩ :=
        QMCImplicant.tryMerge_some_split a b m h
      have hlen : m.states.length = I := by
        rw [hsm, List.length_append, List.length_cons]
        rw [hsa, List.length_append, List.length_cons] at ha1
        exact ha1
      have hle := QMCImplicant.inputsTrueCount_le m
      simp only [decide_eq_true_eq]
      rw [hG.1]
      omega

/-- The stage a round builds from a well-formed stage `k` is a well-formed
stage `k + 1`. -/
theorem stageOK_next (I k : Nat) (G : List QMCImplicantSet) (hG : StageOK I k G) :
    StageOK I (k + 1)
      ((roundMerged G).foldl QMCImplicantSet.addAt (List.replicate G.length {})) := by
  refine ⟨by rw [QMCImplicantSet.length_foldl_addAt, List.length_replicate]; exact hG.1, ?_⟩
  refine QMCImplicantSet.foldl_addAt_invariant
    (fun w S => (S.implicants.map QMCImplicant.states).Nodup ∧
      ∀ x ∈ S.implicants, x.states.length = I ∧ x.inputsTrueCount = w ∧
        x.states.countP (fun v => decide (v = DONT_CARE)) = k + 1 ∧ x.minterms.Nodup)
    (roundMerged G) ?_ (List.replicate G.length {}) ?_
  · intro m hm S hS
    refine ⟨QMCImplicantSet.nodup_add S m hS.1, ?_⟩
    intro x hx
    rcases QMCImplicantSet.mem_add S m x hx with hx | hx
    · exact hS.2 x hx
    · obtain ⟨w, A, B, a, b, hA, _, ha, _, hab⟩ := (mem_roundMerged m G).mp hm
      obtain ⟨m0, h0, hm0⟩ := (QMCImplicant.mergedWith_eq_some a b m).mp hab
      obtain ⟨ha1, _, ha3, ha4⟩ := (hG.2 w A hA).2 a ha
      obtain ⟨p1, p2, p3, _⟩ := QMCImplicant.merged_props I k a b m0 ha1 ha3 ha4 h0
      rw [hx, hm0]
      exact ⟨p1, rfl, p2, p3⟩
  · intro w S hS
    rw [QMCImplicantSet.getElem?_replicate_empty _ _ _ hS]
    exact ⟨List.nodup_nil, fun x hx => absurd hx (List.not_mem_nil _)⟩

/-- A stage whose implicants are all `DONT_CARE` merges nothing. -/
theorem roundMerged_eq_nil (I k : Nat) (G : List QMCImplicantSet) (hG : StageOK I k G)
    (hk : I ≤ k) : roundMerged G = [] := by
  cases hL : roundMerged G with
  | nil => rfl
  | cons m L =>
    have hm : m ∈ roundMerged G := by rw [hL]; exact List.mem_cons_self _ _
    obtain ⟨w, A, B, a, b, hA, _, ha, _, hab⟩ := (mem_roundMerged m G).mp hm
    obtain ⟨m0, h0, _⟩ := (QMCImplicant.mergedWith_eq_some a b m).mp hab
    obtain ⟨ha1, _, ha3, ha4⟩ := (hG.2 w A hA).2 a ha
    have := (QMCImplicant.merged_props I k a b m0 ha1 ha3 ha4 h0).2.2.2
    omega

/-- Stage 0 as `QMCStack::initialize` builds it for a well-formed grid is a
well-formed stage 0. -/
theorem stageOK_stage0 (g : KVMap) (hg : g.WellFormed) :
    StageOK g.variableCount 0
      ((List.range (g.variableCount + 1)).map (stage0Group g (cellsByRow g))) := by
  refine ⟨by rw [List.length_map, List.length_range], ?_⟩
  intro w S hS
  have hw : w < g.variableCount + 1 := by
    have := (List.getElem?_eq_some_iff.mp hS).1
    rw [List.length_map, List.length_range] at this
    exact this
  rw [getElem?_stage0 g _ _ w hw] at hS
  have hSeq : S = stage0Group g (cellsByRow g) w := (Option.some.inj hS).symm
  subst hSeq
  constructor
  · have hnd := stage0_states_nodup g hg
    rw [List.map_flatMap, List.nodup_flatMap] at hnd
    exact hnd.1 _ (List.mem_map.mpr ⟨w, List.mem_range.mpr hw, rfl⟩)
  · intro x hx
    obtain ⟨c, r, hc, hr, _, hxeq, hcount⟩ := mem_stage0Group g w x hx
    have hst : x.states = KVMap.cellVars g.variableCount c r := by
      rw [hxeq]
      exact QMCImplicant.initialize_states g c r hc hr
    refine ⟨by rw [hst, KVMap.cellVars_length], hcount, ?_, ?_⟩
    · rw [hst]
      unfold KVMap.cellVars
      rw [List.countP_map, List.countP_eq_zero]
      intro v _
      simp only [Function.comp]
      split <;> simp
    · rw [hxeq, QMCImplicant.initialize_minterms]
      split
      · exact List.nodup_singleton _
      · exact List.nodup_nil

/-- A call of `QMCStack::tryMerge` on a well-formed stack completes, adds one
stage, keeps the stack well formed, and returns false when the last stage is
stage `I` or later. -/
theorem tryMerge_stackOK (I : Nat) (s : QMCStack) (hs : StackOK I s) :
    ∃ (s' : QMCStack) (ret : Bool), s.tryMerge = some (s', ret) ∧ StackOK I s' ∧
      s'.stages.length = s.stages.length + 1 ∧ (I + 1 ≤ s.stages.length → ret = false) := by
  obtain ⟨hne, hst⟩ := hs
  obtain ⟨G, hlast⟩ : ∃ G, s.stages.getLast? = some G := by
    cases h : s.stages.getLast? with
    | none => exact absurd (List.getLast?_eq_none_iff.mp h) hne
    | some G => exact ⟨G, rfl⟩
  obtain ⟨init, hinit⟩ := List.getLast?_eq_some_iff.mp hlast
  have hG : StageOK I init.length G := by
    apply hst
    rw [hinit, List.getElem?_append_right (Nat.le_refl _), Nat.sub_self]
    rfl
  have hGne : G ≠ [] := by
    intro h
    have := hG.1
    rw [h] at this
    simp at this
  refine ⟨{ stages := s.stages.dropLast ++
      [roundFlags [] G,
        (roundMerged G).foldl QMCImplicantSet.addAt (List.replicate G.length {})] },
    !(roundMerged G).isEmpty, ?_, ?_, ?_, ?_⟩
  · rw [tryMerge_eq s G hlast hGne, if_pos (roundOK_of_stageOK I _ G hG)]
  · refine ⟨by simp, ?_⟩
    intro k Gk hk
    simp only [hinit, List.dropLast_concat] at hk
    rcases Nat.lt_or_ge k init.length with hlt | hge
    · rw [List.getElem?_append_left hlt] at hk
      apply hst
      rw [hinit, List.getElem?_append_left hlt]
      exact hk
    · rw [List.getElem?_append_right hge] at hk
      rcases Nat.eq_or_lt_of_le hge with heq | hgt
      · rw [← heq, Nat.sub_self] at hk
        simp only [List.getElem?_cons_zero, Option.some.injEq] at hk
        rw [← hk, ← heq]
        exact stageOK_roundFlags I _ G [] hG
      · rcases Nat.eq_or_lt_of_le (Nat.succ_le_of_lt hgt) with heq | hgt2
        · have hk1 : k - init.length = 1 := by omega
          rw [hk1] at hk
          simp only [List.getElem?_cons_succ, List.getElem?_cons_zero, Option.some.injEq] at hk
          rw [← hk, ← heq]
          exact stageOK_next I _ G hG
        · have hk2 : k - init.length = (k - init.length - 2) + 1 + 1 := by omega
          rw [hk2] at hk
          simp at hk
  · simp only [hinit, List.dropLast_concat, List.length_append, List.length_cons,
      List.length_nil]
  · intro hlen
    rw [hinit, List.length_append, List.length_cons, List.length_nil] at hlen
    rw [roundMerged_eq_nil I init.length G hG (by omega)]
    rfl

/-- The loop `while (stack.tryMerge ());` on a well-formed stack of `n`
stages over `I` variables ends within `I + 2 - n` calls. -/
theorem mergeLoop_complete (I : Nat) :
    ∀ (d : Nat) (s : QMCStack), StackOK I s → s.stages.length + d = I + 1 →
      ∃ s', StackOK I s' ∧ ∀ extra : Nat, s.mergeLoop (d + 1 + extra) = some s' := by
  intro d
  induction d with
  | zero =>
    intro s hs hlen
    obtain ⟨s', ret, h, hs', _, hret⟩ := tryMerge_stackOK I s hs
    have hr : ret = false := hret (by omega)
    subst hr
    refine ⟨s', hs', ?_⟩
    intro extra
    have hf : 0 + 1 + extra = extra + 1 := by omega
    rw [hf]
    unfold mergeLoop
    rw [h]
  | succ d ih =>
    intro s hs hlen
    obtain ⟨s1, ret, h, hs1, hlen1, _⟩ := tryMerge_stackOK I s hs
    cases ret with
    | false =>
      refine ⟨s1, hs1, ?_⟩
      intro extra
      have hf : d + 1 + 1 + extra = (d + 1 + extra) + 1 := by omega
      rw [hf]
      unfold mergeLoop
      rw [h]
    | true =>
      obtain ⟨s', hs', hloop⟩ := ih s1 hs1 (by omega)
      refine ⟨s', hs', ?_⟩
      intro extra
      have hf : d + 1 + 1 + extra = (d + 1 + extra) + 1 := by omega
      rw [hf]
      unfold mergeLoop
      rw [h]
      exact hloop extra

/-- The stack of a well-formed grid and the result of the merge loop on it. -/
theorem initialize_mergeLoop (g : KVMap) (hg : g.WellFormed) :
    ∃ s0 s', QMCStack.initialize {} g = some s0 ∧ StackOK g.variableCount s0 ∧
      StackOK g.variableCount s' ∧
      ∀ extra : Nat, s0.mergeLoop (g.variableCount + 1 + extra) = some s' := by
  have h0 : StackOK g.variableCount
      { stages := [(List.range (g.variableCount + 1)).map (stage0Group g (cellsByRow g))] } := by
    refine ⟨by simp, ?_⟩
    intro k G hk
    cases k with
    | zero =>
      simp only [List.getElem?_cons_zero, Option.some.injEq] at hk
      rw [← hk]
      exact stageOK_stage0 g hg
    | succ k => simp at hk
  obtain ⟨s', hs', hloop⟩ := mergeLoop_complete g.variableCount g.variableCount _ h0
    (by simp; omega)
  exact ⟨_, s', initialize_eq {} g hg, h0, hs', hloop⟩

/-- C12: for every grid over `I` variables as the `KVMap` constructor builds
it, `QMCStack::initialize` completes and the loop `while (stack.tryMerge ());`
started on its stack ends: with room for `I + 1` calls or more, every call
completes and one of the first `I + 1` calls returns false. -/
theorem mergeLoop_terminates (g : KVMap) (hg : g.WellFormed) :
    ∃ s0 s', QMCStack.initialize {} g = some s0 ∧
      ∀ extra : Nat, s0.mergeLoop (g.variableCount + 1 + extra) = some s' := by
  obtain ⟨s0, s', h0, _, _, hloop⟩ := initialize_mergeLoop g hg
  exact ⟨s0, s', h0, hloop⟩

/-- An instance of `mergeLoop_terminates`: the grid of the logical OR of two
inputs. -/
theorem mergeLoop_terminates_witness :
    (KVMap.ofTable orTable 0).WellFormed ∧
      ∃ s0 s', QMCStack.initialize {} (KVMap.ofTable orTable 0) = some s0 ∧
        ∀ extra : Nat,
          s0.mergeLoop ((KVMap.ofTable orTable 0).variableCount + 1 + extra) = some s' :=
  ⟨KVMap.ofTable_wellFormed _ _,
    mergeLoop_terminates (KVMap.ofTable orTable 0) (KVMap.ofTable_wellFormed _ _)⟩

end QMCStack

end LOPT

namespace LOPT

open TriStateBool

/-! ## Theorems: the chart of the merged stack -/

theorem foldlM_range_invariant {σ : Type} (f : σ → Nat → Option σ) (J : Nat → σ → Prop) :
    ∀ n : Nat, (∀ i, i < n → ∀ c, J i c → ∃ c', f c i = some c' ∧ J (i + 1) c') →
      ∀ c, J 0 c → ∃ c', (List.range n).foldlM f c = some c' ∧ J n c' := by
  intro n
  induction n with
  | zero =>
    intro _ c h0
    exact ⟨c, rfl, h0⟩
  | succ n ih =>
    intro hstep c h0
    obtain ⟨c1, h1, hJ1⟩ := ih (fun i hi => hstep i (Nat.lt_succ_of_lt hi)) c h0
    obtain ⟨c2, h2, hJ2⟩ := hstep n (Nat.lt_succ_self n) c1 hJ1
    refine ⟨c2, ?_, hJ2⟩
    rw [List.range_succ, List.foldlM_append, h1]
    simp only [Option.bind_eq_bind, Option.some_bind, List.foldlM_cons, List.foldlM_nil, h2]
    rfl

namespace QMCStack

theorem variableCount_le (I : Nat) (s : QMCStack) (hs : StackOK I s) : s.variableCount ≤ I := by
  unfold variableCount
  cases hst : s.stages with
  | nil => exact Nat.zero_le _
  | cons stage0 rest =>
    simp only
    cases hf : stage0.find? (fun S => decide (S.variableCount > 0)) with
    | none => exact Nat.zero_le _
    | some S =>
      simp only
      have hmem : S ∈ stage0 := List.mem_of_find?_eq_some hf
      obtain ⟨w, hw⟩ := List.mem_iff_getElem?.mp hmem
      have h0 : StageOK I 0 stage0 := hs.2 0 stage0 (by rw [hst]; simp)
      unfold QMCImplicantSet.variableCount
      cases hi : S.implicants with
      | nil => exact Nat.zero_le _
      | cons im _ =>
        simp only
        have := ((h0.2 w S hw).2 im (by rw [hi]; exact List.mem_cons_self _ _)).1
        unfold QMCImplicant.variableCount
        omega

end QMCStack

namespace QMCPrimeChart

/-- `QMCPrimeChart::initialize` on a well-formed stack completes, and a
property of the chart that every visit of a set keeps holds at the end. -/
theorem initialize_invariant (I : Nat) (s : QMCStack) (hs : QMCStack.StackOK I s)
    (J : Nat → Nat → QMCPrimeChart → Prop)
    (hstep : ∀ (j w : Nat) (G : List QMCImplicantSet) (S : QMCImplicantSet) (c : QMCPrimeChart),
      s.stages[j]? = some G → G[w]? = some S → J j w c →
        J j (w + 1) (S.implicants.foldl QMCPrimeChart.addImplicant c))
    (hnext : ∀ (j : Nat) (c : QMCPrimeChart), J j s.variableCount c → J (j + 1) 0 c)
    (c0 : QMCPrimeChart) (h0 : J 0 0 c0) :
    ∃ c, QMCPrimeChart.initialize c0 s = some c ∧ J s.stages.length 0 c := by
  unfold QMCPrimeChart.initialize QMCStack.stageCount
  apply foldlM_range_invariant _ (fun j c => J j 0 c) s.stages.length _ c0 h0
  intro j hj c hJ
  obtain ⟨c', hc', hJ'⟩ := foldlM_range_invariant (QMCPrimeChart.initializeSet s j)
    (fun w c => J j w c) s.variableCount (by
      intro w hw c1 hJ1
      have hG : s.stages[j]? = some s.stages[j] := List.getElem?_eq_getElem hj
      have hok := hs.2 j _ hG
      have hV := QMCStack.variableCount_le I s hs
      have hwlt : w < (s.stages[j]).length := by rw [hok.1]; omega
      have hS : (s.stages[j])[w]? = some (s.stages[j])[w] := List.getElem?_eq_getElem hwlt
      refine ⟨_, ?_, hstep j w _ _ c1 hG hS hJ1⟩
      unfold QMCPrimeChart.initializeSet QMCStack.implicantSetFor
      rw [if_neg (by omega), if_neg (by omega), hG]
      simp only [hS]
      rfl) c hJ
  exact ⟨c', hc', hnext j c' hJ'⟩

theorem foldl_addImplicant_primes (L : List QMCImplicant) :
    ∀ c : QMCPrimeChart, (L.foldl QMCPrimeChart.addImplicant c).primes =
      c.primes ++ L.filter (fun x => x.isPrime && !x.mintermSet.isEmpty) := by
  induction L with
  | nil => intro c; simp
  | cons x L ih =>
    intro c
    rw [List.foldl_cons, ih]
    unfold QMCPrimeChart.addImplicant
    by_cases hx : (x.isPrime && !x.mintermSet.isEmpty) = true
    · rw [if_pos hx, List.filter_cons, if_pos hx]
      simp
    · rw [if_neg hx, List.filter_cons, if_neg hx]

theorem foldl_addImplicant_minterms (L : List QMCImplicant) :
    ∀ c : QMCPrimeChart, c.minterms.Nodup →
      (L.foldl QMCPrimeChart.addImplicant c).minterms.Nodup := by
  induction L with
  | nil => intro c h; exact h
  | cons x L ih =>
    intro c h
    rw [List.foldl_cons]
    apply ih
    unfold QMCPrimeChart.addImplicant
    split
    · exact QMCImplicant.nodup_mergeMinterms _ _ h
    · exact h

end QMCPrimeChart

end LOPT

namespace LOPT

open TriStateBool

/-! ## Theorems: distinct primes and the empty chart -/

namespace QMCPrimeChart

/-- The chart of a well-formed stack: `QMCPrimeChart::initialize` completes
and stores no vector and no minterm id twice. -/
theorem initialize_distinct (I : Nat) (s : QMCStack) (hs : QMCStack.StackOK I s) :
    ∃ c, QMCPrimeChart.initialize {} s = some c ∧
      (c.primes.map QMCImplicant.states).Nodup ∧ c.minterms.Nodup := by
  obtain ⟨c, hc, hJ⟩ := initialize_invariant I s hs
    (fun j w c => (c.primes.map QMCImplicant.states).Nodup ∧ c.minterms.Nodup ∧
      ∀ p ∈ c.primes, p.states.countP (fun v => decide (v = DONT_CARE)) < j ∨
        (p.states.countP (fun v => decide (v = DONT_CARE)) = j ∧ p.inputsTrueCount < w))
    (by
      intro j w G S c hG hS hJ
      obtain ⟨hnd, hmem⟩ := (hs.2 j G hG).2 w S hS
      obtain ⟨h1, h2, h3⟩ := hJ
      refine ⟨?_, foldl_addImplicant_minterms _ c h2, ?_⟩
      · rw [foldl_addImplicant_primes, List.map_append]
        refine List.Nodup.append h1 ?_ ?_
        · exact List.Nodup.sublist (List.Sublist.map _ (List.filter_sublist _)) hnd
        · intro v hv hv'
          obtain ⟨p, hp, hpv⟩ := List.mem_map.mp hv
          obtain ⟨x, hx, hxv⟩ := List.mem_map.mp hv'
          obtain ⟨_, hx2, hx3, _⟩ := hmem x (List.mem_of_mem_filter hx)
          have heq : p.states = x.states := by rw [hpv, hxv]
          have hcount : p.inputsTrueCount = x.inputsTrueCount := by
            unfold QMCImplicant.inputsTrueCount
            rw [heq]
          rcases h3 p hp with hlt | ⟨_, hlt⟩
          · rw [heq] at hlt
            omega
          · omega
      · intro p hp
        rw [foldl_addImplicant_primes] at hp
        rcases List.mem_append.mp hp with hp | hp
        · rcases h3 p hp with hlt | ⟨he, hlt⟩
          · exact Or.inl hlt
          · exact Or.inr ⟨he, Nat.lt_succ_of_lt hlt⟩
        · obtain ⟨_, hx2, hx3, _⟩ := hmem p (List.mem_of_mem_filter hp)
          exact Or.inr ⟨hx3, by omega⟩)
    (by
      intro j c hJ
      refine ⟨hJ.1, hJ.2.1, ?_⟩
      intro p hp
      rcases hJ.2.2 p hp with hlt | ⟨he, _⟩
      · exact Or.inl (Nat.lt_succ_of_lt hlt)
      · exact Or.inl (by omega))
    {} ⟨List.nodup_nil, List.nodup_nil, fun p hp => absurd hp (List.not_mem_nil _)⟩
  exact ⟨c, hc, hJ.1, hJ.2.1⟩

/-- C16: for every truth table and output index, the stack of the grid is
built, the loop `while (stack.tryMerge ());` ends, `QMCPrimeChart::initialize`
completes on the merged stack, and the chart holds no two prime implicants
with equal vectors and no minterm id twice. -/
theorem chart_distinct (table : TruthTable) (o : Nat) :
    ∃ (s0 s : QMCStack) (c : QMCPrimeChart),
      QMCStack.initialize {} (KVMap.ofTable table o) = some s0 ∧
      (∀ extra : Nat,
        s0.mergeLoop ((KVMap.ofTable table o).variableCount + 1 + extra) = some s) ∧
      QMCPrimeChart.initialize {} s = some c ∧
      (c.primeImplicants.map QMCImplicant.variableStates).Nodup ∧ c.mintermIds.Nodup := by
  obtain ⟨s0, s, h0, _, hs, hloop⟩ :=
    QMCStack.initialize_mergeLoop (KVMap.ofTable table o) (KVMap.ofTable_wellFormed table o)
  obtain ⟨c, hc, h1, h2⟩ := initialize_distinct _ s hs
  exact ⟨s0, s, c, h0, hloop, hc, h1, h2⟩

theorem foldl_addImplicant_of_empty (L : List QMCImplicant)
    (hL : ∀ x ∈ L, x.minterms = []) (c : QMCPrimeChart) :
    L.foldl QMCPrimeChart.addImplicant c = c := by
  induction L with
  | nil => rfl
  | cons x L ih =>
    rw [List.foldl_cons]
    have hx : QMCPrimeChart.addImplicant c x = c := by
      unfold QMCPrimeChart.addImplicant QMCImplicant.mintermSet
      rw [hL x (List.mem_cons_self _ _)]
      simp
    rw [hx]
    exact ih (fun y hy => hL y (List.mem_cons_of_mem _ hy))

end QMCPrimeChart

namespace QMCStack

/-- A round on a stack whose implicants have no minterm builds implicants
without a minterm. -/
theorem tryMerge_minterms_empty (s s' : QMCStack) (ret : Bool)
    (h : s.tryMerge = some (s', ret))
    (hE : ∀ G ∈ s.stages, ∀ S ∈ G, ∀ x ∈ S.implicants, x.minterms = []) :
    ∀ G ∈ s'.stages, ∀ S ∈ G, ∀ x ∈ S.implicants, x.minterms = [] := by
  cases hlast : s.stages.getLast? with
  | none =>
    unfold tryMerge at h
    rw [hlast] at h
    cases h
  | some prev =>
    obtain ⟨_, _, hs', _⟩ := tryMerge_completed s s' ret prev hlast h
    have hprev : prev ∈ s.stages := List.mem_of_getLast?_eq_some hlast
    intro G hG S hS x hx
    rw [hs'] at hG
    simp only [List.mem_append, List.mem_cons, List.mem_singleton, List.not_mem_nil,
      or_false] at hG
    rcases hG with hG | hG | hG
    · exact hE G (List.mem_of_mem_dropLast hG) S hS x hx
    · rw [hG] at hS
      obtain ⟨w, hw⟩ := List.mem_iff_getElem?.mp hS
      obtain ⟨S0, Pw, Nw, hS0, hmap⟩ := getElem?_roundFlags_exists prev [] w S hw
      rw [hmap] at hx
      obtain ⟨x0, hx0, rfl⟩ := List.mem_map.mp hx
      rw [(markMerged_states Pw Nw x0).2]
      exact hE prev hprev S0 (List.getElem?_mem hS0) x0 hx0
    · rw [hG] at hS
      obtain ⟨w, hw⟩ := List.mem_iff_getElem?.mp hS
      refine QMCImplicantSet.foldl_addAt_invariant
        (fun _ S => ∀ x ∈ S.implicants, x.minterms = []) (roundMerged prev) ?_
        (List.replicate prev.length {}) ?_ w S hw x hx
      · intro m hm S1 hS1 y hy
        rcases QMCImplicantSet.mem_add S1 m y hy with hy | hy
        · exact hS1 y hy
        · obtain ⟨w1, A, B, a, b, hA, hB, ha, hb, hab⟩ := (mem_roundMerged m prev).mp hm
          obtain ⟨m0, h0, hm0⟩ := (QMCImplicant.mergedWith_eq_some a b m).mp hab
          obtain ⟨_, _, _, _, _, _, _, _, _, _, hmm, _⟩ :=
            QMCImplicant.tryMerge_some_split a b m0 h0
          rw [hy, hm0]
          show m0.minterms = []
          rw [hmm, hE prev hprev A (List.getElem?_mem hA) a ha,
            hE prev hprev B (List.getElem?_mem hB) b hb]
          rfl
      · intro w0 S0 hS0 y hy
        rw [QMCImplicantSet.getElem?_replicate_empty _ _ _ hS0] at hy
        cases hy

theorem mergeLoop_minterms_empty :
    ∀ (fuel : Nat) (s s' : QMCStack), s.mergeLoop fuel = some s' →
      (∀ G ∈ s.stages, ∀ S ∈ G, ∀ x ∈ S.implicants, x.minterms = []) →
      ∀ G ∈ s'.stages, ∀ S ∈ G, ∀ x ∈ S.implicants, x.minterms = [] := by
  intro fuel
  induction fuel with
  | zero => intro s s' h; cases h
  | succ fuel ih =>
    intro s s' h hE
    unfold mergeLoop at h
    cases ht : s.tryMerge with
    | none => rw [ht] at h; cases h
    | some r =>
      obtain ⟨s1, ret⟩ := r
      have hE1 := tryMerge_minterms_empty s s1 ret ht hE
      rw [ht] at h
      cases ret with
      | true => exact ih s1 s' h hE1
      | false =>
        simp only [Option.some.injEq] at h
        rw [← h]
        exact hE1

end QMCStack

namespace QMCPrimeChart

/-- C20: for every truth table and output index whose grid has no cell of
value `TRUE`, the stack is built, the loop `while (stack.tryMerge ());` ends,
`QMCPrimeChart::initialize` completes on the merged stack, and the chart has
an empty prime list and an empty minterm list. -/
theorem chart_empty (table : TruthTable) (o : Nat)
    (h : ∀ column, column < (KVMap.ofTable table o).mapWidth →
      ∀ row, row < (KVMap.ofTable table o).mapHeight →
        (KVMap.ofTable table o).valueAt column row ≠ TRUE) :
    ∃ (s0 s : QMCStack) (c : QMCPrimeChart),
      QMCStack.initialize {} (KVMap.ofTable table o) = some s0 ∧
      (∀ extra : Nat,
        s0.mergeLoop ((KVMap.ofTable table o).variableCount + 1 + extra) = some s) ∧
      QMCPrimeChart.initialize {} s = some c ∧
      c.primeImplicants = [] ∧ c.mintermIds = [] := by
  have hg := KVMap.ofTable_wellFormed table o
  obtain ⟨s0, s, h0, _, hs, hloop⟩ := QMCStack.initialize_mergeLoop (KVMap.ofTable table o) hg
  have hs0 : s0 = { stages := [(List.range ((KVMap.ofTable table o).variableCount + 1)).map
      (QMCStack.stage0Group (KVMap.ofTable table o)
        (QMCStack.cellsByRow (KVMap.ofTable table o)))] } := by
    have := QMCStack.initialize_eq {} (KVMap.ofTable table o) hg
    rw [h0] at this
    exact Option.some.inj this
  have hE0 : ∀ G ∈ s0.stages, ∀ S ∈ G, ∀ x ∈ S.implicants, x.minterms = [] := by
    intro G hG S hS x hx
    rw [hs0] at hG
    rw [List.mem_singleton.mp hG] at hS
    obtain ⟨w, _, rfl⟩ := List.mem_map.mp hS
    obtain ⟨col, r, hc, hr, hnf, hxeq, _⟩ := QMCStack.mem_stage0Group _ w x hx
    have hdc : (KVMap.ofTable table o).valueAt col r = DONT_CARE := by
      have hnt := h col hc r hr
      cases hv : (KVMap.ofTable table o).valueAt col r with
      | TRUE => exact absurd hv hnt
      | FALSE => exact absurd hv hnf
      | DONT_CARE => rfl
    rw [hxeq, QMCImplicant.initialize_minterms, hdc]
    rfl
  have hE := QMCStack.mergeLoop_minterms_empty _ s0 s (hloop 0) hE0
  obtain ⟨c, hc, hJ⟩ := initialize_invariant _ s hs
    (fun _ _ c => c.primes = [] ∧ c.minterms = [])
    (by
      intro j w G S c hG hS hJ
      rw [foldl_addImplicant_of_empty S.implicants
        (hE G (List.getElem?_mem hG) S (List.getElem?_mem hS))]
      exact hJ)
    (fun _ _ hJ => hJ) {} ⟨rfl, rfl⟩
  exact ⟨s0, s, c, h0, hloop, hc, hJ.1, hJ.2⟩

/-- An instance of `chart_empty`: the table of one input whose output is
`DONT_CARE` in the first row and `FALSE` in the second. -/
theorem chart_empty_witness :
    (∀ column,
      column < (KVMap.ofTable ⟨1, 1, [FALSE, DONT_CARE, TRUE, FALSE]⟩ 0).mapWidth →
      ∀ row, row < (KVMap.ofTable ⟨1, 1, [FALSE, DONT_CARE, TRUE, FALSE]⟩ 0).mapHeight →
        (KVMap.ofTable ⟨1, 1, [FALSE, DONT_CARE, TRUE, FALSE]⟩ 0).valueAt column row ≠ TRUE) ∧
    ∃ (s0 s : QMCStack) (c : QMCPrimeChart),
      QMCStack.initialize {} (KVMap.ofTable ⟨1, 1, [FALSE, DONT_CARE, TRUE, FALSE]⟩ 0) = some s0 ∧
      (∀ extra : Nat,
        s0.mergeLoop ((KVMap.ofTable ⟨1, 1, [FALSE, DONT_CARE, TRUE, FALSE]⟩ 0).variableCount + 1 +
          extra) = some s) ∧
      QMCPrimeChart.initialize {} s = some c ∧
      c.primeImplicants = [] ∧ c.mintermIds = [] :=
  ⟨by decide, chart_empty ⟨1, 1, [FALSE, DONT_CARE, TRUE, FALSE]⟩ 0 (by decide)⟩

end QMCPrimeChart

end LOPT

namespace LOPT

open TriStateBool

/-! ## Theorems: a second extraction, the single-prime search, checked access -/

namespace QMCPrimeChart

/-- C21: when `extractEPIs` with output list `L0` leaves a chart with an empty
minterm list, a second call of `extractEPIs` on that chart with the output
list `L` of the first call changes nothing: the prime list, the minterm list
and `L` stay as they are. -/
theorem extractEPIs_twice (c0 : QMCPrimeChart) (L0 : List QMCImplicant)
    (h : (c0.extractEPIs L0).1.mintermIds = []) :
    (c0.extractEPIs L0).1.extractEPIs (c0.extractEPIs L0).2 = c0.extractEPIs L0 := by
  unfold mintermIds at h
  have hstep : ∀ (c : QMCPrimeChart) (L : List QMCImplicant), c.minterms = [] →
      c.extractEPIs L = ({ primes := c.primes.filter fun pi => !L.any (fun x => x.eqv pi)
                           minterms := [] }, L) := by
    intro c L hc
    unfold extractEPIs
    rw [hc]
    rfl
  rw [hstep _ _ h]
  apply Prod.ext
  · have hp : (c0.extractEPIs L0).1.primes =
        c0.primes.filter fun pi => !(c0.extractEPIs L0).2.any (fun x => x.eqv pi) := rfl
    have hc : (c0.extractEPIs L0).1 =
        { primes := (c0.extractEPIs L0).1.primes, minterms := [] } := by
      cases hr : (c0.extractEPIs L0).1 with
      | mk primes minterms =>
        rw [hr] at h
        simp only at h
        rw [h]
    rw [hc]
    simp only [mk.injEq, and_true]
    rw [hp, List.filter_filter]
    apply List.filter_congr
    intro x _
    simp
  · rfl

/-- An instance of `extractEPIs_twice`: the chart of the two primes `1-` and
`-1` of the logical OR, where both primes are essential. -/
theorem extractEPIs_twice_witness :
    ((⟨[⟨[TRUE, DONT_CARE], [1, 3], true⟩, ⟨[DONT_CARE, TRUE], [2, 3], true⟩],
        [1, 3, 2]⟩ : QMCPrimeChart).extractEPIs []).1.mintermIds = [] ∧
    ((⟨[⟨[TRUE, DONT_CARE], [1, 3], true⟩, ⟨[DONT_CARE, TRUE], [2, 3], true⟩],
        [1, 3, 2]⟩ : QMCPrimeChart).extractEPIs []).1.extractEPIs
      ((⟨[⟨[TRUE, DONT_CARE], [1, 3], true⟩, ⟨[DONT_CARE, TRUE], [2, 3], true⟩],
        [1, 3, 2]⟩ : QMCPrimeChart).extractEPIs []).2 =
      (⟨[⟨[TRUE, DONT_CARE], [1, 3], true⟩, ⟨[DONT_CARE, TRUE], [2, 3], true⟩],
        [1, 3, 2]⟩ : QMCPrimeChart).extractEPIs [] :=
  ⟨by decide, extractEPIs_twice _ [] (by decide)⟩

theorem filterMap_eq_singleton {α β : Type} (f : α → Option β) (y : β) (i : α) :
    ∀ l : List α, l.Nodup → i ∈ l → f i = some y → (∀ j ∈ l, j ≠ i → f j = none) →
      l.filterMap f = [y] := by
  intro l
  induction l with
  | nil => intro _ hi; cases hi
  | cons x l ih =>
    intro hnd hi hfi hother
    rw [List.nodup_cons] at hnd
    by_cases hx : x = i
    · subst hx
      rw [List.filterMap_cons, hfi]
      have hnil : l.filterMap f = [] := by
        rw [List.filterMap_eq_nil_iff]
        intro j hj
        apply hother j (List.mem_cons_of_mem _ hj)
        intro hji
        rw [hji] at hj
        exact hnd.1 hj
      rw [hnil]
    · have hx' : f x = none := hother x (List.mem_cons_self _ _) hx
      rw [List.filterMap_cons, hx']
      apply ih hnd.2
      · rcases List.mem_cons.mp hi with h | h
        · exact absurd h.symm hx
        · exact h
      · exact hfi
      · intro j hj
        exact hother j (List.mem_cons_of_mem _ hj)

/-- C22: on a chart with exactly one minterm `m` that exactly one prime `p`
of the chart covers, `findOptimalPrimes` completes and appends exactly one
implicant to the output list, the prime `p`. -/
theorem findOptimalPrimes_single (c : QMCPrimeChart) (m i : Nat) (p : QMCImplicant)
    (fuel : Nat) (optimalPrimes : List QMCImplicant)
    (hm : c.mintermIds = [m]) (hp : c.primeImplicants[i]? = some p) (hcov : m ∈ p.mintermSet)
    (huniq : ∀ (j : Nat) (q : QMCImplicant), c.primeImplicants[j]? = some q →
      m ∈ q.mintermSet → j = i) :
    c.findOptimalPrimes fuel optimalPrimes = some (optimalPrimes ++ [p]) := by
  unfold mintermIds at hm
  unfold primeImplicants at hp huniq
  have hi : i < c.primes.length := (List.getElem?_eq_some_iff.mp hp).1
  have hsum : c.sumFor m = [[i]] := by
    unfold sumFor
    apply filterMap_eq_singleton _ [i] i _ (List.nodup_range _) (List.mem_range.mpr hi)
    · simp only [hp, if_pos hcov]
    · intro j _ hji
      cases hq : c.primes[j]? with
      | none => rfl
      | some q =>
        simp only
        by_cases hmq : m ∈ q.mintermSet
        · exact absurd (huniq j q hq hmq) hji
        · rw [if_neg hmq]
  have hpos : c.productOfSums = [[[i]]] := by
    unfold productOfSums
    rw [hm, List.map_cons, List.map_nil, hsum]
  unfold findOptimalPrimes
  rw [hpos]
  have h1 : mergeBrackets [[[i]]] = some [[i]] := rfl
  have h2 : unique (sortTerms [[i]]) = [[i]] := rfl
  have h3 : eliminateSupersets fuel [[i]] = some [[i]] := rfl
  have h4 : c.shortestLoop [[i]] 0 none = some [i] := by
    simp [shortestLoop]
  simp only [h1, h2, h3, h4, List.filterMap_cons, hp, List.filterMap_nil]

/-- An instance of `findOptimalPrimes_single`: one minterm, covered by the
second of two primes. -/
theorem findOptimalPrimes_single_witness :
    (⟨[⟨[TRUE, DONT_CARE], [1], true⟩, ⟨[DONT_CARE, TRUE], [2, 3], true⟩], [3]⟩ :
      QMCPrimeChart).findOptimalPrimes 0 [] = some ([] ++ [⟨[DONT_CARE, TRUE], [2, 3], true⟩]) :=
  findOptimalPrimes_single _ 3 1 ⟨[DONT_CARE, TRUE], [2, 3], true⟩ 0 [] rfl rfl (by decide)
    (by
      intro j q hq hmem
      match j, hq with
      | 0, hq =>
        simp only [primeImplicants, List.getElem?_cons_zero, Option.some.injEq] at hq
        rw [← hq] at hmem
        exact absurd hmem (by decide)
      | 1, _ => rfl
      | j + 2, hq => simp [primeImplicants] at hq)

end QMCPrimeChart

namespace TruthTable

theorem index_lt_length (t : TruthTable) (ht : 0 < t.width) (s k : Nat)
    (hs : s < t.stateCount) (hk : k < t.inputs + t.outputs) :
    s * (t.inputs + t.outputs) + k < t.data.length := by
  unfold stateCount width at hs
  unfold width at ht
  have h1 : (s + 1) * (t.inputs + t.outputs) ≤ t.data.length :=
    (Nat.le_div_iff_mul_le ht).mp hs
  rw [Nat.succ_mul] at h1
  omega

theorem stateCountChecked_eq (t : TruthTable) (ht : 0 < t.inputs + t.outputs)
    (hw : t.inputs + t.outputs < 2 ^ 32) (hd : t.data.length < 2 ^ 32) :
    t.widthMachine = t.inputs + t.outputs ∧ t.stateCountChecked = some t.stateCount := by
  have h1 : t.widthMachine = t.inputs + t.outputs := Nat.mod_eq_of_lt hw
  refine ⟨h1, ?_⟩
  unfold stateCountChecked
  rw [h1, if_neg (by omega)]
  unfold stateCount width
  have h2 : t.data.length / (t.inputs + t.outputs) ≤ t.data.length := Nat.div_le_self _ _
  rw [Nat.mod_eq_of_lt (by omega)]

/-- C23 (counterexample): `wrapTable` is the table `climain` builds for `-o 5`
on a file of two rows and three columns.  Its `width ()` wraps to 3 and its
`stateCount ()` is 2.  Row 0 and input 6 are in range (`0 < stateCount ()`,
`6 < inputCount ()`), yet `input (0, 6)` reads `data[6]` past the end of the
six stored values; `output (0, 0)` reads `data[4294967294]`; and `input (1, 0)`
returns the value stored at position 3, while position
`1 * (inputCount () + outputCount ()) + 0` is not a position of `data`. -/
theorem access_wrapped_width :
    wrapTable.stateCountChecked = some 2 ∧
    6 < wrapTable.inputCount ∧ wrapTable.inputChecked 0 6 = none ∧
    0 < wrapTable.outputCount ∧ wrapTable.outputChecked 0 0 = none ∧
    wrapTable.inputChecked 1 0 = wrapTable.data[3]? ∧
    wrapTable.data[1 * (wrapTable.inputCount + wrapTable.outputCount) + 0]? = none := by
  refine ⟨by decide, by decide, by decide, by decide, by decide, by decide, by decide⟩

/-- C23 (amended): on a table whose column count `inputs + outputs` is at
least 1 and below `2 ^ 32` (the sum does not wrap) and whose data has fewer
than `2 ^ 32` entries, `stateCount ()` is defined and the access never fails:
`input (s, i)` returns `DONT_CARE` when `s >= stateCount ()` or
`i >= inputCount ()`, `output (s, o)` returns `DONT_CARE` when
`s >= stateCount ()` or `o >= outputCount ()`, and in range they return the
stored values at the positions `s * (I + O) + i` and `s * (I + O) + I + o`;
`KVMap::valueAt` and `KVMap::inputAt` of every grid return `DONT_CARE` when
`column >= mapWidth ()` or `row >= mapHeight ()`. -/
theorem access_in_bounds (t : TruthTable) (ht : 0 < t.inputs + t.outputs)
    (hw : t.inputs + t.outputs < 2 ^ 32) (hd : t.data.length < 2 ^ 32) :
    ∃ count, t.stateCountChecked = some count ∧
    (∀ s i, count ≤ s ∨ t.inputCount ≤ i → t.inputChecked s i = some DONT_CARE) ∧
    (∀ s o, count ≤ s ∨ t.outputCount ≤ o → t.outputChecked s o = some DONT_CARE) ∧
    (∀ s i, s < count → i < t.inputCount →
      ∃ value, t.data[s * (t.inputCount + t.outputCount) + i]? = some value ∧
        t.inputChecked s i = some value ∧ t.input s i = value) ∧
    (∀ s o, s < count → o < t.outputCount →
      ∃ value, t.data[s * (t.inputCount + t.outputCount) + t.inputCount + o]? = some value ∧
        t.outputChecked s o = some value ∧ t.output s o = value) ∧
    (∀ (g : KVMap) (column row : Nat), g.mapWidth ≤ column ∨ g.mapHeight ≤ row →
      g.valueAt column row = DONT_CARE) ∧
    (∀ (g : KVMap) (column row v : Nat), g.mapWidth ≤ column ∨ g.mapHeight ≤ row →
      g.inputAt column row v = DONT_CARE) := by
  have ht' : 0 < t.width := ht
  obtain ⟨hwm, hsc⟩ := stateCountChecked_eq t ht hw hd
  refine ⟨t.stateCount, hsc, ?_, ?_, ?_, ?_, ?_, ?_⟩
  · intro s i h
    unfold inputChecked inputCount at *
    rw [hsc]
    simp only
    by_cases h1 : s ≥ t.stateCount
    · rw [if_pos h1]
    · rw [if_neg h1, if_pos (by omega)]
  · intro s o h
    unfold outputChecked outputCount at *
    rw [hsc]
    simp only
    by_cases h1 : s ≥ t.stateCount
    · rw [if_pos h1]
    · rw [if_neg h1, if_pos (by omega)]
  · intro s i hs hi
    unfold inputCount at hi
    have hlt := index_lt_length t ht' s i hs (by omega)
    refine ⟨t.data[s * (t.inputs + t.outputs) + i], List.getElem?_eq_getElem hlt, ?_, ?_⟩
    · unfold inputChecked
      rw [hsc]
      simp only
      rw [if_neg (by omega), if_neg (by omega), hwm, Nat.mod_eq_of_lt (by omega)]
      exact List.getElem?_eq_getElem hlt
    · unfold input
      rw [if_neg (by omega), if_neg (by omega), List.getD_eq_getElem?_getD,
        List.getElem?_eq_getElem hlt]
      rfl
  · intro s o hs ho
    unfold outputCount at ho
    have hlt := index_lt_length t ht' s (t.inputs + o) hs (by omega)
    rw [← Nat.add_assoc] at hlt
    refine ⟨t.data[s * (t.inputs + t.outputs) + t.inputs + o],
      List.getElem?_eq_getElem hlt, ?_, ?_⟩
    · unfold outputChecked
      rw [hsc]
      simp only
      rw [if_neg (by omega), if_neg (by omega), hwm, Nat.mod_eq_of_lt (by omega)]
      exact List.getElem?_eq_getElem hlt
    · unfold output
      rw [if_neg (by omega), if_neg (by omega), List.getD_eq_getElem?_getD,
        List.getElem?_eq_getElem hlt]
      rfl
  · intro g column row h
    unfold KVMap.valueAt
    unfold KVMap.mapWidth KVMap.mapHeight at h
    by_cases h1 : column ≥ g.width
    · rw [if_pos h1]
    · rw [if_neg h1, if_pos (by omega)]
  · intro g column row v h
    unfold KVMap.inputAt
    unfold KVMap.mapWidth KVMap.mapHeight at h
    by_cases h1 : column ≥ g.width
    · rw [if_pos h1]
    · rw [if_neg h1, if_pos (by omega)]

/-- An instance of `access_in_bounds`: the table of the logical OR has three
columns and twelve stored values, so `stateCount ()` is 4; row 4 and input 2
are out of range and give `DONT_CARE`. -/
theorem access_in_bounds_witness :
    0 < orTable.inputs + orTable.outputs ∧ orTable.inputs + orTable.outputs < 2 ^ 32 ∧
      orTable.data.length < 2 ^ 32 ∧
      ∃ count, orTable.stateCountChecked = some count ∧
        (∀ s i, count ≤ s ∨ orTable.inputCount ≤ i →
          orTable.inputChecked s i = some DONT_CARE) :=
  ⟨by decide, by decide, by decide,
    (access_in_bounds orTable (by decide) (by decide) (by decide)).imp
      fun _ h => ⟨h.1, h.2.1⟩⟩

end TruthTable

end LOPT

namespace LOPT

open TriStateBool

/-! ## Theorems: the sum of products of `mergeBrackets` -/

theorem foldl_mergeBracket :
    ∀ (others : List bracket_t) (merged : bracket_t), (∀ c ∈ others, c ≠ []) →
      others.foldl mergeBracket merged =
        merged.flatMap fun t => (termChoices others).map fun choice =>
          choice.foldl termInsertAll t := by
  intro others
  induction others with
  | nil =>
    intro merged _
    simp [termChoices]
  | cons b rest ih =>
    intro merged hne
    rw [List.foldl_cons, ih _ (fun c hc => hne c (List.mem_cons_of_mem _ hc))]
    have hb : b ≠ [] := hne b (List.mem_cons_self _ _)
    have hmb : mergeBracket merged b =
        merged.flatMap fun term1 => b.map fun term2 => termInsertAll term1 term2 := by
      unfold mergeBracket
      cases b with
      | nil => exact absurd rfl hb
      | cons _ _ => rfl
    rw [hmb, List.flatMap_assoc]
    apply List.flatMap_congr
    intro t _
    simp only [termChoices, List.flatMap_map, List.map_flatMap, List.map_map, Function.comp_def,
      List.foldl_cons]

theorem length_termChoices :
    ∀ cs : List bracket_t, (termChoices cs).length = (cs.map List.length).prod := by
  intro cs
  induction cs with
  | nil => rfl
  | cons c rest ih =>
    have hconst : (c.map (List.length ∘ fun t =>
        (termChoices rest).map fun choice => t :: choice)) =
        List.replicate c.length (rest.map List.length).prod := by
      rw [List.eq_replicate_iff]
      refine ⟨by rw [List.length_map], ?_⟩
      intro n hn
      obtain ⟨t, _, rfl⟩ := List.mem_map.mp hn
      simp only [Function.comp, List.length_map, ih]
    simp only [termChoices, List.length_flatMap, List.map_cons, List.prod_cons, hconst,
      List.sum_replicate, smul_eq_mul]

theorem mem_foldl_termInsertAll (x : Nat) :
    ∀ (rest : List term_t) (t : term_t),
      x ∈ rest.foldl termInsertAll t ↔ x ∈ t ∨ ∃ u ∈ rest, x ∈ u := by
  intro rest
  induction rest with
  | nil => intro t; simp
  | cons u rest ih =>
    intro t
    rw [List.foldl_cons, ih, mem_termInsertAll]
    simp only [List.mem_cons, exists_eq_or_imp]
    tauto

theorem mem_termChoices :
    ∀ (cs : List bracket_t) (choice : List term_t),
      choice ∈ termChoices cs ↔ List.Forall₂ (fun t c => t ∈ c) choice cs := by
  intro cs
  induction cs with
  | nil =>
    intro choice
    simp [termChoices]
  | cons c rest ih =>
    intro choice
    simp only [termChoices, List.mem_flatMap, List.mem_map]
    constructor
    · rintro ⟨t, ht, ch, hch, rfl⟩
      exact List.Forall₂.cons ht ((ih ch).mp hch)
    · intro h
      cases h with
      | cons ht hrest => exact ⟨_, ht, _, (ih _).mpr hrest, rfl⟩

/-- C26: for a non-empty list of non-empty clauses `mergeBrackets` completes
and returns, in this order, the unions of the choices of one term from each
clause, the choice from the first clause varying slowest and the choice from
the last clause fastest: the list has `|c1| * ... * |cn|` terms, position by
position the union of the corresponding choice, and a prime is in that union
exactly when it is in one of the chosen terms. -/
theorem mergeBrackets_choices (brackets : List bracket_t) (hne : brackets ≠ [])
    (hcl : ∀ c ∈ brackets, c ≠ []) :
    ∃ sop, mergeBrackets brackets = some sop ∧
      sop = (termChoices brackets).map choiceUnion ∧
      sop.length = (brackets.map List.length).prod ∧
      (∀ choice, choice ∈ termChoices brackets ↔
        List.Forall₂ (fun t c => t ∈ c) choice brackets) ∧
      ∀ choice ∈ termChoices brackets, ∀ x, x ∈ choiceUnion choice ↔ ∃ t ∈ choice, x ∈ t := by
  cases brackets with
  | nil => exact absurd rfl hne
  | cons first others =>
    have hsop : others.foldl mergeBracket first =
        (termChoices (first :: others)).map choiceUnion := by
      rw [foldl_mergeBracket others first (fun c hc => hcl c (List.mem_cons_of_mem _ hc))]
      simp only [termChoices, List.map_flatMap, List.map_map, Function.comp_def, choiceUnion]
    refine ⟨_, rfl, hsop, ?_, mem_termChoices _, ?_⟩
    · rw [hsop, List.length_map, length_termChoices]
    · intro choice _ x
      cases choice with
      | nil => simp [choiceUnion]
      | cons t rest =>
        simp only [choiceUnion, mem_foldl_termInsertAll, List.mem_cons, exists_eq_or_imp]

/-- An instance of `mergeBrackets_choices`: two clauses of two terms. -/
theorem mergeBrackets_choices_witness :
    ∃ sop, mergeBrackets [[[0], [1]], [[1], [2]]] = some sop ∧
      sop = (termChoices [[[0], [1]], [[1], [2]]]).map choiceUnion ∧
      sop.length = ([[[0], [1]], [[1], [2]]].map List.length).prod ∧
      sop = [[0, 1], [0, 2], [1], [1, 2]] := by
  obtain ⟨sop, h1, h2, h3, _⟩ :=
    mergeBrackets_choices [[[0], [1]], [[1], [2]]] (by decide) (by decide)
  exact ⟨sop, h1, h2, h3, by rw [h2]; rfl⟩

end LOPT

namespace LOPT

open TriStateBool

/-! ## Theorems: what `eliminateSupersets` keeps -/

/-- The loops of `eliminateSupersets` return a bracket in which no term
contains another: the pairs that the loops have already compared stay
incomparable. -/
theorem eliminateLoop_antichain :
    ∀ (fuel i j : Nat) (B B' : bracket_t), i < j →
      (∀ (p q : Nat) (a b : term_t), p < q → (p < i ∨ (p = i ∧ q < j)) →
        B[p]? = some a → B[q]? = some b → includes a b = false ∧ includes b a = false) →
      eliminateLoop fuel i j B = some B' →
      ∀ (p q : Nat) (a b : term_t), p < q → B'[p]? = some a → B'[q]? = some b →
        includes a b = false ∧ includes b a = false := by
  intro fuel
  induction fuel with
  | zero => intro i j B B' _ _ h; simp [eliminateLoop] at h
  | succ fuel ih =>
    intro i j B B' hij hinv h
    unfold eliminateLoop at h
    split at h
    · rename_i hj
      split at h
      · rename_i hlen
        rw [← Option.some.inj h]
        intro p q a b hpq ha hb
        have hq : q < B.length := (List.getElem?_eq_some_iff.mp hb).1
        apply hinv p q a b hpq _ ha hb
        omega
      · apply ih (i + 1) (i + 1 + 1) B B' (by omega) _ h
        intro p q a b hpq hcase ha hb
        have hq : q < B.length := (List.getElem?_eq_some_iff.mp hb).1
        apply hinv p q a b hpq _ ha hb
        omega
    · rename_i hj
      split at h
      · rename_i t1 t2 h1 h2
        split at h
        · simp only at h
          have herase : ∀ (p q : Nat) (a b : term_t), p < q → p < i →
              (B.eraseIdx i)[p]? = some a → (B.eraseIdx i)[q]? = some b →
              includes a b = false ∧ includes b a = false := by
            intro p q a b hpq hp ha hb
            rw [List.getElem?_eraseIdx, if_pos hp] at ha
            rw [List.getElem?_eraseIdx] at hb
            split at hb
            · exact hinv p q a b hpq (Or.inl hp) ha hb
            · exact hinv p (q + 1) a b (by omega) (Or.inl hp) ha hb
          split at h
          · rename_i hlen
            rw [← Option.some.inj h]
            intro p q a b hpq ha hb
            have hq : q < (B.eraseIdx i).length := (List.getElem?_eq_some_iff.mp hb).1
            exact herase p q a b hpq (by omega) ha hb
          · apply ih i (i + 1) (B.eraseIdx i) B' (by omega) _ h
            intro p q a b hpq hcase ha hb
            exact herase p q a b hpq (by omega) ha hb
        · rename_i hn1
          split at h
          · apply ih i j (B.eraseIdx j) B' hij _ h
            intro p q a b hpq hcase ha hb
            rw [List.getElem?_eraseIdx, if_pos (by omega)] at ha
            rw [List.getElem?_eraseIdx] at hb
            split at hb
            · exact hinv p q a b hpq hcase ha hb
            · rename_i hqj
              rcases hcase with hp | ⟨hp, hq⟩
              · exact hinv p (q + 1) a b (by omega) (Or.inl hp) ha hb
              · omega
          · rename_i hn2
            apply ih i (j + 1) B B' (by omega) _ h
            intro p q a b hpq hcase ha hb
            rcases hcase with hp | ⟨hp, hq⟩
            · exact hinv p q a b hpq (Or.inl hp) ha hb
            · rcases Nat.lt_or_ge q j with hlt | hge
              · exact hinv p q a b hpq (Or.inr ⟨hp, hlt⟩) ha hb
              · have hqj : q = j := by omega
                subst hqj
                subst hp
                rw [h1] at ha
                rw [h2] at hb
                rw [← Option.some.inj ha, ← Option.some.inj hb]
                exact ⟨by simpa using hn1, by simpa using hn2⟩
      · simp at h

theorem eliminateSupersets_antichain (fuel : Nat) (B B' : bracket_t)
    (h : eliminateSupersets fuel B = some B') :
    ∀ (p q : Nat) (a b : term_t), p < q → B'[p]? = some a → B'[q]? = some b →
      includes a b = false ∧ includes b a = false := by
  unfold eliminateSupersets at h
  split at h
  · rename_i hlen
    rw [← Option.some.inj h]
    intro p q a b hpq _ hb
    have hq : q < B.length := (List.getElem?_eq_some_iff.mp hb).1
    omega
  · apply eliminateLoop_antichain fuel 0 1 B B' (by omega) _ h
    intro p q a b hpq hcase
    omega

/-- A sublist of a list without duplicates is the list filtered by the
membership in the sublist. -/
theorem sublist_eq_filter {α : Type} [DecidableEq α] {l1 l : List α} (hs : List.Sublist l1 l) :
    l.Nodup → l1 = l.filter fun a => decide (a ∈ l1) := by
  induction hs with
  | slnil => intro _; rfl
  | cons a hs ih =>
    rename_i l1 l
    intro hnd
    rw [List.nodup_cons] at hnd
    have ha : a ∉ l1 := fun h => hnd.1 (hs.subset h)
    rw [List.filter_cons, if_neg (by simpa using ha)]
    exact ih hnd.2
  | cons₂ a hs ih =>
    rename_i l1 l
    intro hnd
    rw [List.nodup_cons] at hnd
    rw [List.filter_cons, if_pos (by simp)]
    congr 1
    have h1 := ih hnd.2
    rw [show l.filter (fun b => decide (b ∈ a :: l1)) = l.filter (fun b => decide (b ∈ l1)) from
      List.filter_congr (fun b hb => by
        have hba : b ≠ a := fun h => hnd.1 (h ▸ hb)
        simp [hba])]
    exact h1

/-- C25: when `eliminateSupersets` completes on a list of terms that are
pairwise distinct as sets, the list is not empty and the result holds exactly
its minimal terms in their original order: a term is kept if and only if no
other term of the input is a subset of it, no kept term contains another kept
term, and every discarded term contains a kept term. -/
theorem eliminateSupersets_minimal (fuel : Nat) (B B' : bracket_t)
    (hdist : B.Pairwise fun a b => ¬ (includes a b = true ∧ includes b a = true))
    (h : eliminateSupersets fuel B = some B') :
    B ≠ [] ∧ B' = minimalTerms B ∧ List.Sublist B' B ∧
    (∀ t, t ∈ B' ↔ t ∈ B ∧ ∀ u ∈ B, u ≠ t → includes t u = false) ∧
    (∀ t ∈ B', ∀ u ∈ B', u ≠ t → includes t u = false) ∧
    (∀ t ∈ B, t ∉ B' → ∃ u ∈ B', includes t u = true) := by
  have hne : B ≠ [] := by
    intro hB
    subst hB
    cases fuel <;> simp [eliminateSupersets, eliminateLoop] at h
  have hself : ∀ a : term_t, includes a a = true := fun a =>
    (includes_iff a a).mpr fun x hx => hx
  have hnd : B.Nodup := by
    apply List.Pairwise.imp _ hdist
    intro a b hab heq
    subst heq
    exact hab ⟨hself a, hself a⟩
  have hsym : ∀ a ∈ B, ∀ b ∈ B, a ≠ b → ¬ (includes a b = true ∧ includes b a = true) :=
    List.Pairwise.forall (by intro a b hab hba; exact hab ⟨hba.2, hba.1⟩) hdist
  have hsub := eliminateSupersets_sublist fuel B B' h
  obtain ⟨hin, habs⟩ := eliminateSupersets_spec fuel B B' h
  have hidx := eliminateSupersets_antichain fuel B B' h
  have hanti : ∀ t ∈ B', ∀ u ∈ B', u ≠ t → includes t u = false := by
    intro t ht u hu hut
    obtain ⟨p, hp⟩ := List.mem_iff_getElem?.mp ht
    obtain ⟨q, hq⟩ := List.mem_iff_getElem?.mp hu
    rcases Nat.lt_trichotomy p q with hlt | heq | hgt
    · exact (hidx p q t u hlt hp hq).1
    · subst heq
      rw [hp] at hq
      exact absurd (Option.some.inj hq).symm hut
    · exact (hidx q p u t hgt hq hp).2
  have hmem : ∀ t, t ∈ B' ↔ t ∈ B ∧ ∀ u ∈ B, u ≠ t → includes t u = false := by
    intro t
    constructor
    · intro ht
      refine ⟨hin t ht, ?_⟩
      intro u hu hut
      cases hinc : includes t u with
      | false => rfl
      | true =>
        exfalso
        obtain ⟨u', hu', hsubu⟩ := habs u hu
        have htu' : includes t u' = true :=
          (includes_iff t u').mpr fun x hx => (includes_iff t u).mp hinc x (hsubu x hx)
        by_cases he : u' = t
        · subst he
          exact hsym u hu u' (hin u' ht) hut ⟨(includes_iff u u').mpr hsubu, hinc⟩
        · rw [hanti t ht u' hu' he] at htu'
          cases htu'
    · rintro ⟨ht, hmin⟩
      obtain ⟨t', ht', hsubt⟩ := habs t ht
      by_cases he : t' = t
      · rw [← he]
        exact ht'
      · have := hmin t' (hin t' ht') he
        rw [(includes_iff t t').mpr hsubt] at this
        cases this
  refine ⟨hne, ?_, hsub, hmem, hanti, ?_⟩
  · rw [sublist_eq_filter hsub hnd]
    unfold minimalTerms
    apply List.filter_congr
    intro t ht
    rw [Bool.eq_iff_iff]
    simp only [decide_eq_true_eq, Bool.not_eq_true', List.any_eq_false, Bool.and_eq_true,
      not_and, Bool.not_eq_true]
    rw [hmem]
    constructor
    · rintro ⟨_, hmin⟩ u hu hut
      exact hmin u hu hut
    · intro hmin
      exact ⟨ht, fun u hu hut => hmin u hu hut⟩
  · intro t ht _
    obtain ⟨u, hu, hsubu⟩ := habs t ht
    exact ⟨u, hu, (includes_iff t u).mpr hsubu⟩

/-- An instance of `eliminateSupersets_minimal`: of the four terms the two
minimal ones are kept. -/
theorem eliminateSupersets_minimal_witness :
    [[0, 1], [1], [0, 2], [0, 1, 2]] ≠ [] ∧
    [[1], [0, 2]] = minimalTerms [[0, 1], [1], [0, 2], [0, 1, 2]] ∧
    List.Sublist [[1], [0, 2]] [[0, 1], [1], [0, 2], [0, 1, 2]] := by
  obtain ⟨h1, h2, h3, _⟩ :=
    eliminateSupersets_minimal 10 [[0, 1], [1], [0, 2], [0, 1, 2]] [[1], [0, 2]]
      (by decide) (by rfl)
  exact ⟨h1, h2, h3⟩

set_option maxRecDepth 100000

/-- C28 (failing input): for the table `absorbTable` the chart after
`extractEPIs` has two minterms, and `findOptimalPrimes` hands the sorted,
duplicate-free list `{0,1}, {0,2}, {1}, {1,2}` to `eliminateSupersets`.  The
loops erase `{0,1}` and then, with `term1` at `{1}`, the last term `{1,2}`;
`term1++` then makes `term1` the end of the list, the test
`term1 != bracket.end () - 1` lets the outer loop go on, and position 2 of
the list of two terms is read.  No number of steps lets the function complete,
and `process_table` does not complete on the table. -/
theorem eliminateSupersets_leaves_list :
    List.Pairwise (fun a b => termLt a b = true) [[0, 1], [0, 2], [1], [1, 2]] ∧
    (((( QMCStack.initialize {} (KVMap.ofTable absorbTable 0)).bind (QMCStack.mergeLoop 5)).bind
      fun stack => ( QMCPrimeChart.initialize {} stack).map fun chart =>
        (chart.extractEPIs []).1.productOfSums).bind mergeBrackets).map
          (fun sop => unique (sortTerms sop)) = some [[0, 1], [0, 2], [1], [1, 2]] ∧
    (∀ fuel, eliminateLoop (fuel + 7) 0 1 [[0, 1], [0, 2], [1], [1, 2]] =
      eliminateLoop fuel 2 3 [[0, 2], [1]]) ∧
    ([[0, 2], [1]] : bracket_t)[2]? = none ∧
    (∀ fuel, eliminateSupersets fuel [[0, 1], [0, 2], [1], [1, 2]] = none) ∧
    (∀ fuel, process_table fuel absorbTable = none) := by
  refine ⟨by decide, rfl, fun _ => rfl, rfl, ?_, ?_⟩
  · intro fuel
    match fuel with
    | 0 => rfl
    | 1 => rfl
    | 2 => rfl
    | 3 => rfl
    | 4 => rfl
    | 5 => rfl
    | 6 => rfl
    | 7 => rfl
    | n + 8 => rfl
  · intro fuel
    match fuel with
    | 0 => rfl
    | 1 => rfl
    | 2 => rfl
    | 3 => rfl
    | 4 => rfl
    | 5 => rfl
    | 6 => rfl
    | 7 => rfl
    | n + 8 => rfl

end LOPT

namespace LOPT

open TriStateBool

/-! ## Theorems: the shape of the stack after any number of rounds -/

namespace QMCImplicant

theorem foldl_count_relevant (l : List TriStateBool) :
    ∀ k : Nat, l.foldl (fun n s => if s ≠ DONT_CARE then n + 1 else n) k +
      l.countP (fun v => decide (v = DONT_CARE)) = k + l.length := by
  induction l with
  | nil => intro k; rfl
  | cons s l ih =>
    intro k
    rw [List.foldl_cons, List.countP_cons, List.length_cons]
    by_cases h : s = DONT_CARE
    · have e1 : (if s ≠ DONT_CARE then k + 1 else k) = k := if_neg (not_not.mpr h)
      have e2 : (if (fun v => decide (v = DONT_CARE)) s = true then 1 else 0) = 1 := by
        simp [h]
      have := ih k
      rw [e1, e2]
      omega
    · have e1 : (if s ≠ DONT_CARE then k + 1 else k) = k + 1 := if_pos h
      have e2 : (if (fun v => decide (v = DONT_CARE)) s = true then 1 else 0) = 0 := by
        simp [h]
      have := ih (k + 1)
      rw [e1, e2]
      omega

theorem relevantInputCount_add (x : QMCImplicant) :
    x.relevantInputCount + x.states.countP (fun v => decide (v = DONT_CARE)) =
      x.states.length := by
  unfold relevantInputCount
  rw [foldl_count_relevant, Nat.zero_add]

end QMCImplicant

namespace QMCStack

/-- Any number of calls of `QMCStack::tryMerge` on a well-formed stack
complete and leave a well-formed stack with one more stage per call. -/
theorem rounds_stackOK (I : Nat) :
    ∀ (n : Nat) (s : QMCStack), StackOK I s →
      ∃ s', s.rounds n = some s' ∧ StackOK I s' ∧ s'.stages.length = s.stages.length + n := by
  intro n
  induction n with
  | zero => intro s hs; exact ⟨s, rfl, hs, rfl⟩
  | succ n ih =>
    intro s hs
    obtain ⟨s1, ret, h1, hs1, hlen1, _⟩ := tryMerge_stackOK I s hs
    obtain ⟨s', h', hs', hlen'⟩ := ih s1 hs1
    refine ⟨s', ?_, hs', by omega⟩
    unfold rounds
    rw [h1]
    exact h'

theorem initialize_stackOK (g : KVMap) (hg : g.WellFormed) :
    ∃ s0, QMCStack.initialize {} g = some s0 ∧ StackOK g.variableCount s0 ∧
      s0.stages = [(List.range (g.variableCount + 1)).map (stage0Group g (cellsByRow g))] := by
  refine ⟨_, initialize_eq {} g hg, ⟨by simp, ?_⟩, rfl⟩
  intro k G hk
  cases k with
  | zero =>
    simp only [List.getElem?_cons_zero, Option.some.injEq] at hk
    rw [← hk]
    exact stageOK_stage0 g hg
  | succ k => simp at hk

/-- C27: for every grid over `I` variables as the `KVMap` constructor builds
it and every number `n` of calls of `tryMerge` after `QMCStack::initialize`,
the calls complete, the stack has `n + 1` stages, every stage has exactly
`I + 1` sets, and every implicant stored in stage `k`, set `w` has a vector of
length `I` with exactly `w` entries `TRUE` and exactly `k` entries
`DONT_CARE`, so `relevantInputCount` is `I - k`. -/
theorem rounds_shape (g : KVMap) (hg : g.WellFormed) (n : Nat) :
    ∃ s0 s, QMCStack.initialize {} g = some s0 ∧ s0.rounds n = some s ∧
      s.stageCount = n + 1 ∧
      ∀ (k : Nat) (G : List QMCImplicantSet), s.stages[k]? = some G →
        G.length = g.variableCount + 1 ∧
        ∀ (w : Nat) (S : QMCImplicantSet), G[w]? = some S → ∀ x ∈ S.implicantSet,
          x.variableStates.length = g.variableCount ∧
          x.inputsTrueCount = w ∧ x.variableStates.count TRUE = w ∧
          x.variableStates.countP (fun v => decide (v = DONT_CARE)) = k ∧
          x.relevantInputCount = g.variableCount - k := by
  obtain ⟨s0, h0, hs0, hst0⟩ := initialize_stackOK g hg
  obtain ⟨s, hr, hs, hlen⟩ := rounds_stackOK g.variableCount n s0 hs0
  refine ⟨s0, s, h0, hr, ?_, ?_⟩
  · unfold stageCount
    rw [hlen, hst0]
    simp
    omega
  · intro k G hG
    obtain ⟨hGlen, hsets⟩ := hs.2 k G hG
    refine ⟨hGlen, ?_⟩
    intro w S hS x hx
    obtain ⟨h1, h2, h3, _⟩ := (hsets w S hS).2 x hx
    have h4 := QMCImplicant.relevantInputCount_add x
    refine ⟨h1, h2, ?_, h3, ?_⟩
    · exact (QMCImplicant.inputsTrueCount_eq x).symm.trans h2
    · omega

/-- An instance of `rounds_shape`: two rounds on the grid of the logical OR
of two inputs. -/
theorem rounds_shape_witness :
    (KVMap.ofTable orTable 0).WellFormed ∧
    ∃ s0 s, QMCStack.initialize {} (KVMap.ofTable orTable 0) = some s0 ∧
      s0.rounds 2 = some s ∧ s.stageCount = 2 + 1 := by
  obtain ⟨s0, s, h0, h1, h2, _⟩ :=
    rounds_shape (KVMap.ofTable orTable 0) (KVMap.ofTable_wellFormed _ _) 2
  exact ⟨KVMap.ofTable_wellFormed _ _, s0, s, h0, h1, h2⟩

end QMCStack

end LOPT

namespace LOPT

open TriStateBool

/-! ## Theorems: vectors and the assignments they match -/

theorem cellVars_ne_dontCare (I c r : Nat) :
    ∀ e ∈ KVMap.cellVars I c r, e ≠ DONT_CARE := by
  intro e he
  unfold KVMap.cellVars at he
  obtain ⟨v, _, rfl⟩ := List.mem_map.mp he
  split <;> simp

theorem vectorMatches_self : ∀ a : List TriStateBool, vectorMatches a a = true := by
  intro a
  induction a with
  | nil => rfl
  | cons x a ih => simp [vectorMatches, ih]

theorem vectorMatches_length :
    ∀ v a : List TriStateBool, vectorMatches v a = true → v.length = a.length := by
  intro v
  induction v with
  | nil =>
    intro a h
    cases a with
    | nil => rfl
    | cons _ _ => simp [vectorMatches] at h
  | cons y v ih =>
    intro a h
    cases a with
    | nil => simp [vectorMatches] at h
    | cons x a =>
      simp only [vectorMatches, Bool.and_eq_true] at h
      rw [List.length_cons, List.length_cons, ih a h.2]

theorem vectorMatches_eq :
    ∀ v a : List TriStateBool, vectorMatches v a = true → (∀ e ∈ v, e ≠ DONT_CARE) → v = a := by
  intro v
  induction v with
  | nil =>
    intro a h _
    cases a with
    | nil => rfl
    | cons _ _ => simp [vectorMatches] at h
  | cons y v ih =>
    intro a h hv
    cases a with
    | nil => simp [vectorMatches] at h
    | cons x a =>
      simp only [vectorMatches, Bool.and_eq_true, Bool.or_eq_true, decide_eq_true_eq] at h
      have hy : y ≠ DONT_CARE := hv y (List.mem_cons_self _ _)
      rcases h.1 with h1 | h1
      · exact absurd h1 hy
      · rw [h1, ih a h.2 (fun e he => hv e (List.mem_cons_of_mem _ he))]

/-- An assignment matches a merged vector exactly when it matches one of the
two merged vectors. -/
theorem vectorMatches_merge (x y : TriStateBool) (post : List TriStateBool) (hxy : x ≠ y)
    (hx : x ≠ DONT_CARE) (hy : y ≠ DONT_CARE) :
    ∀ pre cv : List TriStateBool, (∀ e ∈ cv, e ≠ DONT_CARE) →
      vectorMatches (pre ++ DONT_CARE :: post) cv =
        (vectorMatches (pre ++ x :: post) cv || vectorMatches (pre ++ y :: post) cv) := by
  intro pre
  induction pre with
  | nil =>
    intro cv hcv
    cases cv with
    | nil => rfl
    | cons e rest =>
      have he : e ≠ DONT_CARE := hcv e (List.mem_cons_self _ _)
      simp only [List.nil_append, vectorMatches]
      cases vectorMatches post rest <;> cases x <;> cases y <;> cases e <;> simp at hxy hx hy he ⊢
  | cons p pre ih =>
    intro cv hcv
    cases cv with
    | nil => rfl
    | cons e rest =>
      have h := ih rest (fun e' he' => hcv e' (List.mem_cons_of_mem _ he'))
      simp only [List.cons_append, vectorMatches, List.append_eq]
      rw [h]
      cases (decide (p = DONT_CARE) || decide (p = e)) <;> simp

theorem vectorsMerge_symm (u v : List TriStateBool) (h : VectorsMerge u v) : VectorsMerge v u := by
  obtain ⟨pre, x, y, post, hu, hv, hxy, hx, hy⟩ := h
  exact ⟨pre, y, x, post, hv, hu, fun h => hxy h.symm, hy, hx⟩

theorem tryMerge_iff_vectorsMerge (a b : QMCImplicant) :
    (∃ m, a.tryMerge b = some (some m)) ↔ VectorsMerge a.states b.states := by
  constructor
  · rintro ⟨m, hm⟩
    obtain ⟨pre, x, y, post, ha, hb, hxy, hx, hy, _⟩ := QMCImplicant.tryMerge_some_split a b m hm
    exact ⟨pre, x, y, post, ha, hb, hxy, hx, hy⟩
  · rintro ⟨pre, x, y, post, ha, hb, hxy, hx, hy⟩
    exact ⟨_, QMCImplicant.tryMerge_of_split a b pre post x y ha hb hxy hx hy⟩

/-- Two vectors that merge have `TRUE` counts that differ by one. -/
theorem vectorsMerge_count (u v : List TriStateBool) (h : VectorsMerge u v) :
    u ≠ v ∧ (u.count TRUE + 1 = v.count TRUE ∨ v.count TRUE + 1 = u.count TRUE) := by
  obtain ⟨pre, x, y, post, hu, hv, hxy, hx, hy⟩ := h
  subst hu hv
  constructor
  · intro heq
    have := List.append_cancel_left heq
    exact hxy (List.cons.inj this).1
  · simp only [List.count_append, List.count_cons]
    cases x <;> cases y <;> simp at hxy hx hy ⊢ <;> omega

end LOPT

namespace LOPT

open TriStateBool

/-! ## Theorems: implicants with exact minterm lists -/

namespace QMCStack

theorem markMerged_cases (P N : List QMCImplicant) (x : QMCImplicant) :
    markMerged P N x = x ∨ markMerged P N x = x.markPrime false := by
  unfold markMerged
  split
  · exact Or.inr rfl
  · exact Or.inl rfl

/-- A property of implicants that the flags do not touch and that a merged
implicant inherits from its parents holds for every implicant of the stack
after a round when it holds before. -/
theorem tryMerge_all (Q : QMCImplicant → Prop)
    (hflag : ∀ (x : QMCImplicant) (p : Bool), Q x → Q (x.markPrime p))
    (hmerge : ∀ a b m : QMCImplicant, Q a → Q b → a.tryMerge b = some (some m) → Q m)
    (s s' : QMCStack) (ret : Bool) (h : s.tryMerge = some (s', ret))
    (hQ : ∀ G ∈ s.stages, ∀ S ∈ G, ∀ x ∈ S.implicants, Q x) :
    ∀ G ∈ s'.stages, ∀ S ∈ G, ∀ x ∈ S.implicants, Q x := by
  cases hlast : s.stages.getLast? with
  | none =>
    unfold tryMerge at h
    rw [hlast] at h
    cases h
  | some prev =>
    obtain ⟨_, _, hs', _⟩ := tryMerge_completed s s' ret prev hlast h
    have hprev : prev ∈ s.stages := List.mem_of_getLast?_eq_some hlast
    intro G hG S hS x hx
    rw [hs'] at hG
    simp only [List.mem_append, List.mem_cons, List.mem_singleton, List.not_mem_nil,
      or_false] at hG
    rcases hG with hG | hG | hG
    · exact hQ G (List.mem_of_mem_dropLast hG) S hS x hx
    · rw [hG] at hS
      obtain ⟨w, hw⟩ := List.mem_iff_getElem?.mp hS
      obtain ⟨S0, Pw, Nw, hS0, hmap⟩ := getElem?_roundFlags_exists prev [] w S hw
      rw [hmap] at hx
      obtain ⟨x0, hx0, rfl⟩ := List.mem_map.mp hx
      have hq0 := hQ prev hprev S0 (List.getElem?_mem hS0) x0 hx0
      rcases markMerged_cases Pw Nw x0 with he | he
      · rw [he]; exact hq0
      · rw [he]; exact hflag x0 false hq0
    · rw [hG] at hS
      obtain ⟨w, hw⟩ := List.mem_iff_getElem?.mp hS
      refine QMCImplicantSet.foldl_addAt_invariant
        (fun _ S => ∀ x ∈ S.implicants, Q x) (roundMerged prev) ?_
        (List.replicate prev.length {}) ?_ w S hw x hx
      · intro m hm S1 hS1 y hy
        rcases QMCImplicantSet.mem_add S1 m y hy with hy | hy
        · exact hS1 y hy
        · obtain ⟨w1, A, B, a, b, hA, hB, ha, hb, hab⟩ := (mem_roundMerged m prev).mp hm
          obtain ⟨m0, h0, hm0⟩ := (QMCImplicant.mergedWith_eq_some a b m).mp hab
          rw [hy, hm0]
          exact hflag m0 true (hmerge a b m0 (hQ prev hprev A (List.getElem?_mem hA) a ha)
            (hQ prev hprev B (List.getElem?_mem hB) b hb) h0)
      · intro w0 S0 hS0 y hy
        rw [QMCImplicantSet.getElem?_replicate_empty _ _ _ hS0] at hy
        cases hy

theorem rounds_all (Q : QMCImplicant → Prop)
    (hflag : ∀ (x : QMCImplicant) (p : Bool), Q x → Q (x.markPrime p))
    (hmerge : ∀ a b m : QMCImplicant, Q a → Q b → a.tryMerge b = some (some m) → Q m) :
    ∀ (n : Nat) (s s' : QMCStack), s.rounds n = some s' →
      (∀ G ∈ s.stages, ∀ S ∈ G, ∀ x ∈ S.implicants, Q x) →
      ∀ G ∈ s'.stages, ∀ S ∈ G, ∀ x ∈ S.implicants, Q x := by
  intro n
  induction n with
  | zero =>
    intro s s' h hQ
    rw [← Option.some.inj h]
    exact hQ
  | succ n ih =>
    intro s s' h hQ
    unfold rounds at h
    cases ht : s.tryMerge with
    | none => rw [ht] at h; cases h
    | some r =>
      obtain ⟨s1, ret⟩ := r
      rw [ht] at h
      exact ih s1 s' h (tryMerge_all Q hflag hmerge s s1 ret ht hQ)

end QMCStack

namespace KVMap

/-- The implicant of a cell that is not `FALSE` is an implicant of the
completed function with an exact minterm list. -/
theorem initialize_exact (g : KVMap) (hg : g.WellFormed) (c r : Nat) (hc : c < g.width)
    (hr : r < g.height) (hv : g.valueAt c r ≠ FALSE) :
    g.IsImplicant ( QMCImplicant.initialize {} g c r).states ∧
      g.ExactMinterms ( QMCImplicant.initialize {} g c r) := by
  have hst := QMCImplicant.initialize_states g c r hc hr
  have hsame : ∀ c' r', c' < g.width → r' < g.height →
      vectorMatches (cellVars g.variableCount c r) (cellVars g.variableCount c' r') = true →
      c' = c ∧ r' = r := by
    intro c' r' hc' hr' hm
    have heq := vectorMatches_eq _ _ hm (cellVars_ne_dontCare _ c r)
    have := cellVars_injective g.variableCount c r c' r' (hg.1 ▸ hc) (hg.2.1 ▸ hr)
      (hg.1 ▸ hc') (hg.2.1 ▸ hr') heq
    exact ⟨this.1.symm, this.2.symm⟩
  constructor
  · intro c' hc' r' hr' hm
    rw [hst] at hm
    obtain ⟨h1, h2⟩ := hsame c' r' hc' hr' hm
    rw [h1, h2]
    exact hv
  · unfold ExactMinterms QMCImplicant.mintermSet QMCImplicant.variableStates
    rw [QMCImplicant.initialize_minterms, hst]
    constructor
    · split
      · exact List.nodup_singleton _
      · exact List.nodup_nil
    · intro id
      constructor
      · intro hid
        split at hid
        · rename_i hdc
          rw [List.mem_singleton] at hid
          refine ⟨c, r, hc, hr, hid, vectorMatches_self _, ?_⟩
          cases hval : g.valueAt c r with
          | TRUE => rfl
          | FALSE => exact absurd hval hv
          | DONT_CARE => exact absurd hval hdc
        · cases hid
      · rintro ⟨c', r', hc', hr', hid, hm, hval⟩
        obtain ⟨h1, h2⟩ := hsame c' r' hc' hr' hm
        subst h1 h2
        rw [if_pos (by rw [hval]; simp), List.mem_singleton]
        exact hid

/-- A merged implicant of two implicants of the completed function with
exact minterm lists is one. -/
theorem merge_exact (g : KVMap) (a b m : QMCImplicant)
    (ha : g.IsImplicant a.states ∧ g.ExactMinterms a)
    (hb : g.IsImplicant b.states ∧ g.ExactMinterms b)
    (h : a.tryMerge b = some (some m)) :
    g.IsImplicant m.states ∧ g.ExactMinterms m := by
  obtain ⟨pre, x, y, post, hsa, hsb, hxy, hx, hy, hsm, hmm, _⟩ :=
    QMCImplicant.tryMerge_some_split a b m h
  have hmatch : ∀ c r, vectorMatches m.states (cellVars g.variableCount c r) =
      (vectorMatches a.states (cellVars g.variableCount c r) ||
        vectorMatches b.states (cellVars g.variableCount c r)) := by
    intro c r
    rw [hsm, hsa, hsb]
    exact vectorMatches_merge x y post hxy hx hy pre _ (cellVars_ne_dontCare _ c r)
  constructor
  · intro c hc r hr hm
    rw [hmatch, Bool.or_eq_true] at hm
    rcases hm with hm | hm
    · exact ha.1 c hc r hr hm
    · exact hb.1 c hc r hr hm
  · unfold ExactMinterms QMCImplicant.mintermSet QMCImplicant.variableStates
    rw [hmm]
    refine ⟨QMCImplicant.nodup_mergeMinterms _ _ ha.2.1, ?_⟩
    intro id
    rw [QMCImplicant.mem_mergeMinterms]
    have hae := ha.2.2 id
    have hbe := hb.2.2 id
    unfold QMCImplicant.mintermSet QMCImplicant.variableStates at hae hbe
    rw [hae, hbe]
    constructor
    · rintro (⟨c, r, hc, hr, hid, hm, hv⟩ | ⟨c, r, hc, hr, hid, hm, hv⟩)
      · exact ⟨c, r, hc, hr, hid, by rw [hmatch, hm]; rfl, hv⟩
      · exact ⟨c, r, hc, hr, hid, by rw [hmatch, hm]; simp, hv⟩
    · rintro ⟨c, r, hc, hr, hid, hm, hv⟩
      rw [hmatch, Bool.or_eq_true] at hm
      rcases hm with hm | hm
      · exact Or.inl ⟨c, r, hc, hr, hid, hm, hv⟩
      · exact Or.inr ⟨c, r, hc, hr, hid, hm, hv⟩

end KVMap

namespace QMCStack

theorem stage0_exact (g : KVMap) (hg : g.WellFormed) (s0 : QMCStack)
    (hs0 : s0.stages =
      [(List.range (g.variableCount + 1)).map (stage0Group g (cellsByRow g))]) :
    ∀ G ∈ s0.stages, ∀ S ∈ G, ∀ x ∈ S.implicants,
      g.IsImplicant x.states ∧ g.ExactMinterms x := by
  intro G hG S hS x hx
  rw [hs0] at hG
  rw [List.mem_singleton.mp hG] at hS
  obtain ⟨w, _, rfl⟩ := List.mem_map.mp hS
  obtain ⟨c, r, hc, hr, hnf, hxeq, _⟩ := mem_stage0Group g w x hx
  rw [hxeq]
  exact KVMap.initialize_exact g hg c r hc hr hnf

/-- C29: for every grid as the `KVMap` constructor builds it and every number
of calls of `tryMerge` after `QMCStack::initialize`, every implicant stored in
a stage of the stack is an implicant of the completed function with an exact
minterm list: no cell whose assignment matches its vector has the value
`FALSE`, and its `mintermSet` holds, without repetition, exactly the indices
`row * width + column` of the cells whose assignment matches its vector and
whose value is `TRUE`; so two stored implicants with equal vectors have the
same minterms. -/
theorem rounds_exact (g : KVMap) (hg : g.WellFormed) (n : Nat) :
    ∃ s0 s, QMCStack.initialize {} g = some s0 ∧ s0.rounds n = some s ∧
      (∀ G ∈ s.stages, ∀ S ∈ G, ∀ x ∈ S.implicantSet,
        g.IsImplicant x.variableStates ∧ g.ExactMinterms x) ∧
      (∀ G ∈ s.stages, ∀ S ∈ G, ∀ x ∈ S.implicantSet,
        ∀ G' ∈ s.stages, ∀ S' ∈ G', ∀ y ∈ S'.implicantSet,
          x.variableStates = y.variableStates →
            ∀ id, id ∈ x.mintermSet ↔ id ∈ y.mintermSet) := by
  obtain ⟨s0, h0, hs0, hst0⟩ := initialize_stackOK g hg
  obtain ⟨s, hr, _, _⟩ := rounds_stackOK g.variableCount n s0 hs0
  have hall := rounds_all (fun x => g.IsImplicant x.states ∧ g.ExactMinterms x)
    (fun x p hx => hx) (fun a b m ha hb h => KVMap.merge_exact g a b m ha hb h)
    n s0 s hr (stage0_exact g hg s0 hst0)
  refine ⟨s0, s, h0, hr, hall, ?_⟩
  intro G hG S hS x hx G' hG' S' hS' y hy hxy id
  have hxe := (hall G hG S hS x hx).2.2 id
  have hye := (hall G' hG' S' hS' y hy).2.2 id
  rw [hxe, hye, hxy]

/-- An instance of `rounds_exact`: one round on the grid of the logical OR of
two inputs. -/
theorem rounds_exact_witness :
    (KVMap.ofTable orTable 0).WellFormed ∧
    ∃ s0 s, QMCStack.initialize {} (KVMap.ofTable orTable 0) = some s0 ∧
      s0.rounds 1 = some s ∧
      ∀ G ∈ s.stages, ∀ S ∈ G, ∀ x ∈ S.implicantSet,
        (KVMap.ofTable orTable 0).IsImplicant x.variableStates ∧
          (KVMap.ofTable orTable 0).ExactMinterms x := by
  obtain ⟨s0, s, h0, h1, h2, _⟩ :=
    rounds_exact (KVMap.ofTable orTable 0) (KVMap.ofTable_wellFormed _ _) 1
  exact ⟨KVMap.ofTable_wellFormed _ _, s0, s, h0, h1, h2⟩

end QMCStack

end LOPT

namespace LOPT

open TriStateBool

/-! ## Theorems: the round over all pairs -/

namespace QMCImplicantSet

theorem states_add (S : QMCImplicantSet) (m : QMCImplicant) (v : List TriStateBool) :
    (∃ x ∈ (S.add m).implicants, x.states = v) ↔
      (∃ x ∈ S.implicants, x.states = v) ∨ m.states = v := by
  unfold add
  split
  · rename_i hany
    constructor
    · intro h; exact Or.inl h
    · rintro (h | h)
      · exact h
      · obtain ⟨x, hx, hxm⟩ := List.any_eq_true.mp hany
        unfold QMCImplicant.eqv at hxm
        exact ⟨x, hx, by rw [← h]; simpa using hxm⟩
  · simp only [List.mem_append, List.mem_singleton]
    constructor
    · rintro ⟨x, hx | hx, hxv⟩
      · exact Or.inl ⟨x, hx, hxv⟩
      · exact Or.inr (hx ▸ hxv)
    · rintro (⟨x, hx, hxv⟩ | h)
      · exact ⟨x, Or.inl hx, hxv⟩
      · exact ⟨m, Or.inr rfl, h⟩

theorem states_addAt (T : List QMCImplicantSet) (m : QMCImplicant) (v : List TriStateBool)
    (hm : m.inputsTrueCount < T.length) :
    (∃ (w : Nat) (S : QMCImplicantSet), (addAt T m)[w]? = some S ∧
        ∃ x ∈ S.implicants, x.states = v) ↔
      m.states = v ∨ ∃ (w : Nat) (S : QMCImplicantSet), T[w]? = some S ∧
        ∃ x ∈ S.implicants, x.states = v := by
  constructor
  · rintro ⟨w, S, hS, hx⟩
    rw [getElem?_addAt] at hS
    split at hS
    · cases hT : T[w]? with
      | none => rw [hT] at hS; cases hS
      | some S0 =>
        rw [hT] at hS
        simp only [Option.map_some', Option.some.injEq] at hS
        rw [← hS] at hx
        rcases (states_add S0 m v).mp hx with h | h
        · exact Or.inr ⟨w, S0, hT, h⟩
        · exact Or.inl h
    · exact Or.inr ⟨w, S, hS, hx⟩
  · rintro (h | ⟨w, S, hS, hx⟩)
    · refine ⟨m.inputsTrueCount, T[m.inputsTrueCount].add m, ?_, (states_add _ m v).mpr (Or.inr h)⟩
      rw [getElem?_addAt, if_pos rfl, List.getElem?_eq_getElem hm]
      rfl
    · by_cases hw : w = m.inputsTrueCount
      · refine ⟨w, S.add m, ?_, (states_add S m v).mpr (Or.inl hx)⟩
        rw [getElem?_addAt, if_pos hw, hS]
        rfl
      · refine ⟨w, S, ?_, hx⟩
        rw [getElem?_addAt, if_neg hw]
        exact hS

theorem states_foldl_addAt (v : List TriStateBool) (L : List QMCImplicant) :
    ∀ T : List QMCImplicantSet, (∀ m ∈ L, m.inputsTrueCount < T.length) →
      ((∃ (w : Nat) (S : QMCImplicantSet), (L.foldl addAt T)[w]? = some S ∧
          ∃ x ∈ S.implicants, x.states = v) ↔
        (∃ m ∈ L, m.states = v) ∨ ∃ (w : Nat) (S : QMCImplicantSet), T[w]? = some S ∧
          ∃ x ∈ S.implicants, x.states = v) := by
  induction L with
  | nil => intro T _; simp
  | cons m L ih =>
    intro T hL
    rw [List.foldl_cons, ih (addAt T m) (by
      intro x hx
      rw [length_addAt]
      exact hL x (List.mem_cons_of_mem _ hx)),
      states_addAt T m v (hL m (List.mem_cons_self _ _))]
    simp only [List.mem_cons, exists_eq_or_imp]
    constructor
    · rintro (h | h | h)
      · exact Or.inl (Or.inr h)
      · exact Or.inl (Or.inl h)
      · exact Or.inr h
    · rintro ((h | h) | h)
      · exact Or.inr (Or.inl h)
      · exact Or.inl h
      · exact Or.inr (Or.inr h)

end QMCImplicantSet

namespace QMCStack

/-- The vectors stored in the stage a round builds are the vectors of the
merged implicants of the round. -/
theorem states_next (n : Nat) (G : List QMCImplicantSet) (hok : roundOK n G = true)
    (v : List TriStateBool) :
    (∃ S ∈ (roundMerged G).foldl QMCImplicantSet.addAt (List.replicate n {}),
        ∃ x ∈ S.implicants, x.states = v) ↔
      ∃ m ∈ roundMerged G, m.states = v := by
  have h := QMCImplicantSet.states_foldl_addAt v (roundMerged G) (List.replicate n {})
    (by
      intro m hm
      rw [List.length_replicate]
      exact roundMerged_count_lt n G hok m hm)
  constructor
  · rintro ⟨S, hS, hx⟩
    obtain ⟨w, hw⟩ := List.mem_iff_getElem?.mp hS
    rcases h.mp ⟨w, S, hw, hx⟩ with h1 | ⟨w0, S0, hS0, x, hx0, _⟩
    · exact h1
    · rw [QMCImplicantSet.getElem?_replicate_empty _ _ _ hS0] at hx0
      cases hx0
  · intro hm
    obtain ⟨w, S, hS, hx⟩ := h.mpr (Or.inl hm)
    exact ⟨S, List.getElem?_mem hS, hx⟩

/-- On a well-formed stage a pair of implicants that merges is a pair of
neighbouring sets, in one order or the other, and the round stores its merged
vector. -/
theorem merged_anywhere (I k : Nat) (G : List QMCImplicantSet) (hG : StageOK I k G)
    (A B : QMCImplicantSet) (a b m0 : QMCImplicant) (hA : A ∈ G) (hB : B ∈ G)
    (ha : a ∈ A.implicants) (hb : b ∈ B.implicants) (h : a.tryMerge b = some (some m0)) :
    ∃ m ∈ roundMerged G, m.states = m0.states := by
  obtain ⟨wa, hwa⟩ := List.mem_iff_getElem?.mp hA
  obtain ⟨wb, hwb⟩ := List.mem_iff_getElem?.mp hB
  obtain ⟨_, hca, _, _⟩ := (hG.2 wa A hwa).2 a ha
  obtain ⟨_, hcb, _, _⟩ := (hG.2 wb B hwb).2 b hb
  rw [QMCImplicant.inputsTrueCount_eq] at hca hcb
  obtain ⟨pre, x, y, post, hsa, hsb, hxy, hx, hy, hsm, _, _⟩ :=
    QMCImplicant.tryMerge_some_split a b m0 h
  have hcount := (vectorsMerge_count a.states b.states ⟨pre, x, y, post, hsa, hsb, hxy, hx, hy⟩).2
  rcases hcount with hc | hc
  · have hwab : wb = wa + 1 := by omega
    subst hwab
    exact ⟨m0.markPrime true, (mem_roundMerged _ G).mpr ⟨wa, A, B, a, b, hwa, hwb, ha, hb,
      (QMCImplicant.mergedWith_eq_some a b _).mpr ⟨m0, h, rfl⟩⟩, rfl⟩
  · have hwab : wa = wb + 1 := by omega
    subst hwab
    have h' := QMCImplicant.tryMerge_of_split b a pre post y x hsb hsa
      (fun e => hxy e.symm) hy hx
    refine ⟨_, (mem_roundMerged _ G).mpr ⟨wb, B, A, b, a, hwb, hwa, hb, ha,
      (QMCImplicant.mergedWith_eq_some b a _).mpr ⟨_, h', rfl⟩⟩, ?_⟩
    rw [hsm]
    rfl

theorem mem_specRoundVectors (G : List QMCImplicantSet) (v : List TriStateBool) :
    v ∈ specRoundVectors G ↔
      ∃ A ∈ G, ∃ a ∈ A.implicants, ∃ B ∈ G, ∃ b ∈ B.implicants,
        a.states ≠ b.states ∧ ∃ m0, a.tryMerge b = some (some m0) ∧ m0.states = v := by
  unfold specRoundVectors
  simp only [List.mem_flatMap, List.mem_filterMap]
  constructor
  · rintro ⟨a, ⟨A, hA, ha⟩, b, ⟨B, hB, hb⟩, hab⟩
    split at hab
    · cases hab
    · rename_i hne
      cases hm : a.mergedWith b with
      | none => rw [hm] at hab; cases hab
      | some m =>
        rw [hm] at hab
        simp only [Option.map_some', Option.some.injEq] at hab
        obtain ⟨m0, h0, hm0⟩ := (QMCImplicant.mergedWith_eq_some a b m).mp hm
        refine ⟨A, hA, a, ha, B, hB, b, hb, hne, m0, h0, ?_⟩
        rw [← hab, hm0]
        rfl
  · rintro ⟨A, hA, a, ha, B, hB, b, hb, hne, m0, h0, hv⟩
    refine ⟨a, ⟨A, hA, ha⟩, b, ⟨B, hB, hb⟩, ?_⟩
    rw [if_neg hne, (QMCImplicant.mergedWith_eq_some a b _).mpr ⟨m0, h0, rfl⟩]
    simp only [Option.map_some', Option.some.injEq]
    exact hv

/-- The round that pairs neighbouring sets only stores the same vectors as
the round over all pairs. -/
theorem roundMerged_iff_spec (I k : Nat) (G : List QMCImplicantSet) (hG : StageOK I k G)
    (v : List TriStateBool) :
    (∃ m ∈ roundMerged G, m.states = v) ↔ v ∈ specRoundVectors G := by
  rw [mem_specRoundVectors]
  constructor
  · rintro ⟨m, hm, hv⟩
    obtain ⟨w, A, B, a, b, hA, hB, ha, hb, hab⟩ := (mem_roundMerged m G).mp hm
    obtain ⟨m0, h0, hm0⟩ := (QMCImplicant.mergedWith_eq_some a b m).mp hab
    have hne := (vectorsMerge_count a.states b.states
      ((tryMerge_iff_vectorsMerge a b).mp ⟨m0, h0⟩)).1
    refine ⟨A, List.getElem?_mem hA, a, ha, B, List.getElem?_mem hB, b, hb, hne, m0, h0, ?_⟩
    rw [← hv, hm0]
    rfl
  · rintro ⟨A, hA, a, ha, B, hB, b, hb, _, m0, h0, hv⟩
    obtain ⟨m, hm, hms⟩ := merged_anywhere I k G hG A B a b m0 hA hB ha hb h0
    exact ⟨m, hm, by rw [hms, hv]⟩

/-- On a well-formed stage an implicant takes part in a successful merge of
the round exactly when the stage holds a vector that merges with its
vector. -/
theorem tookPart_iff_vectorsMerge (I k : Nat) (G : List QMCImplicantSet) (hG : StageOK I k G)
    (w : Nat) (S : QMCImplicantSet) (x : QMCImplicant) (hS : G[w]? = some S)
    (hx : x ∈ S.implicants) :
    TookPart G w x ↔ ∃ S' ∈ G, ∃ y ∈ S'.implicants, VectorsMerge x.states y.states := by
  constructor
  · rintro (⟨b', b, m, h1, hb, hm⟩ | ⟨w0, a', a, m, _, h1, ha, hm⟩)
    · exact ⟨b', List.getElem?_mem h1, b, hb, (tryMerge_iff_vectorsMerge x b).mp ⟨m, hm⟩⟩
    · exact ⟨a', List.getElem?_mem h1, a, ha,
        vectorsMerge_symm _ _ ((tryMerge_iff_vectorsMerge a x).mp ⟨m, hm⟩)⟩
  · rintro ⟨S', hS', y, hy, hvm⟩
    obtain ⟨wy, hwy⟩ := List.mem_iff_getElem?.mp hS'
    obtain ⟨_, hcx, _, _⟩ := (hG.2 w S hS).2 x hx
    obtain ⟨_, hcy, _, _⟩ := (hG.2 wy S' hwy).2 y hy
    rw [QMCImplicant.inputsTrueCount_eq] at hcx hcy
    rcases (vectorsMerge_count _ _ hvm).2 with hc | hc
    · have hwy' : wy = w + 1 := by omega
      subst hwy'
      obtain ⟨m, hm⟩ := (tryMerge_iff_vectorsMerge x y).mpr hvm
      exact Or.inl ⟨S', y, m, hwy, hy, hm⟩
    · obtain ⟨m, hm⟩ := (tryMerge_iff_vectorsMerge y x).mpr (vectorsMerge_symm _ _ hvm)
      exact Or.inr ⟨wy, S', y, m, by omega, hwy, hy, hm⟩

theorem specRoundMarked_iff (G : List QMCImplicantSet) (x : QMCImplicant) :
    specRoundMarked G x = true ↔
      ∃ S' ∈ G, ∃ y ∈ S'.implicants, VectorsMerge x.states y.states := by
  unfold specRoundMarked
  simp only [List.any_eq_true, List.mem_flatMap, Bool.and_eq_true, Bool.not_eq_true',
    decide_eq_false_iff_not, Bool.or_eq_true]
  constructor
  · rintro ⟨y, ⟨S', hS', hy⟩, _, hm | hm⟩
    · exact ⟨S', hS', y, hy,
        (tryMerge_iff_vectorsMerge x y).mp ((QMCImplicant.merges_iff x y).mp hm)⟩
    · exact ⟨S', hS', y, hy, vectorsMerge_symm _ _
        ((tryMerge_iff_vectorsMerge y x).mp ((QMCImplicant.merges_iff y x).mp hm))⟩
  · rintro ⟨S', hS', y, hy, hvm⟩
    refine ⟨y, ⟨S', hS', hy⟩, fun h => (vectorsMerge_count _ _ hvm).1 h.symm, Or.inl ?_⟩
    exact (QMCImplicant.merges_iff x y).mpr ((tryMerge_iff_vectorsMerge x y).mpr hvm)

theorem forall₂_imp_mem {α β : Type} {R R' : α → β → Prop} {l1 : List α} {l2 : List β}
    (h : List.Forall₂ R l1 l2) (himp : ∀ x y, x ∈ l1 → R x y → R' x y) :
    List.Forall₂ R' l1 l2 := by
  induction h with
  | nil => exact List.Forall₂.nil
  | cons hxy _ ih =>
    exact List.Forall₂.cons (himp _ _ (List.mem_cons_self _ _) hxy)
      (ih fun x y hx hr => himp x y (List.mem_cons_of_mem _ hx) hr)

/-- C30: for every stack reached by `QMCStack::initialize` on a grid as the
`KVMap` constructor builds it and `n` calls of `tryMerge`, one more call
completes; the vectors stored in the stage it creates are exactly the result
vectors of `QMCImplicant::tryMerge` over all ordered pairs of implicants with
different vectors taken from anywhere in the previous stage, and an implicant
of the previous stage is prime afterwards exactly when it was prime before and
merges with no implicant with a different vector taken from anywhere in the
previous stage. -/
theorem round_all_pairs (g : KVMap) (hg : g.WellFormed) (n : Nat) :
    ∃ (s0 s s' : QMCStack) (ret : Bool) (prev prev' next : List QMCImplicantSet),
      QMCStack.initialize {} g = some s0 ∧ s0.rounds n = some s ∧
      s.stages.getLast? = some prev ∧ s.tryMerge = some (s', ret) ∧
      s'.stages = s.stages.dropLast ++ [prev', next] ∧
      (∀ v, (∃ S ∈ next, ∃ x ∈ S.implicantSet, x.variableStates = v) ↔
        v ∈ specRoundVectors prev) ∧
      (∀ (w : Nat) (S : QMCImplicantSet), prev[w]? = some S →
        ∃ S', prev'[w]? = some S' ∧
          List.Forall₂ (fun x x' => x'.variableStates = x.variableStates ∧
              x'.isPrime = (x.isPrime && !specRoundMarked prev x))
            S.implicantSet S'.implicantSet) := by
  obtain ⟨s0, h0, hs0, _⟩ := initialize_stackOK g hg
  obtain ⟨s, hr, hs, _⟩ := rounds_stackOK g.variableCount n s0 hs0
  obtain ⟨s', ret, ht, _, _, _⟩ := tryMerge_stackOK g.variableCount s hs
  obtain ⟨prev, hlast⟩ : ∃ prev, s.stages.getLast? = some prev := by
    cases h : s.stages.getLast? with
    | none => exact absurd (List.getLast?_eq_none_iff.mp h) hs.1
    | some G => exact ⟨G, rfl⟩
  obtain ⟨_, hok, hs', _⟩ := tryMerge_completed s s' ret prev hlast ht
  obtain ⟨init, hinit⟩ := List.getLast?_eq_some_iff.mp hlast
  have hG : StageOK g.variableCount init.length prev := by
    apply hs.2
    rw [hinit, List.getElem?_append_right (Nat.le_refl _), Nat.sub_self]
    rfl
  refine ⟨s0, s, s', ret, prev, roundFlags [] prev,
    (roundMerged prev).foldl QMCImplicantSet.addAt (List.replicate prev.length {}),
    h0, hr, hlast, ht, by rw [hs'], ?_, ?_⟩
  · intro v
    rw [← roundMerged_iff_spec _ _ prev hG v]
    exact states_next prev.length prev hok v
  · intro w S hS
    obtain ⟨S', hS', hF⟩ := roundFlags_spec prev w S hS
    refine ⟨S', hS', forall₂_imp_mem hF ?_⟩
    intro x x' hx hR
    obtain ⟨h1, _, h3, h4⟩ := hR
    refine ⟨h1, ?_⟩
    have hiff := (tookPart_iff_vectorsMerge _ _ prev hG w S x hS hx).trans
      (specRoundMarked_iff prev x).symm
    cases hm : specRoundMarked prev x with
    | true =>
      have := h3 (hiff.mpr hm)
      unfold QMCImplicant.isPrime
      rw [this]
      simp
    | false =>
      have hnt : ¬ TookPart prev w x := fun ht => by
        rw [hiff.mp ht] at hm
        cases hm
      have := h4 hnt
      unfold QMCImplicant.isPrime
      rw [this]
      simp

/-- An instance of `round_all_pairs`: the first round on the grid of the
logical OR of two inputs. -/
theorem round_all_pairs_witness :
    (KVMap.ofTable orTable 0).WellFormed ∧
    ∃ (s0 s s' : QMCStack) (ret : Bool) (prev prev' next : List QMCImplicantSet),
      QMCStack.initialize {} (KVMap.ofTable orTable 0) = some s0 ∧ s0.rounds 0 = some s ∧
      s.stages.getLast? = some prev ∧ s.tryMerge = some (s', ret) ∧
      s'.stages = s.stages.dropLast ++ [prev', next] ∧
      ∀ v, (∃ S ∈ next, ∃ x ∈ S.implicantSet, x.variableStates = v) ↔
        v ∈ specRoundVectors prev := by
  obtain ⟨s0, s, s', ret, prev, prev', next, h0, h1, h2, h3, h4, h5, _⟩ :=
    round_all_pairs (KVMap.ofTable orTable 0) (KVMap.ofTable_wellFormed _ _) 0
  exact ⟨KVMap.ofTable_wellFormed _ _, s0, s, s', ret, prev, prev', next, h0, h1, h2, h3, h4, h5⟩

end QMCStack

end LOPT

namespace LOPT

open TriStateBool

/-! ## Theorems: every stage is complete -/

namespace QMCStack

end QMCStack

end LOPT

namespace LOPT

open TriStateBool

/-! ## Theorems: completeness is kept by a round -/

namespace KVMap

end KVMap

namespace QMCStack

end QMCStack

end LOPT

namespace LOPT

open TriStateBool

/-! ## Theorems: the stack between two rounds -/

namespace QMCStack

end QMCStack

end LOPT

namespace LOPT

open TriStateBool

/-! ## Theorems: the prime flags of the finished stack -/

namespace KVMap

end KVMap

namespace QMCStack

end QMCStack

end LOPT

namespace LOPT

open TriStateBool

/-! ## Theorems: the indices of a round stay in range -/

namespace QMCStack

/-- C31: for every stack reached by `QMCStack::initialize` on a grid as the
`KVMap` constructor builds it and `n` calls of `tryMerge`, a further call of
`QMCStack::tryMerge` completes, and for every pair of implicants of
neighbouring sets of the last stage, whatever their prime flags are at the
time of the visit: the two vectors differ, `QMCImplicant::tryMerge` does not
write past the end, on a successful merge the position set to `DONT_CARE` is
smaller than the vector length, and the number of `TRUE` entries of the merged
implicant is smaller than the number of sets of the new stage, so
`targetVector.at` does not fail. -/
theorem round_in_range (g : KVMap) (hg : g.WellFormed) (n : Nat) :
    ∃ (s0 s s' : QMCStack) (ret : Bool) (prev next : List QMCImplicantSet),
      QMCStack.initialize {} g = some s0 ∧ s0.rounds n = some s ∧
      s.stages.getLast? = some prev ∧ s.tryMerge = some (s', ret) ∧
      s'.stages.getLast? = some next ∧ next.length = prev.length ∧
      ∀ (w : Nat) (A B : QMCImplicantSet) (a b : QMCImplicant) (p q : Bool),
        prev[w]? = some A → prev[w + 1]? = some B →
        a ∈ A.implicantSet → b ∈ B.implicantSet →
        (a.markPrime p).variableStates ≠ (b.markPrime q).variableStates ∧
        (a.markPrime p).tryMerge (b.markPrime q) ≠ none ∧
        ∀ m, (a.markPrime p).tryMerge (b.markPrime q) = some (some m) →
          (∃ mergeIndex, mergeIndex < a.variableStates.length ∧
            QMCImplicant.mergeIndexLoop a.variableStates.length a.variableStates
              b.variableStates 0 a.variableStates.length = some mergeIndex ∧
            m.variableStates = a.variableStates.set mergeIndex DONT_CARE) ∧
          m.inputsTrueCount < next.length := by
  obtain ⟨s0, h0, hs0, _⟩ := initialize_stackOK g hg
  obtain ⟨s, hr, hs, _⟩ := rounds_stackOK g.variableCount n s0 hs0
  obtain ⟨s', ret, ht, _, _, _⟩ := tryMerge_stackOK g.variableCount s hs
  obtain ⟨prev, hlast⟩ : ∃ prev, s.stages.getLast? = some prev := by
    cases h : s.stages.getLast? with
    | none => exact absurd (List.getLast?_eq_none_iff.mp h) hs.1
    | some G => exact ⟨G, rfl⟩
  obtain ⟨_, hok, hs', _⟩ := tryMerge_completed s s' ret prev hlast ht
  have hnext : s'.stages.getLast? = some
      ((roundMerged prev).foldl QMCImplicantSet.addAt (List.replicate prev.length {})) := by
    rw [hs']
    simp
  have hlen : ((roundMerged prev).foldl QMCImplicantSet.addAt
      (List.replicate prev.length {})).length = prev.length := by
    rw [QMCImplicantSet.length_foldl_addAt, List.length_replicate]
  refine ⟨s0, s, s', ret, prev, _, h0, hr, hlast, ht, hnext, hlen, ?_⟩
  intro w A B a b p q hA hB ha hb
  have hpair := (roundOK_iff prev.length prev).mp hok w A B a b hA hB ha hb
  have hpair' : (a.markPrime p).pairOK prev.length (b.markPrime q) = true := by
    rw [QMCImplicant.pairOK_markPrime_left]
    exact hpair
  have hnone : (a.markPrime p).tryMerge (b.markPrime q) ≠ none := by
    intro hn
    unfold QMCImplicant.pairOK at hpair'
    rw [hn] at hpair'
    cases hpair'
  refine ⟨?_, hnone, ?_⟩
  · intro heq
    exact hnone ((QMCImplicant.tryMerge_eq_none_iff _ _).mpr heq)
  · intro m hm
    constructor
    · obtain ⟨mergeIndex, h1, h2, h3, _⟩ := QMCImplicant.tryMerge_some _ _ m hm
      exact ⟨mergeIndex, h1, h2, h3⟩
    · unfold QMCImplicant.pairOK at hpair'
      rw [hm] at hpair'
      rw [hlen]
      simpa using hpair'

/-- An instance of `round_in_range`: the second round on the grid of the
logical OR of two inputs. -/
theorem round_in_range_witness :
    (KVMap.ofTable orTable 0).WellFormed ∧
    ∃ (s0 s s' : QMCStack) (ret : Bool) (prev next : List QMCImplicantSet),
      QMCStack.initialize {} (KVMap.ofTable orTable 0) = some s0 ∧ s0.rounds 1 = some s ∧
      s.stages.getLast? = some prev ∧ s.tryMerge = some (s', ret) ∧
      s'.stages.getLast? = some next ∧ next.length = prev.length := by
  obtain ⟨s0, s, s', ret, prev, next, h0, h1, h2, h3, h4, h5, _⟩ :=
    round_in_range (KVMap.ofTable orTable 0) (KVMap.ofTable_wellFormed _ _) 1
  exact ⟨KVMap.ofTable_wellFormed _ _, s0, s, s', ret, prev, next, h0, h1, h2, h3, h4, h5⟩

end QMCStack

end LOPT

namespace LOPT

/-! ## The grid dimensions in the arithmetic of the code -/

namespace KVMap

theorem ncellMachine_eq (I : Nat) (hI : I ≤ 31) : ncellMachine I = 2 ^ I := by
  unfold ncellMachine
  apply Nat.mod_eq_of_lt
  exact Nat.pow_lt_pow_right (by decide) (by omega)

theorem widthMachine_eq (I : Nat) (hI : I ≤ 31) : widthMachine I = widthFor I := by
  unfold widthMachine widthFor
  by_cases h : I % 2 ≠ 0
  · rw [if_pos h, if_pos h, Nat.mod_eq_of_lt (by omega : I + 1 < 2 ^ 32)]
    have h1 := widthFor_eq I
    unfold widthFor at h1
    rw [if_pos h] at h1
    rw [h1]
    apply Nat.mod_eq_of_lt
    exact Nat.pow_lt_pow_right (by decide) (by omega)
  · rw [if_neg h, if_neg h, ncellMachine_eq I hI]

theorem widthFor_pos (I : Nat) : 0 < widthFor I := by
  rw [widthFor_eq]
  exact Nat.pos_pow_of_pos _ (by decide)

theorem heightMachine_eq (I : Nat) (hI : I ≤ 31) : heightMachine I = some (heightFor I) := by
  unfold heightMachine
  rw [widthMachine_eq I hI, ncellMachine_eq I hI,
    if_neg (Nat.pos_iff_ne_zero.mp (widthFor_pos I))]
  rfl

theorem widthMachine_33 : widthMachine 33 = 131072 := by
  unfold widthMachine
  rw [if_pos (by decide)]
  have h : (33 + 1) % 2 ^ 32 = 2 * 17 := by decide
  rw [h, isqrt_two_pow]
  decide

theorem heightMachine_33 : heightMachine 33 = some 0 := by
  unfold heightMachine
  rw [widthMachine_33, if_neg (by decide)]
  have h : ncellMachine 33 = 0 := by decide
  rw [h]

theorem heightMachine_32 : heightMachine 32 = none := by
  have h : widthMachine 32 = 0 := by decide
  unfold heightMachine
  rw [if_pos h]

end KVMap

/-- C8 (counterexample): for 33 input variables the `KVMap` constructor
computes `ncell = 0`, `width = 131072` and `height = 0`: the grid has no cell,
not `2 ^ 33`, and the map from the cells to the assignments of 33 variables is
not a bijection.  For 32 input variables it computes `width = 0` and the
division `ncell / width` is not defined. -/
theorem kvm_grid_wraps :
    KVMap.widthMachine 33 = 131072 ∧ KVMap.heightMachine 33 = some 0 ∧
    131072 * 0 ≠ 2 ^ 33 ∧
    ¬ Function.Bijective
      (fun (cell : Fin 131072 × Fin 0) (v : Fin 33) =>
        kvm_cell_var v.val cell.1.val cell.2.val) ∧
    KVMap.widthMachine 32 = 0 ∧ KVMap.heightMachine 32 = none := by
  refine ⟨KVMap.widthMachine_33, KVMap.heightMachine_33, by decide, ?_, by decide,
    KVMap.heightMachine_32⟩
  intro h
  obtain ⟨cell, _⟩ := h.2 (fun _ => false)
  exact cell.2.elim0

/-- C8 (amended): for every input count `I` of at most 31, the `KVMap`
constructor computes a width and a height, the grid has `width * height =
2 ^ I` cells, and the map sending a grid cell (column < width, row < height)
to the values `kvm_cell_var` gives its `I` variables is a bijection between the
grid cells and the Boolean assignments of `I` variables. -/
theorem kvm_cell_bijective_bounded (I : Nat) (hI : I ≤ 31) :
    ∃ height, KVMap.heightMachine I = some height ∧
      KVMap.widthMachine I * height = 2 ^ I ∧
      Function.Bijective
        (fun (cell : Fin (KVMap.widthMachine I) × Fin height) (v : Fin I) =>
          kvm_cell_var v.val cell.1.val cell.2.val) := by
  refine ⟨KVMap.heightFor I, KVMap.heightMachine_eq I hI, ?_⟩
  rw [KVMap.widthMachine_eq I hI]
  exact kvm_cell_bijective I

/-- An instance of `kvm_cell_bijective_bounded`: three input variables. -/
theorem kvm_cell_bijective_bounded_witness :
    3 ≤ 31 ∧ ∃ height, KVMap.heightMachine 3 = some height ∧
      KVMap.widthMachine 3 * height = 2 ^ 3 ∧
      Function.Bijective
        (fun (cell : Fin (KVMap.widthMachine 3) × Fin height) (v : Fin 3) =>
          kvm_cell_var v.val cell.1.val cell.2.val) :=
  ⟨by decide, kvm_cell_bijective_bounded 3 (by decide)⟩

end LOPT
